import Mathlib

/-!
# Verification of the SourceDetect post-processing pipeline

Shallow embedding of the deterministic post-processing core of
`sourcedetect/sourcedetect.py` (detection decoding, per-frame proximity
clustering, cross-frame union-find grouping, identity and metadata
assignment), together with proofs of the behavioural claims about it.

Conventions of the embedding:
* Python float values are modelled as rationals (`ℚ`): every finite
  float (binary64) is a rational, and comparisons and `int()` truncation
  on float values are exact.  The one place the modelled code performs
  float *arithmetic* on data-dependent values is the `±2` updates of
  the boundary-clamp loops; those are modelled twice: with exact
  rational steps (`clampLow`/`clampHigh`, the idealization under which
  the downstream detection results are stated) and with genuine IEEE-754
  round-to-nearest-even steps (`roundDouble`, `clampLowFloat`/
  `clampHighFloat`).  The two step models agree whenever the update
  incurs no rounding, and provably diverge at large magnitudes, where
  the float update stagnates.
* Python `int()` truncation toward zero is `itrunc`.
* A frame's pixel array is a `List (List ℚ)` of rows; NumPy slice
  clipping (`a[l:u]` clamps `u` to the length) is mirrored by
  `drop`/`take`.
* Python dictionaries are association lists (`alGet?` / `alSet`) whose
  insertion order mirrors the dictionary's iteration order.
* Python `while` loops with data-dependent exit are modelled twice:
  once by well-founded recursion (`clampLow`) and once fuel-based
  (`clampLowFuel`), with theorems connecting the two; unbounded
  recursion over the union-find parent map is modelled with fuel that
  the code's call sites instantiate with `parent.length + 1`.
-/

attribute [local semireducible] Rat.add Rat.mul Rat.sub Rat.inv

set_option maxRecDepth 8000

namespace SourceDetect

/-- A pixel position `(row, col)`, the `(int(py)+…, int(px)+…)` tuples of the code. -/
abbrev Coord : Type := ℤ × ℤ

/-! ## Association lists: the embedding of Python `dict`

`alGet? d k` is `d[k]` (as an `Option`), `alSet d k v` is `d[k] = v`:
an existing key keeps its position in iteration order, a new key is
appended at the end, exactly like a Python dictionary. -/

def alGet? {α β : Type} [DecidableEq α] : List (α × β) → α → Option β
  | [], _ => none
  | (k, v) :: t, x => if x = k then some v else alGet? t x

def alSet {α β : Type} [DecidableEq α] : List (α × β) → α → β → List (α × β)
  | [], x, v => [(x, v)]
  | (k, w) :: t, x, v => if x = k then (k, v) :: t else (k, w) :: alSet t x v

def alKeys {α β : Type} (d : List (α × β)) : List α := d.map Prod.fst

theorem alGet?_alSet_self {α β : Type} [DecidableEq α] (d : List (α × β)) (k : α) (v : β) :
    alGet? (alSet d k v) k = some v := by
  induction d with
  | nil => simp [alSet, alGet?]
  | cons hd t ih =>
    obtain ⟨k', w⟩ := hd
    by_cases h : k = k' <;> simp [alSet, alGet?, h, ih]

theorem alGet?_alSet_ne {α β : Type} [DecidableEq α] (d : List (α × β)) (k x : α) (v : β)
    (h : x ≠ k) : alGet? (alSet d k v) x = alGet? d x := by
  induction d with
  | nil => simp [alSet, alGet?, h]
  | cons hd t ih =>
    obtain ⟨k', w⟩ := hd
    by_cases hk : k = k'
    · subst hk
      simp [alSet, alGet?, h]
    · by_cases hx : x = k' <;> simp [alSet, alGet?, hk, hx, ih]

theorem alKeys_alSet_of_mem {α β : Type} [DecidableEq α] (d : List (α × β)) (k : α) (v : β)
    (h : k ∈ alKeys d) : alKeys (alSet d k v) = alKeys d := by
  induction d with
  | nil => simp [alKeys] at h
  | cons hd t ih =>
    obtain ⟨k', w⟩ := hd
    by_cases hk : k = k'
    · subst hk
      simp [alSet, alKeys]
    · have h' : k ∈ alKeys t := by
        rcases (by simpa [alKeys] using h : k = k' ∨ k ∈ alKeys t) with h1 | h1
        · exact absurd h1 hk
        · exact h1
      have hrec := ih h'
      simp only [alSet, if_neg hk, alKeys, List.map_cons] at hrec ⊢
      rw [hrec]

theorem alKeys_alSet_of_not_mem {α β : Type} [DecidableEq α] (d : List (α × β)) (k : α) (v : β)
    (h : k ∉ alKeys d) : alKeys (alSet d k v) = alKeys d ++ [k] := by
  induction d with
  | nil => simp [alSet, alKeys]
  | cons hd t ih =>
    obtain ⟨k', w⟩ := hd
    have hk : k ≠ k' := by
      intro hkk
      exact h (by simp [alKeys, hkk])
    have h' : k ∉ alKeys t := by
      intro hm
      exact h (by simp [alKeys]; right; simpa [alKeys] using hm)
    have hrec := ih h'
    simp only [alSet, if_neg hk, alKeys, List.map_cons, List.cons_append] at hrec ⊢
    rw [hrec]

theorem alGet?_isSome_iff_mem_keys {α β : Type} [DecidableEq α] (d : List (α × β)) (k : α) :
    (alGet? d k).isSome ↔ k ∈ alKeys d := by
  induction d with
  | nil => simp [alGet?, alKeys]
  | cons hd t ih =>
    obtain ⟨k', w⟩ := hd
    by_cases h : k = k' <;> simp [alGet?, alKeys, h, ih]

/-! ## Python `int()` truncation and the boundary clamp

`detect` (lines 256-264) computes `px, py = mx*grid_size + x1, my*grid_size + y1`
and then runs four `while` loops shifting by `±2` until `int(py)` and
`int(px)` lie in `[2, 509]` (bounds hard-coded for 512-pixel images). -/

/-- Python `int()` on a float: truncation toward zero. -/
def itrunc (q : ℚ) : ℤ := if 0 ≤ q then ⌊q⌋ else ⌈q⌉

theorem itrunc_nonneg (q : ℚ) (h : 0 ≤ q) : itrunc q = ⌊q⌋ := by simp [itrunc, h]

theorem itrunc_lt_iff (q : ℚ) (z : ℤ) (hz : 0 < z) : itrunc q < z ↔ q < z := by
  unfold itrunc
  split
  · exact Int.floor_lt
  · rename_i h
    push_neg at h
    have hle : ⌈q⌉ ≤ 0 := by
      have := Int.ceil_le_ceil (α := ℚ) (le_of_lt h)
      simpa using this
    constructor
    · intro _
      exact lt_of_lt_of_le h (by exact_mod_cast hz.le)
    · intro _
      omega

theorem floor_le_itrunc (q : ℚ) : ⌊q⌋ ≤ itrunc q := by
  unfold itrunc
  split
  · exact le_refl _
  · exact Int.floor_le_ceil q

theorem itrunc_le_ceil (q : ℚ) : itrunc q ≤ ⌈q⌉ := by
  unfold itrunc
  split
  · exact Int.floor_le_ceil q
  · exact le_refl _

theorem floor_add_two (q : ℚ) : ⌊q + 2⌋ = ⌊q⌋ + 2 := by
  have := Int.floor_add_int q 2
  push_cast at this ⊢
  omega

theorem ceil_sub_two (q : ℚ) : ⌈q - 2⌉ = ⌈q⌉ - 2 := by
  have := Int.ceil_sub_int q 2
  push_cast at this ⊢
  omega

/-- Iteration core of `while int(py) < 2: py += 2` with the `+= 2`
taken as exact rational addition (the idealization in which the float
update incurs no rounding; the rounded-step model is `clampLowFloat`
below); the fuel argument is a bound on the remaining iterations,
computed in `clampLow`. -/
def clampLowGo : ℕ → ℚ → ℚ
  | 0, q => q
  | n + 1, q => if itrunc q < 2 then clampLowGo n (q + 2) else q

/-- `while int(py) < 2: py += 2` (lines 257-258 / 259-260), with exact
`+= 2` steps. -/
def clampLow (q : ℚ) : ℚ := clampLowGo ((2 - ⌊q⌋).toNat) q

/-- Iteration core of `while int(py) > 509: py -= 2`, with the `-= 2`
taken as exact rational subtraction (rounded-step model:
`clampHighFloat` below). -/
def clampHighGo : ℕ → ℚ → ℚ
  | 0, q => q
  | n + 1, q => if 509 < itrunc q then clampHighGo n (q - 2) else q

/-- `while int(py) > 509: py -= 2` (lines 261-262 / 263-264), with
exact `-= 2` steps; the bound `509` is hard-coded in the source. -/
def clampHigh (q : ℚ) : ℚ := clampHighGo ((⌈q⌉ - 509).toNat) q

/-- The sequence of clamping loops applied to one coordinate. -/
def pyClamp (q : ℚ) : ℚ := clampHigh (clampLow q)

theorem clampLowGo_stop (n : ℕ) (q : ℚ) (h : ¬itrunc q < 2) : clampLowGo n q = q := by
  cases n with
  | zero => rfl
  | succ n => simp only [clampLowGo, if_neg h]

theorem clampHighGo_stop (n : ℕ) (q : ℚ) (h : ¬509 < itrunc q) : clampHighGo n q = q := by
  cases n with
  | zero => rfl
  | succ n => simp only [clampHighGo, if_neg h]

theorem clampLowGo_congr :
    ∀ n m : ℕ, ∀ q : ℚ, (2 - ⌊q⌋).toNat ≤ n → (2 - ⌊q⌋).toNat ≤ m →
      clampLowGo n q = clampLowGo m q := by
  intro n
  induction n with
  | zero =>
    intro m q hn _
    have hfl : 2 ≤ ⌊q⌋ := by omega
    have hstop : ¬itrunc q < 2 := by
      have := floor_le_itrunc q
      omega
    rw [clampLowGo_stop _ _ hstop, clampLowGo_stop _ _ hstop]
  | succ n ih =>
    intro m q hn hm
    by_cases h : itrunc q < 2
    · have hfl : ⌊q⌋ ≤ itrunc q := floor_le_itrunc q
      have hmeas : (2 - ⌊q + 2⌋).toNat ≤ n := by
        rw [floor_add_two]
        omega
      obtain ⟨m', rfl⟩ : ∃ m', m = m' + 1 := ⟨m - 1, by omega⟩
      have hmeas' : (2 - ⌊q + 2⌋).toNat ≤ m' := by
        rw [floor_add_two]
        omega
      simp only [clampLowGo, if_pos h]
      exact ih m' (q + 2) hmeas hmeas'
    · rw [clampLowGo_stop _ _ h, clampLowGo_stop _ _ h]

theorem clampHighGo_congr :
    ∀ n m : ℕ, ∀ q : ℚ, (⌈q⌉ - 509).toNat ≤ n → (⌈q⌉ - 509).toNat ≤ m →
      clampHighGo n q = clampHighGo m q := by
  intro n
  induction n with
  | zero =>
    intro m q hn _
    have hstop : ¬509 < itrunc q := by
      have := itrunc_le_ceil q
      omega
    rw [clampHighGo_stop _ _ hstop, clampHighGo_stop _ _ hstop]
  | succ n ih =>
    intro m q hn hm
    by_cases h : 509 < itrunc q
    · have hcl : itrunc q ≤ ⌈q⌉ := itrunc_le_ceil q
      have hmeas : (⌈q - 2⌉ - 509).toNat ≤ n := by
        rw [ceil_sub_two]
        omega
      obtain ⟨m', rfl⟩ : ∃ m', m = m' + 1 := ⟨m - 1, by omega⟩
      have hmeas' : (⌈q - 2⌉ - 509).toNat ≤ m' := by
        rw [ceil_sub_two]
        omega
      simp only [clampHighGo, if_pos h]
      exact ih m' (q - 2) hmeas hmeas'
    · rw [clampHighGo_stop _ _ h, clampHighGo_stop _ _ h]

/-- The one-step unfolding law of the first clamp loop. -/
theorem clampLow_eq (q : ℚ) : clampLow q = if itrunc q < 2 then clampLow (q + 2) else q := by
  by_cases h : itrunc q < 2
  · have hfl : ⌊q⌋ ≤ itrunc q := floor_le_itrunc q
    have h1 : 1 ≤ (2 - ⌊q⌋).toNat := by omega
    obtain ⟨k, hk⟩ : ∃ k, (2 - ⌊q⌋).toNat = k + 1 := ⟨(2 - ⌊q⌋).toNat - 1, by omega⟩
    rw [if_pos h]
    unfold clampLow
    rw [hk]
    simp only [clampLowGo, if_pos h]
    apply clampLowGo_congr
    · rw [floor_add_two]; omega
    · exact le_refl _
  · rw [if_neg h]
    unfold clampLow
    exact clampLowGo_stop _ _ h

/-- The one-step unfolding law of the second clamp loop. -/
theorem clampHigh_eq (q : ℚ) :
    clampHigh q = if 509 < itrunc q then clampHigh (q - 2) else q := by
  by_cases h : 509 < itrunc q
  · have hcl : itrunc q ≤ ⌈q⌉ := itrunc_le_ceil q
    obtain ⟨k, hk⟩ : ∃ k, (⌈q⌉ - 509).toNat = k + 1 := ⟨(⌈q⌉ - 509).toNat - 1, by omega⟩
    rw [if_pos h]
    unfold clampHigh
    rw [hk]
    simp only [clampHighGo, if_pos h]
    apply clampHighGo_congr
    · rw [ceil_sub_two]; omega
    · exact le_refl _
  · rw [if_neg h]
    unfold clampHigh
    exact clampHighGo_stop _ _ h

/-- Induction principle following the first clamp loop. -/
theorem clampLow_induction (P : ℚ → Prop)
    (h1 : ∀ q, itrunc q < 2 → P (q + 2) → P q)
    (h2 : ∀ q, ¬itrunc q < 2 → P q) : ∀ q, P q := by
  have key : ∀ n : ℕ, ∀ q : ℚ, (2 - ⌊q⌋).toNat ≤ n → P q := by
    intro n
    induction n with
    | zero =>
      intro q hn
      apply h2
      have := floor_le_itrunc q
      omega
    | succ n ih =>
      intro q hn
      by_cases h : itrunc q < 2
      · have hfl : ⌊q⌋ ≤ itrunc q := floor_le_itrunc q
        exact h1 q h (ih (q + 2) (by rw [floor_add_two]; omega))
      · exact h2 q h
  exact fun q => key ((2 - ⌊q⌋).toNat) q (le_refl _)

/-- Induction principle following the second clamp loop. -/
theorem clampHigh_induction (P : ℚ → Prop)
    (h1 : ∀ q, 509 < itrunc q → P (q - 2) → P q)
    (h2 : ∀ q, ¬509 < itrunc q → P q) : ∀ q, P q := by
  have key : ∀ n : ℕ, ∀ q : ℚ, (⌈q⌉ - 509).toNat ≤ n → P q := by
    intro n
    induction n with
    | zero =>
      intro q hn
      apply h2
      have := itrunc_le_ceil q
      omega
    | succ n ih =>
      intro q hn
      by_cases h : 509 < itrunc q
      · have hcl : itrunc q ≤ ⌈q⌉ := itrunc_le_ceil q
        exact h1 q h (ih (q - 2) (by rw [ceil_sub_two]; omega))
      · exact h2 q h
  exact fun q => key ((⌈q⌉ - 509).toNat) q (le_refl _)

theorem clampLow_itrunc_ge (q : ℚ) : 2 ≤ itrunc (clampLow q) := by
  induction q using clampLow_induction with
  | h1 q h ih => rw [clampLow_eq, if_pos h]; exact ih
  | h2 q h => rw [clampLow_eq, if_neg h]; omega

theorem clampHigh_itrunc_le (q : ℚ) : itrunc (clampHigh q) ≤ 509 := by
  induction q using clampHigh_induction with
  | h1 q h ih => rw [clampHigh_eq, if_pos h]; exact ih
  | h2 q h => rw [clampHigh_eq, if_neg h]; omega

theorem clampHigh_itrunc_ge (q : ℚ) : 2 ≤ itrunc q → 2 ≤ itrunc (clampHigh q) := by
  induction q using clampHigh_induction with
  | h1 q h ih =>
    intro h2
    rw [clampHigh_eq, if_pos h]
    apply ih
    have hq : (509 : ℚ) < q := by
      by_contra hc
      push_neg at hc
      have := (itrunc_lt_iff q 510 (by norm_num)).mpr (lt_of_le_of_lt hc (by norm_num))
      omega
    have h0 : (0 : ℚ) ≤ q - 2 := by linarith
    rw [itrunc_nonneg _ h0]
    have hfs : ⌊q - 2⌋ = ⌊q⌋ - 2 := by
      have := Int.floor_sub_int q 2
      push_cast at this ⊢
      omega
    rw [hfs]
    have h0' : (0 : ℚ) ≤ q := by linarith
    rw [itrunc_nonneg _ h0'] at h
    omega
  | h2 q h =>
    intro h2
    rw [clampHigh_eq, if_neg h]
    exact h2

theorem pyClamp_mem (q : ℚ) : 2 ≤ itrunc (pyClamp q) ∧ itrunc (pyClamp q) ≤ 509 :=
  ⟨clampHigh_itrunc_ge _ (clampLow_itrunc_ge q), clampHigh_itrunc_le _⟩

/-- Fuel-based transcription of `while int(py) < 2: py += 2` with exact
`+= 2` steps, used to express that the exact-step loop terminates:
`none` models fuel exhaustion. -/
def clampLowFuel : ℕ → ℚ → Option ℚ
  | 0, _ => none
  | n + 1, q => if itrunc q < 2 then clampLowFuel n (q + 2) else some q

/-- Fuel-based transcription of `while int(py) > 509: py -= 2` with
exact `-= 2` steps. -/
def clampHighFuel : ℕ → ℚ → Option ℚ
  | 0, _ => none
  | n + 1, q => if 509 < itrunc q then clampHighFuel n (q - 2) else some q

theorem clampLowFuel_adequate (q : ℚ) : ∃ n, clampLowFuel n q = some (clampLow q) := by
  induction q using clampLow_induction with
  | h1 q h ih =>
    obtain ⟨n, hn⟩ := ih
    refine ⟨n + 1, ?_⟩
    calc clampLowFuel (n + 1) q = clampLowFuel n (q + 2) := by
          simp only [clampLowFuel]
          rw [if_pos h]
      _ = some (clampLow (q + 2)) := hn
      _ = some (clampLow q) := by rw [clampLow_eq q, if_pos h]
  | h2 q h =>
    refine ⟨1, ?_⟩
    simp only [clampLowFuel]
    rw [if_neg h, clampLow_eq q, if_neg h]

theorem clampHighFuel_adequate (q : ℚ) : ∃ n, clampHighFuel n q = some (clampHigh q) := by
  induction q using clampHigh_induction with
  | h1 q h ih =>
    obtain ⟨n, hn⟩ := ih
    refine ⟨n + 1, ?_⟩
    calc clampHighFuel (n + 1) q = clampHighFuel n (q - 2) := by
          simp only [clampHighFuel]
          rw [if_pos h]
      _ = some (clampHigh (q - 2)) := hn
      _ = some (clampHigh q) := by rw [clampHigh_eq q, if_pos h]
  | h2 q h =>
    refine ⟨1, ?_⟩
    simp only [clampHighFuel]
    rw [if_neg h, clampHigh_eq q, if_neg h]

/-! ### The clamp loops under genuine IEEE-754 float steps

`px`, `py` are NumPy doubles, so `py += 2` / `py -= 2` compute the
*rounded* sum: `fl(py ± 2) = roundDouble (py ± 2)`.  Rounding to
nearest with ties to even is defined below exactly as in IEEE 754: the
result is the nearest multiple of the unit in the last place
`2 ^ (e - 52)` for `2 ^ e ≤ |q| < 2 ^ (e + 1)` (floored at the
subnormal ulp `2 ^ (-1074)`).  Overflow to infinity cannot arise from
adding or subtracting `2` from a finite double and is not modelled.
At large magnitudes the ulp exceeds `4`, the `±2` update rounds back to
its argument, and the while-loops never exit — unlike their
exact-arithmetic idealizations `clampLow`/`clampHigh` above. -/

/-- Round a rational to the nearest integer, ties to even (the final
step of IEEE-754 round-to-nearest-even after scaling by the ulp). -/
def rne (x : ℚ) : ℤ :=
  if x - (⌊x⌋ : ℚ) < 1 / 2 then ⌊x⌋
  else if (1 / 2 : ℚ) < x - (⌊x⌋ : ℚ) then ⌊x⌋ + 1
  else if 2 ∣ ⌊x⌋ then ⌊x⌋ else ⌊x⌋ + 1

/-- IEEE-754 binary64 rounding (round to nearest, ties to even) of a
real value to the nearest representable double: scale by the ulp of the
value's binade, round to the nearest integer (ties to even), scale
back. -/
def roundDouble (q : ℚ) : ℚ :=
  if q = 0 then 0
  else (rne (q / (2 : ℚ) ^ max (Int.log 2 |q| - 52) (-1074)) : ℚ) *
    (2 : ℚ) ^ max (Int.log 2 |q| - 52) (-1074)

/-- Fuel-based transcription of `while int(py) < 2: py += 2` with the
`+= 2` computed in binary64 float arithmetic. -/
def clampLowFloat : ℕ → ℚ → Option ℚ
  | 0, _ => none
  | n + 1, q => if itrunc q < 2 then clampLowFloat n (roundDouble (q + 2)) else some q

/-- Fuel-based transcription of `while int(py) > 509: py -= 2` with the
`-= 2` computed in binary64 float arithmetic. -/
def clampHighFloat : ℕ → ℚ → Option ℚ
  | 0, _ => none
  | n + 1, q => if 509 < itrunc q then clampHighFloat n (roundDouble (q - 2)) else some q

theorem int_log_eq (q : ℚ) (e : ℤ) (h1 : (2 : ℚ) ^ e ≤ q) (h2 : q < (2 : ℚ) ^ (e + 1)) :
    Int.log 2 q = e := by
  have hq : 0 < q := lt_of_lt_of_le (zpow_pos (by norm_num) e) h1
  have hb : ((2 : ℕ) : ℚ) = (2 : ℚ) := by norm_num
  have hle : e ≤ Int.log 2 q := by
    rw [← Int.zpow_le_iff_le_log (by norm_num) hq, hb]
    exact h1
  have hlt : Int.log 2 q < e + 1 := by
    rw [← Int.lt_zpow_iff_log_lt (by norm_num) hq, hb]
    exact h2
  omega

/-- In the binade `[2^59, 2^60)` the binary64 ulp is `2^7 = 128`, so
`2^60 - 2` rounds up to `2^60`: the float subtraction `2^60 - 2`
returns `2^60` unchanged. -/
theorem roundDouble_pow60 : roundDouble ((2 : ℚ) ^ 60 - 2) = 2 ^ 60 := by
  unfold roundDouble
  rw [if_neg (by norm_num)]
  have habs : |((2 : ℚ) ^ 60 - 2)| = (2 : ℚ) ^ 60 - 2 := abs_of_pos (by norm_num)
  rw [habs]
  rw [int_log_eq _ 59 (by norm_num) (by norm_num)]
  rw [show max ((59 : ℤ) - 52) (-1074) = 7 by decide]
  rw [show ((2 : ℚ) ^ (7 : ℤ)) = 128 by norm_num]
  rw [show rne (((2 : ℚ) ^ 60 - 2) / 128) = 2 ^ 53 by decide]
  norm_num

/-- Symmetrically, the float addition `-2^60 + 2` returns `-2^60`. -/
theorem roundDouble_neg_pow60 : roundDouble (-(2 : ℚ) ^ 60 + 2) = -(2 : ℚ) ^ 60 := by
  unfold roundDouble
  rw [if_neg (by norm_num)]
  have habs : |(-(2 : ℚ) ^ 60 + 2)| = (2 : ℚ) ^ 60 - 2 := by
    rw [abs_of_neg (by norm_num)]
    ring
  rw [habs]
  rw [int_log_eq _ 59 (by norm_num) (by norm_num)]
  rw [show max ((59 : ℤ) - 52) (-1074) = 7 by decide]
  rw [show ((2 : ℚ) ^ (7 : ℤ)) = 128 by norm_num]
  rw [show rne ((-(2 : ℚ) ^ 60 + 2) / 128) = -(2 ^ 53) by decide]
  norm_num

theorem itrunc_pow60 : itrunc ((2 : ℚ) ^ 60) = 2 ^ 60 := by
  rw [itrunc_nonneg _ (by norm_num)]
  rw [show ((2 : ℚ) ^ 60) = (((2 ^ 60 : ℤ)) : ℚ) by push_cast; ring]
  exact Int.floor_intCast _

theorem itrunc_neg_pow60 : itrunc (-(2 : ℚ) ^ 60) = -(2 ^ 60) := by
  unfold itrunc
  rw [if_neg (by norm_num)]
  rw [show (-(2 : ℚ) ^ 60) = (((-(2 ^ 60) : ℤ)) : ℚ) by push_cast; ring]
  exact Int.ceil_intCast _

/-! ## Images and NumPy-style slicing

A frame's pixel array is a list of rows.  `slice2 img r0 r1 c0 c1` is
`img[r0:r1, c0:c1]`; NumPy clamps the upper bound to the array length,
which `drop`/`take` mirror.  All reachable accesses have nonnegative
indices (the clamp guarantees `int(py), int(px) ∈ [2, 509]`), so `toNat`
is exact there. -/

abbrev Image : Type := List (List ℚ)

/-- `flux[r, c]`: pixel lookup (out-of-range reads default to `0`; the
claims only evaluate it in range). -/
def pixel (img : Image) (r c : ℤ) : ℚ := (img.getD r.toNat []).getD c.toNat 0

/-- `img[r0:r1, c0:c1]` as a list of row segments. -/
def slice2 (img : Image) (r0 r1 c0 c1 : ℤ) : List (List ℚ) :=
  ((img.drop r0.toNat).take (r1 - r0).toNat).map
    (fun row => (row.drop c0.toNat).take (c1 - c0).toNat)

/-- `np.min` over a nonempty list (`0` on the empty list, which NumPy
would reject; never reached by the claims). -/
def listMin : List ℚ → ℚ
  | [] => 0
  | x :: xs => xs.foldl min x

/-- `np.max` over a nonempty list. -/
def listMax : List ℚ → ℚ
  | [] => 0
  | x :: xs => xs.foldl max x

/-- The flattened values of a 2-D slice (`np.min`/`np.max` of a 2-D
array reduce over all entries). -/
def sliceVals (img : Image) (r0 r1 c0 c1 : ℤ) : List ℚ :=
  (slice2 img r0 r1 c0 c1).flatten

/-- `np.where(np.abs(w) == np.max(np.abs(w)))` first hit in row-major
order: the `(smax[0][0], smax[1][0])` pair of line 276-277. -/
def argmaxAbs (rows : List (List ℚ)) : ℕ × ℕ :=
  let m := listMax ((rows.map (fun row => row.map (fun v => |v|))).flatten)
  match rows.findIdx? (fun row => row.any (fun v => decide (|v| = m))) with
  | some r => (r, (rows.getD r []).findIdx (fun v => decide (|v| = m)))
  | none => (0, 0)

/-! ## The detection decoder (`detect`, lines 240-311) -/

/-- One grid cell's 8-channel prediction vector
`[prob, x1, y1, x2, y2, bright, dim, trash]`. -/
structure Cell where
  prob : ℚ
  x1 : ℚ
  y1 : ℚ
  x2 : ℚ
  y2 : ℚ
  bright : ℚ
  dim : ℚ
  trash : ℚ
  deriving DecidableEq, Inhabited

/-- One accepted detection: its canonical coordinate `smax_i`, the
clamped integer point `(int(py), int(px))` the filters were evaluated
at, the owning frame, the `bright > dim` bit feeding `variable_flag`,
and the sign of the flux at the canonical coordinate. -/
structure DetRec where
  frame : ℕ
  coord : Coord
  cy : ℤ
  cx : ℤ
  brightBit : Bool
  signPos : Bool
  deriving DecidableEq, Inhabited

/-- `int(px)` after the clamp loops: `px = (mx * grid_size) + x1` (line 256). -/
def clampedX (gridSize mx : ℕ) (cell : Cell) : ℤ :=
  itrunc (pyClamp (mx * gridSize + cell.x1))

/-- `int(py)` after the clamp loops: `py = (my * grid_size) + y1` (line 256). -/
def clampedY (gridSize my : ℕ) (cell : Cell) : ℤ :=
  itrunc (pyClamp (my * gridSize + cell.y1))

/-- The body of `detect`'s per-cell loop (lines 247-291): thresholding,
trash rejection, grid-to-pixel transform, boundary clamp, the four
intensity filters (in order, short-circuit) and the 3×3 refinement.
Returns `none` when the cell is rejected. -/
def processCell (flux : Image) (threshold : ℚ) (gridSize : ℕ) (frame mx my : ℕ)
    (cell : Cell) : Option DetRec :=
  if cell.prob < threshold then none
  else if cell.trash > cell.bright ∧ cell.trash > cell.dim then none
  else if pixel flux (clampedY gridSize my cell) (clampedX gridSize mx cell) > -(3/2) ∧
          pixel flux (clampedY gridSize my cell) (clampedX gridSize mx cell) < 3/2 then none
  else if listMin (sliceVals flux (clampedY gridSize my cell - 1) (clampedY gridSize my cell + 2)
            (clampedX gridSize mx cell - 1) (clampedX gridSize mx cell + 2)) > -(3/2) ∧
          listMax (sliceVals flux (clampedY gridSize my cell - 1) (clampedY gridSize my cell + 2)
            (clampedX gridSize mx cell - 1) (clampedX gridSize mx cell + 2)) < 3/2 then none
  else if listMax (sliceVals flux (clampedY gridSize my cell - 2) (clampedY gridSize my cell + 3)
            (clampedX gridSize mx cell - 2) (clampedX gridSize mx cell + 3)) > 15/2 ∧
          listMin (sliceVals flux (clampedY gridSize my cell - 2) (clampedY gridSize my cell + 3)
            (clampedX gridSize mx cell - 2) (clampedX gridSize mx cell + 3)) < -(15/2) then none
  else if listMax ((sliceVals flux (clampedY gridSize my cell - 1) (clampedY gridSize my cell + 2)
            (clampedX gridSize mx cell - 1)
            (clampedX gridSize mx cell + 2)).map (fun v => |v|)) < 10 then none
  else
    some { frame := frame
           coord := (clampedY gridSize my cell +
               (argmaxAbs (slice2 flux (clampedY gridSize my cell - 1)
                 (clampedY gridSize my cell + 2) (clampedX gridSize mx cell - 1)
                 (clampedX gridSize mx cell + 2))).1 - 1,
             clampedX gridSize mx cell +
               (argmaxAbs (slice2 flux (clampedY gridSize my cell - 1)
                 (clampedY gridSize my cell + 2) (clampedX gridSize mx cell - 1)
                 (clampedX gridSize mx cell + 2))).2 - 1)
           cy := clampedY gridSize my cell
           cx := clampedX gridSize mx cell
           brightBit := decide (cell.dim < cell.bright)
           signPos := decide (0 < pixel flux
             (clampedY gridSize my cell +
               (argmaxAbs (slice2 flux (clampedY gridSize my cell - 1)
                 (clampedY gridSize my cell + 2) (clampedX gridSize mx cell - 1)
                 (clampedX gridSize mx cell + 2))).1 - 1)
             (clampedX gridSize mx cell +
               (argmaxAbs (slice2 flux (clampedY gridSize my cell - 1)
                 (clampedY gridSize my cell + 2) (clampedX gridSize mx cell - 1)
                 (clampedX gridSize mx cell + 2))).2 - 1)) }

/-- One frame of `detect`'s scan: `for mx in range(j): for my in range(i)`
(column-major outer loop, exactly as in the code), collecting accepted
cells in scan order. -/
def detectFrame (flux : Image) (grid : List (List Cell)) (threshold : ℚ) (gridSize : ℕ)
    (frame : ℕ) : List DetRec :=
  let i := grid.length
  let j := (grid.getD 0 []).length
  ((List.range j).map (fun mx =>
    (List.range i).filterMap (fun my =>
      processCell flux threshold gridSize frame mx my ((grid.getD my []).getD mx default)))).flatten

/-- All frames' accepted detections in processing order: the sequence of
appends to `self.sources` / `self.frames`. -/
def detectRecs (fluxes : List Image) (grids : List (List (List Cell))) (threshold : ℚ)
    (gridSize : ℕ) : List DetRec :=
  ((List.range fluxes.length).map (fun a =>
    detectFrame (fluxes.getD a []) (grids.getD a []) threshold gridSize a)).flatten

/-! ## Sorting coordinates (Python `sorted` on tuples: lexicographic) -/

def coordLe (a b : Coord) : Prop := a.1 < b.1 ∨ (a.1 = b.1 ∧ a.2 ≤ b.2)

instance : DecidableRel coordLe := fun a b => by
  unfold coordLe
  infer_instance

instance : IsTotal Coord coordLe :=
  ⟨fun a b => by rcases a with ⟨x, y⟩; rcases b with ⟨z, w⟩; unfold coordLe; dsimp only; omega⟩

instance : IsTrans Coord coordLe :=
  ⟨fun a b c hab hbc => by
    rcases a with ⟨x, y⟩; rcases b with ⟨z, w⟩; rcases c with ⟨u, v⟩
    unfold coordLe at hab hbc ⊢
    dsimp only at hab hbc ⊢
    omega⟩

instance : IsAntisymm Coord coordLe :=
  ⟨fun a b hab hba => by
    rcases a with ⟨x, y⟩; rcases b with ⟨z, w⟩
    unfold coordLe at hab hba
    dsimp only at hab hba
    have : x = z ∧ y = w := by omega
    simp [this.1, this.2]⟩

/-- Python `sorted` on a list of coordinate tuples. -/
def sortC (l : List Coord) : List Coord := List.insertionSort coordLe l

/-- `self.sources_by_frame`: per frame, the sorted list of canonical
coordinates (line 293). -/
def sourcesByFrame (fluxes : List Image) (grids : List (List (List Cell))) (threshold : ℚ)
    (gridSize : ℕ) : List (List Coord) :=
  (List.range fluxes.length).map (fun a =>
    sortC ((detectFrame (fluxes.getD a []) (grids.getD a []) threshold gridSize a).map
      (fun r => r.coord)))

/-! ## `variable_flag` (lines 282-299) -/

/-- The value stored in `variable_flag`: `1*(bright>dim)` is an `int`
(`num b`), a detected disagreement stores the Python `bool` `True`
(`vtrue`). -/
inductive VFlag : Type
  | num (b : Bool)
  | vtrue
  deriving DecidableEq

/-- Python's `stored != 1*(bright>dim)`: `True` compares equal to `1`. -/
def vfNe (v : VFlag) (b : Bool) : Bool :=
  match v with
  | VFlag.num b' => decide (b' ≠ b)
  | VFlag.vtrue => decide (b = false)

/-- One `variable_flag` update at an accepted cell (lines 282-286). -/
def updateVF (m : List (Coord × VFlag)) (c : Coord) (b : Bool) : List (Coord × VFlag) :=
  match alGet? m c with
  | none => alSet m c (VFlag.num b)
  | some v => if vfNe v b then alSet m c VFlag.vtrue else m

/-- The accumulated `variable_flag` map over the detection sequence. -/
def buildVarFlag (l : List (Coord × Bool)) : List (Coord × VFlag) :=
  l.foldl (fun m cb => updateVF m cb.1 cb.2) []

/-- Finalization (lines 296-298): any value that is not a Python `bool`
is coerced to `False`. -/
def finalizeVarFlag (m : List (Coord × VFlag)) : List (Coord × Bool) :=
  m.map (fun e => (e.1, match e.2 with | VFlag.vtrue => true | VFlag.num _ => false))

/-! ## `sourceID` (lines 301-306) and `get_num_detections` (441-460) -/

/-- First-seen-order dense ID assignment over the flat detection list. -/
def buildSourceID (l : List Coord) : List (Coord × ℕ) :=
  (l.foldl (fun st c =>
    if (alGet? st.1 c).isSome then st else (alSet st.1 c st.2, st.2 + 1))
    (([], 0) : List (Coord × ℕ) × ℕ)).1

/-- Per-coordinate occurrence counter over the flat detection list. -/
def get_num_detections (detections : List Coord) : List (Coord × ℕ) :=
  detections.foldl (fun m i =>
    match alGet? m i with
    | some n => alSet m i (n + 1)
    | none => alSet m i 1) []

/-! ## The per-frame proximity clusterer (`close_detect`, lines 140-168)

`close_objs` is a Python list indexed by detection position; we model it
as a function `ℕ → List Coord` updated pointwise.  The double merge
loop (lines 152-158) is a fold over the pair sequence
`[(i, j) : i < n, j < n]` in lexicographic order. -/

/-- The 4-pixel proximity window of line 148. -/
def chebClose (a b : Coord) : Prop := |a.1 - b.1| ≤ 4 ∧ |a.2 - b.2| ≤ 4

instance (a b : Coord) : Decidable (chebClose a b) := by
  unfold chebClose
  infer_instance

/-- Initial adjacency lists (lines 145-149): `close_objs[i]` collects
every other detection within the window, in index order. -/
def initObjs (S : List Coord) : ℕ → List Coord := fun i =>
  (List.range S.length).filterMap (fun j =>
    if i ≠ j ∧ chebClose (S.getD i (0, 0)) (S.getD j (0, 0)) then some (S.getD j (0, 0))
    else none)

/-- Lines 156-158: append each element of `src` to `tgt` unless already
present (the membership test is against the growing target). -/
def extendU (tgt src : List Coord) : List Coord :=
  src.foldl (fun acc v => if v ∈ acc then acc else acc ++ [v]) tgt

/-- One iteration of the merge double loop at pair `(i, j)` (lines
153-158): if `S[i] ∈ close_objs[j]`, merge `close_objs[i]` into
`close_objs[j]`. -/
def mergeStep (S : List Coord) (objs : ℕ → List Coord) (ab : ℕ × ℕ) : ℕ → List Coord :=
  if ab.1 ≠ ab.2 ∧ S.getD ab.1 (0, 0) ∈ objs ab.2 then
    fun k => if k = ab.2 then extendU (objs ab.2) (objs ab.1) else objs k
  else objs

/-- The `(i, j)` pairs of the double loop, in execution order. -/
def pairList (n : ℕ) : List (ℕ × ℕ) :=
  (List.range n).flatMap (fun a => (List.range n).map (fun b => (a, b)))

def mergePass (S : List Coord) (objs : ℕ → List Coord) : ℕ → List Coord :=
  (pairList S.length).foldl (mergeStep S) objs

/-- One frame of `close_detect` (lines 143-162): adjacency, merge pass,
then deduplication of the sorted nonempty lists. -/
def closeDetectFrame (S : List Coord) : List (List Coord) :=
  let objs := mergePass S (initObjs S)
  (List.range S.length).foldl (fun acc i =>
    if objs i ≠ [] ∧ sortC (objs i) ∉ acc then acc ++ [sortC (objs i)] else acc) []

/-- `close_detect` (lines 140-168): the flat cross-frame list
`close_sources` and the per-frame list `close_sources_by_frame`. -/
def close_detect (sbf : List (List Coord)) : List (List Coord) × List (List (List Coord)) :=
  ((sbf.map (fun S => (closeDetectFrame S).filter (fun g => !g.isEmpty))).flatten,
   sbf.map closeDetectFrame)

/-! ## `unique_detect` (lines 171-202)

The inner loop bound (line 192) indexes the flat `close_sources[s]`
while the body indexes `close_sources_by_frame[s][j]`; out-of-range
indexing is Python's `IndexError`, modelled by `none`. -/

/-- The `add` flag for one detection `x` of frame `s` (lines 190-194):
`for j in range(len(close_sources[s]))`, testing membership in
`close_sources_by_frame[s][j][1:]`. -/
def uniqueAdd (x : Coord) (csS : List Coord) (csbfS : List (List Coord)) : Option Bool :=
  (List.range csS.length).foldlM (fun add j =>
    match csbfS.get? j with
    | none => none
    | some g => some (add && !decide (x ∈ g.drop 1))) true

/-- One frame's filtered detection list (lines 187-197). -/
def uniqueFrame (sbfS : List Coord) (csS : List Coord) (csbfS : List (List Coord)) :
    Option (List Coord) :=
  sbfS.foldlM (fun acc x => do
    let add ← uniqueAdd x csS csbfS
    pure (if add then acc ++ [x] else acc)) []

/-- `unique_detect` (lines 184-202); `none` models an uncaught
`IndexError`. -/
def unique_detect (sbf : List (List Coord)) (cs : List (List Coord))
    (csbf : List (List (List Coord))) : Option (List (List Coord)) :=
  (List.range sbf.length).foldlM (fun acc s =>
    let sbfS := sbf.getD s []
    let csbfS := csbf.getD s []
    if 0 < csbfS.length then
      match cs.get? s with
      | none => none
      | some csS => do
          let u ← uniqueFrame sbfS csS csbfS
          pure (acc ++ [u])
    else pure (acc ++ [sbfS])) []

/-! ## The cross-frame grouper (`group_and_id`, lines 344-464)

`find` is general recursion on the mutable parent map; it is modelled
with fuel (call sites pass `parent.length + 1`, proven adequate below)
and `none` models both fuel exhaustion and Python `KeyError`. -/

/-- `find(parent, x)` with path compression (lines 357-361), returning
the root and the updated parent map. -/
def ufFind : ℕ → List (Coord × Coord) → Coord → Option (Coord × List (Coord × Coord))
  | 0, _, _ => none
  | fuel + 1, parent, x =>
    match alGet? parent x with
    | none => none
    | some p =>
      if p = x then some (x, parent)
      else
        match ufFind fuel parent p with
        | none => none
        | some (r, parent') => some (r, alSet parent' x r)

/-- `union(parent, rank, x, y)` (lines 363-374): union by rank. -/
def ufUnion (parent : List (Coord × Coord)) (rank : List (Coord × ℕ)) (x y : Coord) :
    Option (List (Coord × Coord) × List (Coord × ℕ)) :=
  match ufFind (parent.length + 1) parent x with
  | none => none
  | some (rootX, p1) =>
    match ufFind (p1.length + 1) p1 y with
    | none => none
    | some (rootY, p2) =>
      if rootX = rootY then some (p2, rank)
      else
        match alGet? rank rootX, alGet? rank rootY with
        | some rkX, some rkY =>
          if rkY < rkX then some (alSet p2 rootY rootX, rank)
          else if rkX < rkY then some (alSet p2 rootX rootY, rank)
          else some (alSet p2 rootY rootX, alSet rank rootX (rkX + 1))
        | _, _ => none

/-- Lines 394-397: register each unseen coordinate as its own root with
rank 0. -/
def registerCoords (st : List (Coord × Coord) × List (Coord × ℕ)) (L : List Coord) :
    List (Coord × Coord) × List (Coord × ℕ) :=
  L.foldl (fun st c =>
    if (alGet? st.1 c).isSome then st else (alSet st.1 c c, alSet st.2 c 0)) st

/-- Lines 399-400: union each sequential pair of the sublist. -/
def unionAdjacent (st : List (Coord × Coord) × List (Coord × ℕ)) (L : List Coord) :
    Option (List (Coord × Coord) × List (Coord × ℕ)) :=
  (L.zip L.tail).foldlM (fun st p => ufUnion st.1 st.2 p.1 p.2) st

/-- The first phase of `group` (lines 389-400). -/
def ufBuild (css : List (List Coord)) :
    Option (List (Coord × Coord) × List (Coord × ℕ)) :=
  css.foldlM (fun st L => unionAdjacent (registerCoords st L) L) ([], [])

/-- The second phase of `group` (lines 402-408): bucket each sublist
under the root of its first element.  Buckets are Python sets, modelled
as duplicate-free lists in insertion order. -/
def bucketsBuild (parent : List (Coord × Coord)) (css : List (List Coord)) :
    Option (List (Coord × Coord) × List (Coord × List Coord)) :=
  css.foldlM (fun st L =>
    match L with
    | [] => none
    | c :: _ =>
      match ufFind (st.1.length + 1) st.1 c with
      | none => none
      | some (root, p') =>
        some (p', alSet st.2 root (extendU ((alGet? st.2 root).getD []) L)))
    (parent, [])

/-- `group(close_sources)` (lines 376-411). -/
def group (css : List (List Coord)) : Option (List (List Coord)) := do
  let st ← ufBuild css
  let bk ← bucketsBuild st.1 css
  pure (bk.2.map (fun e => e.2))

/-- `IDassign(groups, positions)` (lines 413-439). -/
def IDassign (groups : List (List Coord)) (positions : List Coord) : List (Coord × ℤ) :=
  let idMap : List (List Coord × ℤ) :=
    (groups.zip (List.range groups.length)).foldl
      (fun acc gi => alSet acc (sortC gi.1) (gi.2 : ℤ)) []
  let pid : List (Coord × ℤ) :=
    idMap.foldl (fun acc e => e.1.foldl (fun acc c => alSet acc c e.2) acc) []
  positions.foldl (fun acc c => alSet acc c ((alGet? pid c).getD (-1))) []

/-- `group_and_id` (lines 462-464): `groups`, `groupID`, `n_detections`. -/
def group_and_id (css : List (List Coord)) (positions : List Coord) :
    Option (List (List Coord) × List (Coord × ℤ) × List (Coord × ℕ)) := do
  let groups ← group css
  pure (groups, IDassign groups positions, get_num_detections positions)

/-! ## Helper facts about `listMin` / `listMax` / `argmaxAbs` / `slice2` -/

theorem foldl_min_le_foldl_max (xs : List ℚ) :
    ∀ a b : ℚ, a ≤ b → xs.foldl min a ≤ xs.foldl max b := by
  induction xs with
  | nil => intro a b h; exact h
  | cons y ys ih =>
    intro a b h
    exact ih _ _ (le_trans (min_le_left a y) (le_trans h (le_max_left b y)))

theorem listMin_le_listMax (l : List ℚ) : listMin l ≤ listMax l := by
  cases l with
  | nil => exact le_refl 0
  | cons x xs => exact foldl_min_le_foldl_max xs x x (le_refl x)

theorem argmaxAbs_fst_le (rows : List (List ℚ)) (h3 : rows.length ≤ 3) :
    (argmaxAbs rows).1 ≤ 2 := by
  unfold argmaxAbs
  cases hf : rows.findIdx? (fun row => row.any (fun v => decide (|v| =
      listMax ((rows.map (fun row => row.map (fun v => |v|))).flatten)))) with
  | none =>
    simp only [hf]
    omega
  | some r =>
    have := (List.findIdx?_eq_some_iff_findIdx_eq.mp hf).1
    simp only [hf]
    omega

theorem argmaxAbs_snd_le (rows : List (List ℚ)) (h3 : ∀ row ∈ rows, row.length ≤ 3) :
    (argmaxAbs rows).2 ≤ 2 := by
  unfold argmaxAbs
  cases hf : rows.findIdx? (fun row => row.any (fun v => decide (|v| =
      listMax ((rows.map (fun row => row.map (fun v => |v|))).flatten)))) with
  | none =>
    simp only [hf]
    omega
  | some r =>
    obtain ⟨hr, hp, -⟩ := List.findIdx?_eq_some_iff_getElem.mp hf
    have hgd : rows.getD r [] = rows[r] := List.getD_eq_getElem rows [] hr
    have hex : ∃ v ∈ rows[r], (fun v => decide (|v| =
        listMax ((rows.map (fun row => row.map (fun v => |v|))).flatten))) v = true := by
      simpa [List.any_eq_true] using hp
    have hlt : List.findIdx (fun v => decide (|v| =
        listMax ((rows.map (fun row => row.map (fun v => |v|))).flatten)))
        (rows.getD r []) < (rows.getD r []).length := by
      rw [hgd]
      exact List.findIdx_lt_length_of_exists hex
    have hle2 : (rows.getD r []).length ≤ 3 := by
      rw [hgd]
      exact h3 rows[r] (List.getElem_mem hr)
    simp only [hf]
    omega

theorem slice2_length_le (img : Image) (r0 r1 c0 c1 : ℤ) :
    (slice2 img r0 r1 c0 c1).length ≤ (r1 - r0).toNat := by
  unfold slice2
  rw [List.length_map]
  exact List.length_take_le _ _

theorem slice2_row_length_le (img : Image) (r0 r1 c0 c1 : ℤ) :
    ∀ row ∈ slice2 img r0 r1 c0 c1, row.length ≤ (c1 - c0).toNat := by
  intro row hrow
  unfold slice2 at hrow
  obtain ⟨src, -, rfl⟩ := List.mem_map.mp hrow
  exact List.length_take_le _ _

theorem getD_row_length_le (rows : List (List ℚ)) (r k : ℕ)
    (h : ∀ row ∈ rows, row.length ≤ k) : (rows.getD r []).length ≤ k := by
  by_cases hr : r < rows.length
  · rw [List.getD_eq_getElem rows [] hr]
    exact h _ (List.getElem_mem hr)
  · rw [List.getD_eq_default rows [] (by omega)]
    exact Nat.zero_le k

/-! ## Claim theorems: decoder-side claims -/

/-- **C9 (amended).** With the `±2` updates computed exactly (the
idealization in which no update rounds, which covers every coordinate
whose clamp iterates stay below the magnitude where the binary64 ulp
reaches the step size), the four boundary-clamp `while` loops of
`detect` terminate for every coordinate pair: for each loop some finite
fuel already produces the loop's final value (`clampLowFuel`/
`clampHighFuel` return `none` on fuel exhaustion, so `some` means the
loop exits), and the per-cell clamping step is the total function
`pyClamp` on each axis.  Under genuine float steps this fails: see
`clamp_loop_float_divergence`. -/
theorem clamp_loops_terminate (px py : ℚ) :
    (∃ n1, clampLowFuel n1 py = some (clampLow py)) ∧
    (∃ n2, clampLowFuel n2 px = some (clampLow px)) ∧
    (∃ n3, clampHighFuel n3 (clampLow py) = some (pyClamp py)) ∧
    (∃ n4, clampHighFuel n4 (clampLow px) = some (pyClamp px)) :=
  ⟨clampLowFuel_adequate py, clampLowFuel_adequate px,
   clampHighFuel_adequate (clampLow py), clampHighFuel_adequate (clampLow px)⟩

/-- **C9 (counterexample to the original claim).** Under genuine IEEE-754
binary64 arithmetic the claim "the clamp loops terminate for every
finite float coordinate" is false.  `2^60` is a finite double (mantissa
`2^52`, exponent `8`), but in its binade the ulp is `128`, so the float
update `px -= 2` rounds straight back to `2^60`
(`roundDouble_pow60`): the loop `while int(px) > 509: px -= 2` never
exits, whatever fuel it is given.  Symmetrically `py += 2` stagnates at
`-2^60` and `while int(py) < 2` never exits. -/
theorem clamp_loop_float_divergence :
    (∃ m e : ℤ, |m| < 2 ^ 53 ∧ ((2 : ℚ) ^ 60) = (m : ℚ) * (2 : ℚ) ^ e) ∧
    roundDouble ((2 : ℚ) ^ 60 - 2) = (2 : ℚ) ^ 60 ∧
    roundDouble (-(2 : ℚ) ^ 60 + 2) = -(2 : ℚ) ^ 60 ∧
    (∀ fuel, clampHighFloat fuel ((2 : ℚ) ^ 60) = none) ∧
    (∀ fuel, clampLowFloat fuel (-(2 : ℚ) ^ 60) = none) := by
  refine ⟨⟨2 ^ 52, 8, by norm_num, ?_⟩, roundDouble_pow60, roundDouble_neg_pow60, ?_, ?_⟩
  · push_cast
    norm_num
  · intro fuel
    induction fuel with
    | zero => rfl
    | succ n ih =>
      simp only [clampHighFloat]
      rw [if_pos (by rw [itrunc_pow60]; norm_num)]
      rw [roundDouble_pow60]
      exact ih
  · intro fuel
    induction fuel with
    | zero => rfl
    | succ n ih =>
      simp only [clampLowFloat]
      rw [if_pos (by rw [itrunc_neg_pow60]; norm_num)]
      rw [roundDouble_neg_pow60]
      exact ih

/-- **C4.** A grid cell produces a detection iff: its probability is at
least the threshold, its trash score does not exceed both `bright` and
`dim`, and at the clamped point all four intensity filters pass — the
single pixel is not strictly inside `(-1.5, 1.5)`; the 3×3 min and max
are not both inside `(-1.5, 1.5)`; not (5×5 max `> 7.5` and 5×5 min
`< -7.5`); and not (3×3 max absolute value `< 10`).  The conjunction is
listed in the code's short-circuit order. -/
theorem cell_detection_iff (flux : Image) (threshold : ℚ) (gridSize : ℕ)
    (frame mx my : ℕ) (cell : Cell) :
    (processCell flux threshold gridSize frame mx my cell).isSome ↔
      (threshold ≤ cell.prob ∧
       ¬(cell.bright < cell.trash ∧ cell.dim < cell.trash) ∧
       ¬(-(3/2) < pixel flux (clampedY gridSize my cell) (clampedX gridSize mx cell) ∧
         pixel flux (clampedY gridSize my cell) (clampedX gridSize mx cell) < 3/2) ∧
       ¬((-(3/2) < listMin (sliceVals flux (clampedY gridSize my cell - 1)
              (clampedY gridSize my cell + 2) (clampedX gridSize mx cell - 1)
              (clampedX gridSize mx cell + 2)) ∧
          listMin (sliceVals flux (clampedY gridSize my cell - 1)
              (clampedY gridSize my cell + 2) (clampedX gridSize mx cell - 1)
              (clampedX gridSize mx cell + 2)) < 3/2) ∧
         (-(3/2) < listMax (sliceVals flux (clampedY gridSize my cell - 1)
              (clampedY gridSize my cell + 2) (clampedX gridSize mx cell - 1)
              (clampedX gridSize mx cell + 2)) ∧
          listMax (sliceVals flux (clampedY gridSize my cell - 1)
              (clampedY gridSize my cell + 2) (clampedX gridSize mx cell - 1)
              (clampedX gridSize mx cell + 2)) < 3/2)) ∧
       ¬(15/2 < listMax (sliceVals flux (clampedY gridSize my cell - 2)
              (clampedY gridSize my cell + 3) (clampedX gridSize mx cell - 2)
              (clampedX gridSize mx cell + 3)) ∧
         listMin (sliceVals flux (clampedY gridSize my cell - 2)
              (clampedY gridSize my cell + 3) (clampedX gridSize mx cell - 2)
              (clampedX gridSize mx cell + 3)) < -(15/2)) ∧
       ¬(listMax ((sliceVals flux (clampedY gridSize my cell - 1)
              (clampedY gridSize my cell + 2) (clampedX gridSize mx cell - 1)
              (clampedX gridSize mx cell + 2)).map (fun v => |v|)) < 10)) := by
  have hminmax := listMin_le_listMax (sliceVals flux (clampedY gridSize my cell - 1)
    (clampedY gridSize my cell + 2) (clampedX gridSize mx cell - 1)
    (clampedX gridSize mx cell + 2))
  unfold processCell
  split_ifs with h1 h2 h3 h4 h5 h6
  · simp only [Option.isSome_none, Bool.false_eq_true, false_iff]
    intro hc
    exact absurd h1 (not_lt.mpr hc.1)
  · simp only [Option.isSome_none, Bool.false_eq_true, false_iff]
    intro hc
    exact hc.2.1 ⟨h2.1, h2.2⟩
  · simp only [Option.isSome_none, Bool.false_eq_true, false_iff]
    intro hc
    exact hc.2.2.1 ⟨h3.1, h3.2⟩
  · simp only [Option.isSome_none, Bool.false_eq_true, false_iff]
    intro hc
    exact hc.2.2.2.1 ⟨⟨h4.1, lt_of_le_of_lt hminmax h4.2⟩, ⟨lt_of_lt_of_le h4.1 hminmax, h4.2⟩⟩
  · simp only [Option.isSome_none, Bool.false_eq_true, false_iff]
    intro hc
    exact hc.2.2.2.2.1 ⟨h5.1, h5.2⟩
  · simp only [Option.isSome_none, Bool.false_eq_true, false_iff]
    intro hc
    exact hc.2.2.2.2.2 h6
  · simp only [Option.isSome_some, true_iff]
    refine ⟨not_lt.mp h1, h2, h3, ?_, h5, h6⟩
    intro hc
    exact h4 ⟨hc.1.1, hc.2.2⟩

/-- **C3 (amended).** Every detection evaluates its intensity filters at
a clamped integer point inside `[2, 509]` on both axes (the code
hard-codes the bounds of a 512-pixel image instead of using
`image_dimension - 3`), and the recorded canonical coordinate (the 3×3
absolute-maximum pixel) differs from the clamped point by at most 1 in
each axis. -/
theorem detection_interior_bounds (flux : Image) (threshold : ℚ) (gridSize : ℕ)
    (frame mx my : ℕ) (cell : Cell) (d : DetRec)
    (h : processCell flux threshold gridSize frame mx my cell = some d) :
    (2 ≤ d.cy ∧ d.cy ≤ 509 ∧ 2 ≤ d.cx ∧ d.cx ≤ 509) ∧
    |d.coord.1 - d.cy| ≤ 1 ∧ |d.coord.2 - d.cx| ≤ 1 := by
  unfold processCell at h
  split_ifs at h <;> try exact Option.noConfusion h
  obtain rfl : _ = d := Option.some.inj h
  constructor
  · refine ⟨(pyClamp_mem _).1, (pyClamp_mem _).2, (pyClamp_mem _).1, (pyClamp_mem _).2⟩
  · set cy := clampedY gridSize my cell
    set cx := clampedX gridSize mx cell
    set s := argmaxAbs (slice2 flux (cy - 1) (cy + 2) (cx - 1) (cx + 2)) with hs
    have h1 : s.1 ≤ 2 := by
      apply argmaxAbs_fst_le
      have := slice2_length_le flux (cy - 1) (cy + 2) (cx - 1) (cx + 2)
      omega
    have h2 : s.2 ≤ 2 := by
      apply argmaxAbs_snd_le
      intro row hrow
      have := slice2_row_length_le flux (cy - 1) (cy + 2) (cx - 1) (cx + 2) row hrow
      omega
    constructor
    · simp only []
      have : (cy + (s.1 : ℤ) - 1) - cy = (s.1 : ℤ) - 1 := by ring
      rw [this]
      rw [abs_le]
      omega
    · simp only []
      have : (cx + (s.2 : ℤ) - 1) - cx = (s.2 : ℤ) - 1 := by ring
      rw [this]
      rw [abs_le]
      omega

/-! ## Concrete inputs for counterexamples and witnesses -/

/-- A prediction cell that never fires (`prob = 0 < threshold`). -/
def cellZero : Cell := ⟨0, 0, 0, 0, 0, 0, 0, 0⟩

/-- An 8×8 image whose only signal is a strong peak (value 50) at pixel
`(6, 6)`; background zero. -/
def fluxDim8 : Image :=
  (List.range 8).map (fun r => (List.range 8).map (fun c => if r = 6 ∧ c = 6 then 50 else 0))

/-- A confident cell at grid `(my, mx) = (1, 1)` predicting offsets
`2.3`, so `px = py = 6.3` and the clamped point is `(6, 6)`. -/
def cellPeak66 : Cell :=
  { prob := 9/10, x1 := 23/10, y1 := 23/10, x2 := 0, y2 := 0, bright := 1, dim := 0, trash := 0 }

def gridDim8 : List (List Cell) := [[cellZero, cellZero], [cellZero, cellPeak66]]

/-- The single detection produced on `fluxDim8`/`gridDim8`. -/
def detDim8 : DetRec :=
  { frame := 0, coord := (6, 6), cy := 6, cx := 6, brightBit := true, signPos := true }

/-- **C3, counterexample.** On an image of dimension 8 the pipeline
produces a detection whose clamped point `(6, 6)` satisfies the
hard-coded bound `509` but violates `image_dimension - 3 = 5`: the
claim's bound `[2, image_dimension - 3]` fails for non-512 images. -/
theorem detection_bounds_counterexample :
    detectFrame fluxDim8 gridDim8 (8/10) 4 0 = [detDim8] ∧
    fluxDim8.length = 8 ∧
    ¬(detDim8.cy ≤ (fluxDim8.length : ℤ) - 3) := by
  refine ⟨by decide, by decide, by decide⟩

/-- Witness for the amended C3 theorem at the concrete detection above. -/
theorem detection_interior_bounds_witness :
    (2 ≤ detDim8.cy ∧ detDim8.cy ≤ 509 ∧ 2 ≤ detDim8.cx ∧ detDim8.cx ≤ 509) ∧
    |detDim8.coord.1 - detDim8.cy| ≤ 1 ∧ |detDim8.coord.2 - detDim8.cx| ≤ 1 :=
  detection_interior_bounds fluxDim8 (8/10) 4 0 1 1 cellPeak66 detDim8 (by decide)

/-! ## C7: `n_detections` -/

theorem alSet_eq_append (m : List (Coord × ℕ)) (k : Coord) (v : ℕ)
    (h : alGet? m k = none) : alSet m k v = m ++ [(k, v)] := by
  induction m with
  | nil => rfl
  | cons e t ih =>
    obtain ⟨k', w⟩ := e
    by_cases hk : k = k'
    · subst hk
      simp [alGet?] at h
    · simp only [alGet?, if_neg hk] at h
      simp only [alSet, if_neg hk, List.cons_append]
      rw [ih h]

theorem map_snd_sum_alSet (m : List (Coord × ℕ)) (k : Coord) (n v : ℕ)
    (h : alGet? m k = some n) :
    ((alSet m k v).map Prod.snd).sum + n = (m.map Prod.snd).sum + v := by
  induction m with
  | nil => simp [alGet?] at h
  | cons e t ih =>
    obtain ⟨k', w⟩ := e
    by_cases hk : k = k'
    · subst hk
      simp only [alGet?, if_pos rfl] at h
      obtain rfl : w = n := Option.some.inj h
      simp [alSet]
      omega
    · simp only [alGet?, if_neg hk] at h
      simp only [alSet, if_neg hk, List.map_cons, List.sum_cons]
      have := ih h
      omega

/-- The per-step counter used by `get_num_detections`. -/
def gndStep (m : List (Coord × ℕ)) (i : Coord) : List (Coord × ℕ) :=
  match alGet? m i with
  | some n => alSet m i (n + 1)
  | none => alSet m i 1

theorem get_num_detections_eq_foldl (l : List Coord) :
    get_num_detections l = l.foldl gndStep [] := rfl

theorem gnd_go_get (l : List Coord) :
    ∀ (m : List (Coord × ℕ)) (c : Coord),
      alGet? (l.foldl gndStep m) c =
        match alGet? m c with
        | some n => some (n + l.count c)
        | none => if c ∈ l then some (l.count c) else none := by
  induction l with
  | nil =>
    intro m c
    simp only [List.foldl_nil, List.count_nil, List.not_mem_nil, if_false]
    cases h : alGet? m c <;> simp
  | cons x t ih =>
    intro m c
    simp only [List.foldl_cons]
    rw [ih]
    by_cases hcx : c = x
    · subst hcx
      have hcnt : List.count c (c :: t) = List.count c t + 1 := by
        simp
      cases hm : alGet? m c with
      | some n =>
        have hstep : alGet? (gndStep m c) c = some (n + 1) := by
          simp only [gndStep, hm]
          exact alGet?_alSet_self m c (n + 1)
        simp only [hstep, hcnt]
        congr 1
        omega
      | none =>
        have hstep : alGet? (gndStep m c) c = some 1 := by
          simp only [gndStep, hm]
          exact alGet?_alSet_self m c 1
        simp only [hstep, hcnt, if_pos (List.mem_cons_self c t)]
        congr 1
        omega
    · have hstep : alGet? (gndStep m x) c = alGet? m c := by
        simp only [gndStep]
        cases alGet? m x <;> exact alGet?_alSet_ne m x c _ hcx
      rw [hstep]
      have hcnt : List.count c (x :: t) = List.count c t := by
        simp [List.count_cons, hcx]
      rw [hcnt]
      have hmem : (c ∈ x :: t) ↔ (c ∈ t) := by
        simp [List.mem_cons, hcx]
      cases hm : alGet? m c with
      | some n => rfl
      | none => simp only [hmem]

theorem gnd_go_sum (l : List Coord) :
    ∀ m : List (Coord × ℕ),
      ((l.foldl gndStep m).map Prod.snd).sum = (m.map Prod.snd).sum + l.length := by
  induction l with
  | nil => intro m; simp
  | cons x t ih =>
    intro m
    simp only [List.foldl_cons, List.length_cons]
    rw [ih]
    have hstep : ((gndStep m x).map Prod.snd).sum = (m.map Prod.snd).sum + 1 := by
      cases hm : alGet? m x with
      | some n =>
        have heq : gndStep m x = alSet m x (n + 1) := by
          simp only [gndStep, hm]
        rw [heq]
        have := map_snd_sum_alSet m x n (n + 1) hm
        omega
      | none =>
        have heq : gndStep m x = alSet m x 1 := by
          simp only [gndStep, hm]
        rw [heq, alSet_eq_append m x 1 hm]
        simp
    rw [hstep]
    omega

/-- **C7 (amended).** `n_detections` maps every detected coordinate to
its number of occurrences in the flat detection list `sources` (not to
the number of distinct frames: a frame can detect the same coordinate
twice), and the per-coordinate counts sum to the length of `sources`. -/
theorem n_detections_counts (sources : List Coord) :
    (∀ c : Coord, alGet? (get_num_detections sources) c =
      if c ∈ sources then some (sources.count c) else none) ∧
    ((get_num_detections sources).map Prod.snd).sum = sources.length := by
  constructor
  · intro c
    rw [get_num_detections_eq_foldl, gnd_go_get]
    simp [alGet?]
  · rw [get_num_detections_eq_foldl, gnd_go_sum]
    simp

/-- An 8×8 image with a single strong peak at `(5, 5)`. -/
def fluxDup : Image :=
  (List.range 8).map (fun r => (List.range 8).map (fun c => if r = 5 ∧ c = 5 then 50 else 0))

/-- Cell `(my, mx) = (0, 0)` pointing at `(5.3, 5.3)`. -/
def cellDupA : Cell :=
  { prob := 9/10, x1 := 53/10, y1 := 53/10, x2 := 0, y2 := 0, bright := 1, dim := 0, trash := 0 }

/-- Cell `(my, mx) = (0, 1)` pointing at `(5.3, 5.3)` as well. -/
def cellDupB : Cell :=
  { prob := 9/10, x1 := 13/10, y1 := 53/10, x2 := 0, y2 := 0, bright := 1, dim := 0, trash := 0 }

def gridDup : List (List Cell) := [[cellDupA, cellDupB], [cellZero, cellZero]]

/-- **C7, counterexample.** One frame detects `(5, 5)` twice (two grid
cells refine to the same 3×3 peak), so `n_detections` maps `(5, 5)` to
2 while the number of frames in which `(5, 5)` was detected is 1. -/
theorem n_detections_counterexample :
    (detectRecs [fluxDup] [gridDup] (8/10) 4).map (fun r => r.coord) = [(5, 5), (5, 5)] ∧
    alGet? (get_num_detections
      ((detectRecs [fluxDup] [gridDup] (8/10) 4).map (fun r => r.coord))) (5, 5) = some 2 ∧
    (((detectRecs [fluxDup] [gridDup] (8/10) 4).filter
      (fun r => decide (r.coord = (5, 5)))).map (fun r => r.frame)).dedup = [0] ∧
    (2 : ℕ) ≠ 1 := by
  refine ⟨by decide, by decide, by decide, by decide⟩

/-! ## C8: `sourceID` -/

/-- The distinct coordinates of `l` in first-encounter order. -/
def firstSeen (l : List Coord) : List Coord :=
  l.foldl (fun acc c => if c ∈ acc then acc else acc ++ [c]) []

theorem firstSeen_go_mem (l : List Coord) :
    ∀ (seen : List Coord) (x : Coord),
      x ∈ l.foldl (fun acc c => if c ∈ acc then acc else acc ++ [c]) seen ↔
        x ∈ seen ∨ x ∈ l := by
  induction l with
  | nil => intro seen x; simp
  | cons c t ih =>
    intro seen x
    simp only [List.foldl_cons]
    by_cases hc : c ∈ seen
    · rw [if_pos hc, ih]
      constructor
      · rintro (h | h)
        · exact Or.inl h
        · exact Or.inr (List.mem_cons_of_mem c h)
      · rintro (h | h)
        · exact Or.inl h
        · rcases List.mem_cons.mp h with rfl | h
          · exact Or.inl hc
          · exact Or.inr h
    · rw [if_neg hc, ih]
      simp only [List.mem_append, List.mem_singleton, List.mem_cons]
      tauto

theorem firstSeen_go_nodup (l : List Coord) :
    ∀ seen : List Coord, seen.Nodup →
      (l.foldl (fun acc c => if c ∈ acc then acc else acc ++ [c]) seen).Nodup := by
  induction l with
  | nil => intro seen h; exact h
  | cons c t ih =>
    intro seen h
    simp only [List.foldl_cons]
    by_cases hc : c ∈ seen
    · rw [if_pos hc]; exact ih seen h
    · rw [if_neg hc]
      apply ih
      rw [List.nodup_append]
      exact ⟨h, List.nodup_singleton c, by simpa using hc⟩

theorem firstSeen_mem (l : List Coord) (x : Coord) : x ∈ firstSeen l ↔ x ∈ l := by
  unfold firstSeen
  rw [firstSeen_go_mem]
  simp

theorem firstSeen_nodup (l : List Coord) : (firstSeen l).Nodup :=
  firstSeen_go_nodup l [] List.nodup_nil

theorem alKeys_zip_range (seen : List Coord) :
    alKeys (seen.zip (List.range seen.length)) = seen := by
  unfold alKeys
  exact List.map_fst_zip seen (List.range seen.length) (by simp)

theorem buildSourceID_go (l : List Coord) :
    ∀ seen : List Coord,
      l.foldl (fun st c =>
          if (alGet? st.1 c).isSome then st else (alSet st.1 c st.2, st.2 + 1))
        (seen.zip (List.range seen.length), seen.length) =
      ((l.foldl (fun acc c => if c ∈ acc then acc else acc ++ [c]) seen).zip
        (List.range (l.foldl (fun acc c => if c ∈ acc then acc else acc ++ [c]) seen).length),
       (l.foldl (fun acc c => if c ∈ acc then acc else acc ++ [c]) seen).length) := by
  induction l with
  | nil => intro seen; rfl
  | cons c t ih =>
    intro seen
    simp only [List.foldl_cons]
    by_cases hc : c ∈ seen
    · have hsome : (alGet? (seen.zip (List.range seen.length)) c).isSome := by
        rw [alGet?_isSome_iff_mem_keys, alKeys_zip_range]
        exact hc
      rw [if_pos hsome, if_pos hc]
      exact ih seen
    · have hnone : alGet? (seen.zip (List.range seen.length)) c = none := by
        cases h : alGet? (seen.zip (List.range seen.length)) c with
        | none => rfl
        | some v =>
          exfalso
          apply hc
          rw [← alKeys_zip_range seen, ← alGet?_isSome_iff_mem_keys]
          rw [h]
          rfl
      rw [if_neg (by rw [hnone]; simp), if_neg hc]
      have hset : alSet (seen.zip (List.range seen.length)) c seen.length =
          (seen ++ [c]).zip (List.range (seen ++ [c]).length) := by
        rw [alSet_eq_append _ _ _ hnone]
        have hlen : (seen ++ [c]).length = seen.length + 1 := by simp
        rw [hlen, List.range_succ, List.zip_append (by simp)]
        rfl
      rw [hset]
      have hlen : (seen ++ [c]).length = seen.length + 1 := by simp
      rw [← hlen]
      exact ih (seen ++ [c])

theorem buildSourceID_eq (l : List Coord) :
    buildSourceID l = (firstSeen l).zip (List.range (firstSeen l).length) := by
  unfold buildSourceID firstSeen
  have := buildSourceID_go l []
  simp only [List.zip_nil_left, List.length_nil, List.range_zero] at this
  rw [this]

/-- **C8.** `sourceID` pairs the distinct detected coordinates, in
first-encounter order over the flat detection list, with the IDs
`0, 1, …, k-1` in that order (`k` = number of distinct coordinates): the
map literally equals `firstSeen` zipped with `range k`, its assigned IDs
are exactly `{0, …, k-1}` with no gaps or duplicates, and `k` is the
number of distinct coordinates. -/
theorem sourceID_dense_first_seen (sources : List Coord) :
    buildSourceID sources =
      (firstSeen sources).zip (List.range (firstSeen sources).length) ∧
    (buildSourceID sources).map Prod.snd = List.range (firstSeen sources).length ∧
    (firstSeen sources).length = sources.toFinset.card := by
  refine ⟨buildSourceID_eq sources, ?_, ?_⟩
  · rw [buildSourceID_eq]
    exact List.map_snd_zip _ _ (by simp)
  · have hset : sources.toFinset = (firstSeen sources).toFinset := by
      ext x
      simp [List.mem_toFinset, firstSeen_mem]
    rw [hset, List.toFinset_card_of_nodup (firstSeen_nodup sources)]

/-! ## C6: `variable_flag` -/

/-- The sequence of `bright > dim` bits recorded at coordinate `c`, in
detection order. -/
def bitsOf (l : List (Coord × Bool)) (c : Coord) : List Bool :=
  (l.filter (fun e => decide (e.1 = c))).map Prod.snd

theorem buildVarFlag_snoc (l : List (Coord × Bool)) (e : Coord × Bool) :
    buildVarFlag (l ++ [e]) = updateVF (buildVarFlag l) e.1 e.2 := by
  unfold buildVarFlag
  rw [List.foldl_append]
  rfl

theorem updateVF_get_ne (m : List (Coord × VFlag)) (c' : Coord) (b : Bool) (c : Coord)
    (h : c ≠ c') : alGet? (updateVF m c' b) c = alGet? m c := by
  unfold updateVF
  cases h' : alGet? m c' with
  | none =>
    simp only [h']
    exact alGet?_alSet_ne m c' c _ h
  | some v =>
    simp only [h']
    by_cases hne : vfNe v b
    · rw [if_pos hne]
      exact alGet?_alSet_ne m c' c _ h
    · rw [if_neg hne]

theorem bitsOf_append (l : List (Coord × Bool)) (e : Coord × Bool) (c : Coord) :
    bitsOf (l ++ [e]) c = bitsOf l c ++ (if e.1 = c then [e.2] else []) := by
  unfold bitsOf
  rw [List.filter_append]
  by_cases h : e.1 = c
  · simp [h]
  · simp [h]

theorem buildVarFlag_get (l : List (Coord × Bool)) (c : Coord) :
    alGet? (buildVarFlag l) c =
      match bitsOf l c with
      | [] => none
      | b :: bs => some (if bs.all (fun x => x = b) then VFlag.num b else VFlag.vtrue) := by
  induction l using List.reverseRecOn with
  | nil => rfl
  | append_singleton t e ih =>
    rw [buildVarFlag_snoc, bitsOf_append]
    by_cases hce : e.1 = c
    · have hc' : c = e.1 := hce.symm
      rw [if_pos hce]
      subst hc'
      cases hb : bitsOf t e.1 with
      | nil =>
        have hstored : alGet? (buildVarFlag t) e.1 = none := by rw [ih, hb]
        unfold updateVF
        simp only [hstored, List.nil_append]
        exact alGet?_alSet_self _ _ _
      | cons b bs =>
        by_cases hall : (bs.all (fun x => x = b)) = true
        · have hstored : alGet? (buildVarFlag t) e.1 = some (VFlag.num b) := by
            rw [ih, hb]
            simp only [if_pos hall]
          unfold updateVF
          simp only [hstored]
          by_cases hbe : vfNe (VFlag.num b) e.2 = true
          · simp only [if_pos hbe]
            simp only [vfNe, decide_eq_true_eq] at hbe
            have hne : ¬ e.2 = b := fun hh => hbe hh.symm
            have happ : ((bs ++ [e.2]).all (fun x => x = b)) = false := by
              rw [List.all_append]
              have h2 : ([e.2].all (fun x => x = b)) = false := by
                simp [hne]
              rw [h2, Bool.and_false]
            rw [alGet?_alSet_self]
            simp only [List.cons_append, happ]
            simp
          · simp only [if_neg hbe]
            simp only [vfNe, decide_eq_true_eq, not_not] at hbe
            have happ : ((bs ++ [e.2]).all (fun x => x = b)) = true := by
              rw [List.all_append]
              have h2 : ([e.2].all (fun x => x = b)) = true := by
                simp [hbe.symm]
              rw [h2, hall, Bool.true_and]
            rw [hstored]
            simp only [List.cons_append, happ]
            simp
        · have hfalse : (bs.all (fun x => x = b)) = false := Bool.eq_false_iff.mpr hall
          have hstored : alGet? (buildVarFlag t) e.1 = some VFlag.vtrue := by
            rw [ih, hb]
            simp only [if_neg hall]
          unfold updateVF
          simp only [hstored]
          have happ : ((bs ++ [e.2]).all (fun x => x = b)) = false := by
            rw [List.all_append, hfalse]
            simp
          by_cases hbe : vfNe VFlag.vtrue e.2 = true
          · simp only [if_pos hbe]
            rw [alGet?_alSet_self]
            simp only [List.cons_append, happ]
            simp
          · simp only [if_neg hbe]
            rw [hstored]
            simp only [List.cons_append, happ]
            simp
    · rw [if_neg hce]
      rw [updateVF_get_ne _ _ _ _ (fun h => hce h.symm), ih]
      simp

theorem finalizeVarFlag_get (m : List (Coord × VFlag)) (c : Coord) :
    alGet? (finalizeVarFlag m) c =
      (alGet? m c).map (fun v => match v with | VFlag.vtrue => true | VFlag.num _ => false) := by
  induction m with
  | nil => rfl
  | cons e t ih =>
    obtain ⟨k, v⟩ := e
    by_cases hk : c = k
    · subst hk
      simp [finalizeVarFlag, alGet?]
    · simp only [finalizeVarFlag, List.map_cons] at ih ⊢
      simp only [alGet?, if_neg hk]
      exact ih

theorem bitsOf_nil_iff (l : List (Coord × Bool)) (c : Coord) :
    bitsOf l c = [] ↔ c ∉ l.map Prod.fst := by
  unfold bitsOf
  rw [List.map_eq_nil_iff, List.filter_eq_nil_iff]
  constructor
  · intro h hmem
    obtain ⟨e, he, hfst⟩ := List.mem_map.mp hmem
    exact absurd (by simpa using hfst) (by simpa using h e he)
  · intro h e he
    simp only [decide_eq_true_eq]
    intro hfst
    exact h (List.mem_map.mpr ⟨e, he, hfst⟩)

theorem all_eq_false_iff_disagree (b : Bool) (bs : List Bool) :
    (bs.all (fun x => x = b)) = false ↔
      (true ∈ b :: bs ∧ false ∈ b :: bs) := by
  constructor
  · intro h
    have hnot : ¬ ∀ x ∈ bs, x = b := by
      intro hforall
      have : bs.all (fun x => x = b) = true :=
        List.all_eq_true.mpr (fun x hx => decide_eq_true (hforall x hx))
      rw [h] at this
      exact Bool.false_ne_true this
    push_neg at hnot
    obtain ⟨x, hx, hxb⟩ := hnot
    have hxb' : x = !b := by
      cases x <;> cases b <;> simp_all
    subst hxb'
    constructor
    · cases b
      · exact List.mem_cons_of_mem _ hx
      · exact List.mem_cons_self _ _
    · cases b
      · exact List.mem_cons_self _ _
      · exact List.mem_cons_of_mem _ hx
  · rintro ⟨ht, hf⟩
    by_contra hall
    have hall' : bs.all (fun x => x = b) = true := by
      cases h : bs.all (fun x => x = b)
      · exact absurd h hall
      · rfl
    have hmem : ∀ x ∈ b :: bs, x = b := by
      intro x hx
      rcases List.mem_cons.mp hx with rfl | hx
      · rfl
      · exact of_decide_eq_true ((List.all_eq_true.mp hall') x hx)
    have h1 : true = b := hmem true ht
    have h2 : false = b := hmem false hf
    rw [← h1] at h2
    exact Bool.false_ne_true h2

/-- **C6.** For every coordinate detected at least once, the finalized
`variable_flag` value is `true` exactly when two of its detections
disagreed in the `bright > dim` comparison (both a `true` and a `false`
bit occurred); a coordinate whose accumulator never became a Python
`bool` (single detection, or all detections agreeing) finalizes to
`false` without error, and undetected coordinates are absent. -/
theorem variable_flag_spec (l : List (Coord × Bool)) (c : Coord) :
    alGet? (finalizeVarFlag (buildVarFlag l)) c =
      if c ∈ l.map Prod.fst then
        some (decide (true ∈ bitsOf l c ∧ false ∈ bitsOf l c))
      else none := by
  by_cases hmem : c ∈ l.map Prod.fst
  · rw [if_pos hmem]
    have hne : bitsOf l c ≠ [] := by
      rw [Ne, bitsOf_nil_iff]
      exact not_not_intro hmem
    cases hb : bitsOf l c with
    | nil => exact absurd hb hne
    | cons b bs =>
      have hdec : alGet? (finalizeVarFlag (buildVarFlag l)) c =
          some (if (bs.all (fun x => x = b)) = true then false else true) := by
        rw [finalizeVarFlag_get, buildVarFlag_get]
        simp only [hb]
        by_cases h : (bs.all (fun x => x = b)) = true
        · simp only [if_pos h]
          rfl
        · simp only [if_neg h]
          rfl
      by_cases hall : (bs.all (fun x => x = b)) = true
      · have hnd : ¬(true ∈ b :: bs ∧ false ∈ b :: bs) := by
          rw [← all_eq_false_iff_disagree, hall]
          simp
        rw [hdec, if_pos hall, decide_eq_false hnd]
      · have hfalse : (bs.all (fun x => x = b)) = false := Bool.eq_false_iff.mpr hall
        have hd := (all_eq_false_iff_disagree b bs).mp hfalse
        rw [hdec, if_neg hall, decide_eq_true hd]
  · rw [if_neg hmem]
    have hnil : bitsOf l c = [] := (bitsOf_nil_iff l c).mpr hmem
    rw [finalizeVarFlag_get, buildVarFlag_get]
    simp only [hnil]
    rfl

/-! ## C2: `unique_detect` -/

/-- **C2, failing-input evaluation.** On a single frame containing one
close pair, `close_detect` yields one close-group, and `unique_detect`
raises `IndexError` (modelled as `none`) instead of the documented
filtered list: the inner loop bound `len(close_sources[s])` (line 192)
is the size of the `s`-th flat group (2 here), but the loop body indexes
`close_sources_by_frame[s][j]`, which has only 1 group. -/
theorem unique_detect_index_error :
    close_detect [[((0, 0) : Coord), (0, 4)]] =
      ([[(0, 0), (0, 4)]], [[[(0, 0), (0, 4)]]]) ∧
    unique_detect [[((0, 0) : Coord), (0, 4)]] [[(0, 0), (0, 4)]] [[[(0, 0), (0, 4)]]] =
      none := by
  refine ⟨by decide, by decide⟩

/-! ## The merge pass of `close_detect`: closed form and invariants

The double loop of lines 152-158 executes its `(i, j)` pairs in
lexicographic order.  During outer iteration `a`, the source list
`close_objs[a]` is never written (the `i ≠ j` guard skips `(a, a)`), and
each target `close_objs[k]` is written only at the inner step `(a, k)`:
one whole outer iteration therefore has the closed form `outerStep`. -/

/-- The effect of one complete outer iteration `a` of the merge loop. -/
def outerStep (S : List Coord) (objs : ℕ → List Coord) (a : ℕ) : ℕ → List Coord :=
  fun k =>
    if k < S.length ∧ k ≠ a ∧ S.getD a (0, 0) ∈ objs k then extendU (objs k) (objs a)
    else objs k

/-- The inner loop of outer iteration `a` over targets `bs`. -/
def innerFold (S : List Coord) (a : ℕ) (bs : List ℕ) (objs : ℕ → List Coord) :
    ℕ → List Coord :=
  bs.foldl (fun o b => mergeStep S o (a, b)) objs

theorem foldl_flatMap {α β γ : Type} (l : List α) (g : α → List β) (f : γ → β → γ) (i : γ) :
    (l.flatMap g).foldl f i = l.foldl (fun acc a => (g a).foldl f acc) i := by
  induction l generalizing i with
  | nil => rfl
  | cons x t ih =>
    simp only [List.flatMap_cons, List.foldl_append, List.foldl_cons]
    exact ih _

theorem mergeStep_self (S : List Coord) (objs : ℕ → List Coord) (a : ℕ) :
    mergeStep S objs (a, a) = objs := by
  unfold mergeStep
  simp

theorem mergeStep_ne (S : List Coord) (objs : ℕ → List Coord) (a b k : ℕ) (h : k ≠ b) :
    mergeStep S objs (a, b) k = objs k := by
  unfold mergeStep
  split
  · simp only []
    rw [if_neg h]
  · rfl

theorem mergeStep_src (S : List Coord) (objs : ℕ → List Coord) (a b : ℕ) :
    mergeStep S objs (a, b) a = objs a := by
  by_cases hab : a = b
  · subst hab
    rw [mergeStep_self]
  · exact mergeStep_ne S objs a b a hab

theorem mergeStep_at (S : List Coord) (objs : ℕ → List Coord) (a b : ℕ) :
    mergeStep S objs (a, b) b =
      if a ≠ b ∧ S.getD a (0, 0) ∈ objs b then extendU (objs b) (objs a) else objs b := by
  unfold mergeStep
  split
  · simp
  · rfl

theorem innerFold_closed (S : List Coord) (a : ℕ) (objs : ℕ → List Coord) :
    ∀ bs : List ℕ, bs.Nodup →
      innerFold S a bs objs = fun k =>
        if k ∈ bs ∧ k ≠ a ∧ S.getD a (0, 0) ∈ objs k then extendU (objs k) (objs a)
        else objs k := by
  intro bs
  induction bs generalizing objs with
  | nil =>
    intro _
    funext k
    simp [innerFold]
  | cons b rest ih =>
    intro hnd
    have hbrest : b ∉ rest := (List.nodup_cons.mp hnd).1
    have hndrest : rest.Nodup := (List.nodup_cons.mp hnd).2
    have hstep : innerFold S a (b :: rest) objs =
        innerFold S a rest (mergeStep S objs (a, b)) := rfl
    rw [hstep, ih _ hndrest]
    funext k
    by_cases hkb : k = b
    · subst hkb
      rw [if_neg (fun hc => hbrest hc.1), mergeStep_at]
      by_cases hc : k ≠ a ∧ S.getD a (0, 0) ∈ objs k
      · rw [if_pos ⟨fun h => hc.1 h.symm, hc.2⟩,
            if_pos ⟨List.mem_cons_self k rest, hc⟩]
      · rw [if_neg (fun hcc => hc ⟨fun h => hcc.1 h.symm, hcc.2⟩),
            if_neg (fun hcc => hc hcc.2)]
    · have h1 : mergeStep S objs (a, b) k = objs k := mergeStep_ne S objs a b k hkb
      have h2 : mergeStep S objs (a, b) a = objs a := mergeStep_src S objs a b
      rw [h1, h2]
      by_cases hkrest : k ∈ rest
      · have : k ∈ b :: rest := List.mem_cons_of_mem b hkrest
        by_cases hc : k ≠ a ∧ S.getD a (0, 0) ∈ objs k
        · rw [if_pos ⟨hkrest, hc⟩, if_pos ⟨this, hc⟩]
        · rw [if_neg (fun hcc => hc ⟨hcc.2.1, hcc.2.2⟩),
              if_neg (fun hcc => hc ⟨hcc.2.1, hcc.2.2⟩)]
      · have hnotin : k ∉ b :: rest := by
          intro hmem
          rcases List.mem_cons.mp hmem with h | h
          · exact hkb h
          · exact hkrest h
        rw [if_neg (fun hcc => hkrest hcc.1), if_neg (fun hcc => hnotin hcc.1)]

theorem mergePass_closed (S : List Coord) (objs : ℕ → List Coord) :
    mergePass S objs = (List.range S.length).foldl (outerStep S) objs := by
  unfold mergePass pairList
  rw [foldl_flatMap]
  congr 1
  funext o a
  rw [List.foldl_map]
  have := innerFold_closed S a o (List.range S.length) (List.nodup_range S.length)
  unfold innerFold at this
  rw [this]
  unfold outerStep
  funext k
  by_cases hk : k ∈ List.range S.length
  · rw [List.mem_range] at hk
    by_cases hc : k ≠ a ∧ S.getD a (0, 0) ∈ o k
    · rw [if_pos ⟨List.mem_range.mpr hk, hc⟩, if_pos ⟨hk, hc⟩]
    · rw [if_neg (fun hcc => hc ⟨hcc.2.1, hcc.2.2⟩),
          if_neg (fun hcc => hc ⟨hcc.2.1, hcc.2.2⟩)]
  · rw [List.mem_range] at hk
    rw [if_neg (fun hcc => hk (List.mem_range.mp hcc.1)), if_neg (fun hcc => hk hcc.1)]

/-! ### Membership facts for `extendU` and `initObjs` -/

theorem extendU_sub_left (tgt src : List Coord) : ∀ x ∈ tgt, x ∈ extendU tgt src := by
  unfold extendU
  induction src generalizing tgt with
  | nil => intro x hx; exact hx
  | cons v rest ih =>
    intro x hx
    simp only [List.foldl_cons]
    by_cases hv : v ∈ tgt
    · rw [if_pos hv]
      exact ih tgt x hx
    · rw [if_neg hv]
      exact ih _ x (List.mem_append_left _ hx)

theorem extendU_sub_right (tgt src : List Coord) : ∀ x ∈ src, x ∈ extendU tgt src := by
  unfold extendU
  induction src generalizing tgt with
  | nil => intro x hx; exact absurd hx (List.not_mem_nil x)
  | cons v rest ih =>
    intro x hx
    simp only [List.foldl_cons]
    rcases List.mem_cons.mp hx with rfl | hx
    · by_cases hv : x ∈ tgt
      · rw [if_pos hv]
        exact extendU_sub_left tgt rest x hv
      · rw [if_neg hv]
        exact extendU_sub_left _ rest x (List.mem_append_right _ (List.mem_singleton.mpr rfl))
    · by_cases hv : v ∈ tgt
      · rw [if_pos hv]
        exact ih tgt x hx
      · rw [if_neg hv]
        exact ih _ x hx

theorem extendU_sub (tgt src : List Coord) :
    ∀ x ∈ extendU tgt src, x ∈ tgt ∨ x ∈ src := by
  unfold extendU
  induction src generalizing tgt with
  | nil => intro x hx; exact Or.inl hx
  | cons v rest ih =>
    intro x hx
    simp only [List.foldl_cons] at hx
    by_cases hv : v ∈ tgt
    · rw [if_pos hv] at hx
      rcases ih tgt x hx with h | h
      · exact Or.inl h
      · exact Or.inr (List.mem_cons_of_mem v h)
    · rw [if_neg hv] at hx
      rcases ih _ x hx with h | h
      · rcases List.mem_append.mp h with h | h
        · exact Or.inl h
        · exact Or.inr (List.mem_cons.mpr (Or.inl (List.mem_singleton.mp h)))
      · exact Or.inr (List.mem_cons_of_mem v h)

theorem extendU_nodup (tgt src : List Coord) (h : tgt.Nodup) : (extendU tgt src).Nodup := by
  unfold extendU
  induction src generalizing tgt with
  | nil => exact h
  | cons v rest ih =>
    simp only [List.foldl_cons]
    by_cases hv : v ∈ tgt
    · rw [if_pos hv]
      exact ih tgt h
    · rw [if_neg hv]
      apply ih
      rw [List.nodup_append]
      exact ⟨h, List.nodup_singleton v, by simpa using hv⟩

theorem extendU_ne_nil (tgt src : List Coord) (h : tgt ≠ []) : extendU tgt src ≠ [] := by
  intro hc
  rcases List.exists_mem_of_ne_nil tgt h with ⟨x, hx⟩
  have := extendU_sub_left tgt src x hx
  rw [hc] at this
  exact List.not_mem_nil x this

theorem mem_initObjs (S : List Coord) (i : ℕ) (x : Coord) :
    x ∈ initObjs S i ↔
      ∃ j, j < S.length ∧ i ≠ j ∧
        chebClose (S.getD i (0, 0)) (S.getD j (0, 0)) ∧ x = S.getD j (0, 0) := by
  unfold initObjs
  rw [List.mem_filterMap]
  constructor
  · rintro ⟨j, hj, hfj⟩
    rw [List.mem_range] at hj
    by_cases hc : i ≠ j ∧ chebClose (S.getD i (0, 0)) (S.getD j (0, 0))
    · rw [if_pos hc] at hfj
      exact ⟨j, hj, hc.1, hc.2, (Option.some.inj hfj).symm⟩
    · rw [if_neg hc] at hfj
      exact absurd hfj (Option.noConfusion)
  · rintro ⟨j, hj, hij, hcheb, rfl⟩
    exact ⟨j, List.mem_range.mpr hj, by rw [if_pos ⟨hij, hcheb⟩]⟩

theorem chebClose_symm (a b : Coord) (h : chebClose a b) : chebClose b a := by
  unfold chebClose at h ⊢
  constructor
  · rw [abs_sub_comm]
    exact h.1
  · rw [abs_sub_comm]
    exact h.2

theorem initObjs_subset_S (S : List Coord) (i : ℕ) : ∀ x ∈ initObjs S i, x ∈ S := by
  intro x hx
  obtain ⟨j, hj, -, -, rfl⟩ := (mem_initObjs S i x).mp hx
  rw [List.getD_eq_getElem S (0, 0) hj]
  exact List.getElem_mem hj

theorem getD_inj (S : List Coord) (hnd : S.Nodup) (i j : ℕ)
    (hi : i < S.length) (hj : j < S.length)
    (h : S.getD i (0, 0) = S.getD j (0, 0)) : i = j := by
  rw [List.getD_eq_getElem S (0, 0) hi, List.getD_eq_getElem S (0, 0) hj] at h
  exact (List.Nodup.getElem_inj_iff hnd).mp h

theorem filterMap_nodup_of_mem_inj (f : ℕ → Option Coord) :
    ∀ l : List ℕ, l.Nodup →
      (∀ a ∈ l, ∀ b ∈ l, ∀ c, f a = some c → f b = some c → a = b) →
      (l.filterMap f).Nodup := by
  intro l
  induction l with
  | nil => intro _ _; simp
  | cons a t ih =>
    intro hnd hinj
    have hat : a ∉ t := (List.nodup_cons.mp hnd).1
    have hndt : t.Nodup := (List.nodup_cons.mp hnd).2
    rw [List.filterMap_cons]
    cases hfa : f a with
    | none =>
      exact ih hndt (fun x hx y hy c h1 h2 =>
        hinj x (List.mem_cons_of_mem a hx) y (List.mem_cons_of_mem a hy) c h1 h2)
    | some c =>
      rw [List.nodup_cons]
      constructor
      · intro hmem
        obtain ⟨b, hb, hfb⟩ := List.mem_filterMap.mp hmem
        have : a = b := hinj a (List.mem_cons_self a t) b (List.mem_cons_of_mem a hb) c hfa hfb
        rw [this] at hat
        exact hat hb
      · exact ih hndt (fun x hx y hy c h1 h2 =>
          hinj x (List.mem_cons_of_mem a hx) y (List.mem_cons_of_mem a hy) c h1 h2)

theorem initObjs_nodup (S : List Coord) (hnd : S.Nodup) (i : ℕ) : (initObjs S i).Nodup := by
  unfold initObjs
  apply filterMap_nodup_of_mem_inj _ _ (List.nodup_range S.length)
  intro j hj k hk c h1 h2
  rw [List.mem_range] at hj hk
  by_cases hcj : i ≠ j ∧ chebClose (S.getD i (0, 0)) (S.getD j (0, 0))
  · rw [if_pos hcj] at h1
    by_cases hck : i ≠ k ∧ chebClose (S.getD i (0, 0)) (S.getD k (0, 0))
    · rw [if_pos hck] at h2
      have hx : S.getD j (0, 0) = S.getD k (0, 0) := by
        rw [Option.some.inj h1, Option.some.inj h2]
      exact getD_inj S hnd j k hj hk hx
    · rw [if_neg hck] at h2
      exact absurd h2 Option.noConfusion
  · rw [if_neg hcj] at h1
    exact absurd h1 Option.noConfusion

/-! ### The merge-pass invariant -/

/-- Index adjacency in the proximity graph (both endpoints in range). -/
def adjR (S : List Coord) (i j : ℕ) : Prop :=
  i < S.length ∧ j < S.length ∧ i ≠ j ∧
    chebClose (S.getD i (0, 0)) (S.getD j (0, 0))


/-- Invariant over the outer loop of the merge pass: `done` is the list
of completed outer iterations.  Components: (1) lists only grow from
their initial adjacency lists; (2) all entries are detections;
(3) initially-empty lists stay empty; (4) each list stays
duplicate-free; (5) entries of `objs k` are coordinates reachable from
`k` in the proximity graph; (6) once outer iteration `j` has run, any
list containing `S[j]` has absorbed `j`'s adjacency list. -/
def MergeInv (S : List Coord) (done : List ℕ) (objs : ℕ → List Coord) : Prop :=
  (∀ k, ∀ x ∈ initObjs S k, x ∈ objs k) ∧
  (∀ k, ∀ x ∈ objs k, x ∈ S) ∧
  (∀ k, initObjs S k = [] → objs k = []) ∧
  (∀ k, (objs k).Nodup) ∧
  (∀ k, k < S.length → ∀ x ∈ objs k,
    ∃ j, j < S.length ∧ x = S.getD j (0, 0) ∧
      Relation.ReflTransGen (adjR S) k j) ∧
  (∀ j ∈ done, j < S.length → ∀ i, i < S.length → i ≠ j →
    S.getD j (0, 0) ∈ objs i → ∀ x ∈ initObjs S j, x ∈ objs i)

theorem mergeInv_base (S : List Coord) (hnd : S.Nodup) : MergeInv S [] (initObjs S) := by
  refine ⟨fun k x hx => hx, initObjs_subset_S S, fun k h => h,
    initObjs_nodup S hnd, ?_, by simp⟩
  intro k hk x hx
  obtain ⟨j, hj, hij, hcheb, rfl⟩ := (mem_initObjs S k x).mp hx
  exact ⟨j, hj, rfl, Relation.ReflTransGen.single ⟨hk, hj, hij, hcheb⟩⟩

theorem mergeInv_step (S : List Coord) (hnd : S.Nodup) (done : List ℕ)
    (objs : ℕ → List Coord) (a : ℕ) (ha : a < S.length) (h : MergeInv S done objs) :
    MergeInv S (done ++ [a]) (outerStep S objs a) := by
  obtain ⟨h1, h2, h3, h4, h5, h6⟩ := h
  refine ⟨?_, ?_, ?_, ?_, ?_, ?_⟩
  · intro k x hx
    unfold outerStep
    by_cases hc : k < S.length ∧ k ≠ a ∧ S.getD a (0, 0) ∈ objs k
    · rw [if_pos hc]
      exact extendU_sub_left _ _ x (h1 k x hx)
    · rw [if_neg hc]
      exact h1 k x hx
  · intro k x hx
    unfold outerStep at hx
    by_cases hc : k < S.length ∧ k ≠ a ∧ S.getD a (0, 0) ∈ objs k
    · rw [if_pos hc] at hx
      rcases extendU_sub _ _ x hx with hx | hx
      · exact h2 k x hx
      · exact h2 a x hx
    · rw [if_neg hc] at hx
      exact h2 k x hx
  · intro k he
    have hempty := h3 k he
    unfold outerStep
    rw [if_neg (fun hc => by
      rw [hempty] at hc
      exact List.not_mem_nil _ hc.2.2)]
    exact hempty
  · intro k
    unfold outerStep
    by_cases hc : k < S.length ∧ k ≠ a ∧ S.getD a (0, 0) ∈ objs k
    · rw [if_pos hc]
      exact extendU_nodup _ _ (h4 k)
    · rw [if_neg hc]
      exact h4 k
  · intro k hk x hx
    unfold outerStep at hx
    by_cases hc : k < S.length ∧ k ≠ a ∧ S.getD a (0, 0) ∈ objs k
    · rw [if_pos hc] at hx
      rcases extendU_sub _ _ x hx with hx | hx
      · exact h5 k hk x hx
      · obtain ⟨j, hj, hxj, hraj⟩ := h5 a ha x hx
        obtain ⟨j', hj', heq, hrkj'⟩ := h5 k hk _ hc.2.2
        have haj' : a = j' := getD_inj S hnd a j' ha hj' heq
        subst haj'
        exact ⟨j, hj, hxj, Relation.ReflTransGen.trans hrkj' hraj⟩
    · rw [if_neg hc] at hx
      exact h5 k hk x hx
  · intro j hjdone hjn i hi hij hmem x hx
    rcases List.mem_append.mp hjdone with hjd | hja
    · unfold outerStep at hmem ⊢
      by_cases hc : i < S.length ∧ i ≠ a ∧ S.getD a (0, 0) ∈ objs i
      · rw [if_pos hc] at hmem ⊢
        rcases extendU_sub _ _ _ hmem with hm | hm
        · exact extendU_sub_left _ _ x (h6 j hjd hjn i hi hij hm x hx)
        · by_cases haj : a = j
          · subst haj
            exact extendU_sub_right _ _ x (h1 a x hx)
          · exact extendU_sub_right _ _ x
              (h6 j hjd hjn a ha (fun hh => haj hh) hm x hx)
      · rw [if_neg hc] at hmem ⊢
        exact h6 j hjd hjn i hi hij hmem x hx
    · have hja' : j = a := by simpa using hja
      subst hja'
      unfold outerStep at hmem ⊢
      by_cases hc : i < S.length ∧ i ≠ j ∧ S.getD j (0, 0) ∈ objs i
      · rw [if_pos hc]
        exact extendU_sub_right _ _ x (h1 j x hx)
      · rw [if_neg hc] at hmem
        exact absurd ⟨hi, hij, hmem⟩ hc

theorem mergeInv_fold (S : List Coord) (hnd : S.Nodup) :
    ∀ as : List ℕ, (∀ a ∈ as, a < S.length) →
      ∀ (done : List ℕ) (objs : ℕ → List Coord), MergeInv S done objs →
        MergeInv S (done ++ as) (as.foldl (outerStep S) objs) := by
  intro as
  induction as with
  | nil =>
    intro _ done objs h
    simpa using h
  | cons a rest ih =>
    intro hbound done objs h
    have ha : a < S.length := hbound a (List.mem_cons_self a rest)
    have hstep := mergeInv_step S hnd done objs a ha h
    have := ih (fun b hb => hbound b (List.mem_cons_of_mem a hb)) (done ++ [a])
      (outerStep S objs a) hstep
    simpa [List.append_assoc] using this

theorem mergeInv_final (S : List Coord) (hnd : S.Nodup) :
    MergeInv S (List.range S.length) (mergePass S (initObjs S)) := by
  rw [mergePass_closed]
  have := mergeInv_fold S hnd (List.range S.length)
    (fun a ha => List.mem_range.mp ha) [] (initObjs S) (mergeInv_base S hnd)
  simpa using this

/-! ### Consequences: the merge pass reaches full closure on
duplicate-free frames -/

theorem final_absorb (S : List Coord) (hnd : S.Nodup) (i j : ℕ)
    (hi : i < S.length) (hj : j < S.length)
    (hmem : S.getD j (0, 0) ∈ mergePass S (initObjs S) i) :
    ∀ x ∈ initObjs S j, x ∈ mergePass S (initObjs S) i := by
  obtain ⟨h1, -, -, -, -, h6⟩ := mergeInv_final S hnd
  by_cases hij : i = j
  · subst hij
    exact fun x hx => h1 i x hx
  · exact h6 j (List.mem_range.mpr hj) hj i hi hij hmem

theorem adjR_symm (S : List Coord) : Symmetric (adjR S) := by
  rintro i j ⟨hi, hj, hij, hcheb⟩
  exact ⟨hj, hi, fun h => hij h.symm, chebClose_symm _ _ hcheb⟩

theorem val_mem_initObjs_of_adj (S : List Coord) (b c : ℕ) (h : adjR S b c) :
    S.getD c (0, 0) ∈ initObjs S b := by
  obtain ⟨hb, hc, hbc, hcheb⟩ := h
  exact (mem_initObjs S b _).mpr ⟨c, hc, hbc, hcheb, rfl⟩

theorem reach_mem_final (S : List Coord) (hnd : S.Nodup) (i : ℕ) (hi : i < S.length)
    (hne : initObjs S i ≠ []) :
    ∀ j : ℕ, Relation.ReflTransGen (adjR S) i j →
      S.getD j (0, 0) ∈ mergePass S (initObjs S) i := by
  obtain ⟨h1, -, -, -, -, -⟩ := mergeInv_final S hnd
  intro j hr
  induction hr with
  | refl =>
    obtain ⟨x, hx⟩ := List.exists_mem_of_ne_nil _ hne
    obtain ⟨j₀, hj₀, hij₀, hcheb, rfl⟩ := (mem_initObjs S i x).mp hx
    have hmem : S.getD j₀ (0, 0) ∈ mergePass S (initObjs S) i := h1 i _ hx
    apply final_absorb S hnd i j₀ hi hj₀ hmem
    exact val_mem_initObjs_of_adj S j₀ i (adjR_symm S ⟨hi, hj₀, hij₀, hcheb⟩)
  | tail hr hadj ih =>
    rename_i b c
    have hb : b < S.length := hadj.1
    have hmem := final_absorb S hnd i b hi hb ih
    exact hmem _ (val_mem_initObjs_of_adj S b c hadj)

theorem final_sets_eq (S : List Coord) (hnd : S.Nodup) (i₁ i₂ : ℕ)
    (hi₁ : i₁ < S.length) (hi₂ : i₂ < S.length)
    (hne₁ : initObjs S i₁ ≠ []) (hne₂ : initObjs S i₂ ≠ [])
    (hr : Relation.ReflTransGen (adjR S) i₁ i₂) :
    ∀ x, x ∈ mergePass S (initObjs S) i₁ ↔ x ∈ mergePass S (initObjs S) i₂ := by
  obtain ⟨-, -, -, -, h5, -⟩ := mergeInv_final S hnd
  have hsymm := Relation.ReflTransGen.symmetric (adjR_symm S)
  intro x
  constructor
  · intro hx
    obtain ⟨j, hj, rfl, hrj⟩ := h5 i₁ hi₁ x hx
    exact reach_mem_final S hnd i₂ hi₂ hne₂ j
      (Relation.ReflTransGen.trans (hsymm hr) hrj)
  · intro hx
    obtain ⟨j, hj, rfl, hrj⟩ := h5 i₂ hi₂ x hx
    exact reach_mem_final S hnd i₁ hi₁ hne₁ j (Relation.ReflTransGen.trans hr hrj)

/-! ### The deduplication loop of `close_detect` (lines 160-162) -/

theorem dedup_fold_mem (g : ℕ → List Coord) (l : List ℕ) :
    ∀ (acc : List (List Coord)) (x : List Coord),
      (x ∈ l.foldl (fun acc i =>
        if g i ≠ [] ∧ sortC (g i) ∉ acc then acc ++ [sortC (g i)] else acc) acc) ↔
      (x ∈ acc ∨ ∃ i ∈ l, g i ≠ [] ∧ x = sortC (g i)) := by
  induction l with
  | nil => intro acc x; simp
  | cons i t ih =>
    intro acc x
    simp only [List.foldl_cons]
    by_cases hc : g i ≠ [] ∧ sortC (g i) ∉ acc
    · rw [if_pos hc, ih]
      constructor
      · rintro (hx | ⟨i', hi', hne', rfl⟩)
        · rcases List.mem_append.mp hx with hx | hx
          · exact Or.inl hx
          · exact Or.inr ⟨i, List.mem_cons_self i t, hc.1,
              (List.mem_singleton.mp hx)⟩
        · exact Or.inr ⟨i', List.mem_cons_of_mem i hi', hne', rfl⟩
      · rintro (hx | ⟨i', hi', hne', rfl⟩)
        · exact Or.inl (List.mem_append_left _ hx)
        · rcases List.mem_cons.mp hi' with rfl | hi'
          · exact Or.inl (List.mem_append_right _ (List.mem_singleton.mpr rfl))
          · exact Or.inr ⟨i', hi', hne', rfl⟩
    · rw [if_neg hc, ih]
      constructor
      · rintro (hx | ⟨i', hi', hne', rfl⟩)
        · exact Or.inl hx
        · exact Or.inr ⟨i', List.mem_cons_of_mem i hi', hne', rfl⟩
      · rintro (hx | ⟨i', hi', hne', rfl⟩)
        · exact Or.inl hx
        · rcases List.mem_cons.mp hi' with rfl | hi'
          · by_cases hg : g i' = []
            · exact absurd hg hne'
            · have : sortC (g i') ∈ acc := by
                by_contra hcc
                exact hc ⟨hne', hcc⟩
              exact Or.inl this
          · exact Or.inr ⟨i', hi', hne', rfl⟩

theorem dedup_fold_nodup (g : ℕ → List Coord) (l : List ℕ) :
    ∀ acc : List (List Coord), acc.Nodup →
      (l.foldl (fun acc i =>
        if g i ≠ [] ∧ sortC (g i) ∉ acc then acc ++ [sortC (g i)] else acc) acc).Nodup := by
  induction l with
  | nil => intro acc h; exact h
  | cons i t ih =>
    intro acc h
    simp only [List.foldl_cons]
    by_cases hc : g i ≠ [] ∧ sortC (g i) ∉ acc
    · rw [if_pos hc]
      apply ih
      rw [List.nodup_append]
      exact ⟨h, List.nodup_singleton _, by simpa using hc.2⟩
    · rw [if_neg hc]
      exact ih acc h

theorem closeDetectFrame_eq (S : List Coord) :
    closeDetectFrame S = (List.range S.length).foldl (fun acc i =>
      if mergePass S (initObjs S) i ≠ [] ∧ sortC (mergePass S (initObjs S) i) ∉ acc
      then acc ++ [sortC (mergePass S (initObjs S) i)] else acc) [] := rfl

theorem mem_closeDetectFrame (S : List Coord) (g : List Coord) :
    g ∈ closeDetectFrame S ↔
      ∃ i, i < S.length ∧ mergePass S (initObjs S) i ≠ [] ∧
        g = sortC (mergePass S (initObjs S) i) := by
  rw [closeDetectFrame_eq, dedup_fold_mem]
  simp [List.mem_range]

theorem closeDetectFrame_nodup (S : List Coord) : (closeDetectFrame S).Nodup := by
  rw [closeDetectFrame_eq]
  exact dedup_fold_nodup _ _ [] List.nodup_nil

/-! ### Sorting facts -/

theorem sortC_mem (l : List Coord) (x : Coord) : x ∈ sortC l ↔ x ∈ l :=
  (List.perm_insertionSort coordLe l).mem_iff

theorem sortC_eq_of_same_members (l₁ l₂ : List Coord) (h₁ : l₁.Nodup) (h₂ : l₂.Nodup)
    (h : ∀ x, x ∈ l₁ ↔ x ∈ l₂) : sortC l₁ = sortC l₂ := by
  have hperm : l₁.Perm l₂ := (List.perm_ext_iff_of_nodup h₁ h₂).mpr h
  have hperm' : (sortC l₁).Perm (sortC l₂) :=
    ((List.perm_insertionSort coordLe l₁).trans hperm).trans
      (List.perm_insertionSort coordLe l₂).symm
  exact List.eq_of_perm_of_sorted hperm'
    (List.sorted_insertionSort coordLe l₁) (List.sorted_insertionSort coordLe l₂)

theorem countP_le_one_of_unique {α : Type} (l : List α) (p : α → Bool) (hnd : l.Nodup)
    (huniq : ∀ x ∈ l, ∀ y ∈ l, p x = true → p y = true → x = y) : l.countP p ≤ 1 := by
  induction l with
  | nil => simp
  | cons x t ih =>
    rw [List.countP_cons]
    have hxt : x ∉ t := (List.nodup_cons.mp hnd).1
    have hndt : t.Nodup := (List.nodup_cons.mp hnd).2
    by_cases hp : p x = true
    · rw [if_pos hp]
      have hzero : t.countP p = 0 := by
        rw [List.countP_eq_zero]
        intro y hy hpy
        have : x = y := huniq x (List.mem_cons_self x t) y (List.mem_cons_of_mem x hy) hp hpy
        rw [this] at hxt
        exact hxt hy
      omega
    · rw [if_neg hp]
      have := ih hndt (fun a ha b hb hpa hpb =>
        huniq a (List.mem_cons_of_mem x ha) b (List.mem_cons_of_mem x hb) hpa hpb)
      omega

/-! ### Claim theorems for the clusterer -/

/-- **C10, counterexample.** A frame whose (sorted) detection list holds
the same coordinate twice — which `detect` can produce, cf. the
`fluxDup` run — makes `close_detect` emit the singleton close-group
`[(5,5)]`, which does not contain two distinct coordinates. -/
theorem singleton_close_group_counterexample :
    sortC ((detectRecs [fluxDup] [gridDup] (8/10) 4).map (fun r => r.coord)) =
      [(5, 5), (5, 5)] ∧
    closeDetectFrame [((5, 5) : Coord), (5, 5)] = [[(5, 5)]] ∧
    ¬∃ a b, a ∈ ([((5, 5) : Coord)] : List Coord) ∧ b ∈ ([((5, 5) : Coord)] : List Coord) ∧
      a ≠ b := by
  refine ⟨by decide, by decide, by simp⟩

/-- **C10 (amended).** If a frame's detection list has no duplicate
coordinates, every close-group emitted by `close_detect` contains at
least two distinct coordinates: a detection with a neighbour always ends
up grouped with that neighbour and itself. -/
theorem close_groups_two_distinct (S : List Coord) (hnd : S.Nodup) :
    ∀ g ∈ closeDetectFrame S, ∃ a b, a ∈ g ∧ b ∈ g ∧ a ≠ b := by
  intro g hg
  obtain ⟨i, hi, hne, rfl⟩ := (mem_closeDetectFrame S g).mp hg
  obtain ⟨h1, -, h3, -, -, -⟩ := mergeInv_final S hnd
  have hNne : initObjs S i ≠ [] := by
    intro hc
    exact hne (h3 i hc)
  obtain ⟨x, hx⟩ := List.exists_mem_of_ne_nil _ hNne
  obtain ⟨j₀, hj₀, hij₀, hcheb, rfl⟩ := (mem_initObjs S i x).mp hx
  refine ⟨S.getD i (0, 0), S.getD j₀ (0, 0), ?_, ?_, ?_⟩
  · rw [sortC_mem]
    exact reach_mem_final S hnd i hi hNne i Relation.ReflTransGen.refl
  · rw [sortC_mem]
    exact h1 i _ hx
  · intro hq
    exact hij₀ (getD_inj S hnd i j₀ hi hj₀ hq)

/-- Witness for the amended C10 theorem on a concrete two-detection frame. -/
theorem close_groups_two_distinct_witness :
    ∃ a b, a ∈ ([((0, 0) : Coord), (0, 4)] : List Coord) ∧
      b ∈ ([((0, 0) : Coord), (0, 4)] : List Coord) ∧ a ≠ b :=
  close_groups_two_distinct [((0, 0) : Coord), (0, 4)] (by decide)
    [((0, 0) : Coord), (0, 4)] (by decide)

/-- **C5, counterexample.** With a duplicated detection coordinate the
deduplicated per-frame close-groups can overlap: on the sorted frame
list `[(5,5), (5,5), (5,8)]`, `close_detect` emits two distinct groups
and the coordinate `(5,5)` is a member of both. -/
theorem close_group_overlap_counterexample :
    closeDetectFrame [((5, 5) : Coord), (5, 5), (5, 8)] =
      [[(5, 5), (5, 8)], [(5, 5), (5, 5), (5, 8)]] ∧
    (closeDetectFrame [((5, 5) : Coord), (5, 5), (5, 8)]).countP
      (fun g => decide ((5, 5) ∈ g)) = 2 ∧
    ¬((2 : ℕ) ≤ 1) := by
  refine ⟨by decide, by decide, by decide⟩

/-- **C5 (amended).** If a frame's detection list has no duplicate
coordinates, every coordinate is a member of at most one of the frame's
deduplicated close-groups. -/
theorem coordinate_in_at_most_one_group (S : List Coord) (hnd : S.Nodup) (c : Coord) :
    (closeDetectFrame S).countP (fun g => decide (c ∈ g)) ≤ 1 := by
  apply countP_le_one_of_unique _ _ (closeDetectFrame_nodup S)
  intro g₁ hg₁ g₂ hg₂ hp₁ hp₂
  have hc₁ : c ∈ g₁ := of_decide_eq_true hp₁
  have hc₂ : c ∈ g₂ := of_decide_eq_true hp₂
  obtain ⟨i₁, hi₁, hne₁, rfl⟩ := (mem_closeDetectFrame S g₁).mp hg₁
  obtain ⟨i₂, hi₂, hne₂, rfl⟩ := (mem_closeDetectFrame S g₂).mp hg₂
  obtain ⟨-, -, h3, h4, h5, -⟩ := mergeInv_final S hnd
  have hF₁ : c ∈ mergePass S (initObjs S) i₁ := (sortC_mem _ c).mp hc₁
  have hF₂ : c ∈ mergePass S (initObjs S) i₂ := (sortC_mem _ c).mp hc₂
  obtain ⟨j, hj, rfl, hr₁⟩ := h5 i₁ hi₁ c hF₁
  obtain ⟨j₂, hj₂, heq, hr₂⟩ := h5 i₂ hi₂ _ hF₂
  have hjj : j = j₂ := getD_inj S hnd j j₂ hj hj₂ heq
  subst hjj
  have hsymm := Relation.ReflTransGen.symmetric (adjR_symm S)
  have hr : Relation.ReflTransGen (adjR S) i₁ i₂ :=
    Relation.ReflTransGen.trans hr₁ (hsymm hr₂)
  have hNne₁ : initObjs S i₁ ≠ [] := fun hc => hne₁ (h3 i₁ hc)
  have hNne₂ : initObjs S i₂ ≠ [] := fun hc => hne₂ (h3 i₂ hc)
  exact sortC_eq_of_same_members _ _ (h4 i₁) (h4 i₂)
    (final_sets_eq S hnd i₁ i₂ hi₁ hi₂ hNne₁ hNne₂ hr)

/-- Witness for the amended C5 theorem on a concrete two-detection frame. -/
theorem coordinate_in_at_most_one_group_witness :
    (closeDetectFrame [((0, 0) : Coord), (0, 4)]).countP
      (fun g => decide (((0, 0) : Coord) ∈ g)) ≤ 1 :=
  coordinate_in_at_most_one_group [((0, 0) : Coord), (0, 4)] (by decide) (0, 0)

/-! ## Verification of the cross-frame grouper (`group_and_id`)

`find` chases parent pointers; `rootN` is the pure (non-mutating)
chase with fuel.  The invariant `UFInv` states that ranks strictly
increase along non-trivial parent edges, which bounds every chain by
the number of keys and hence proves the fuel `parent.length + 1`
adequate. -/

/-- Pure parent-chasing with fuel (no path compression). -/
def rootN : ℕ → List (Coord × Coord) → Coord → Option Coord
  | 0, _, _ => none
  | n + 1, p, x =>
    match alGet? p x with
    | none => none
    | some px => if px = x then some x else rootN n p px

/-- `r` is a root: its parent pointer is itself. -/
def IsRoot (p : List (Coord × Coord)) (r : Coord) : Prop := alGet? p r = some r

/-- `r` is the root of `x`'s chain. -/
def IsRootOf (p : List (Coord × Coord)) (x r : Coord) : Prop :=
  ∃ n, rootN n p x = some r

/-- `a` and `b` lie in the same union-find class. -/
def sameRoot (p : List (Coord × Coord)) (a b : Coord) : Prop :=
  ∃ r, IsRootOf p a r ∧ IsRootOf p b r

theorem rootN_mono (p : List (Coord × Coord)) :
    ∀ n x r, rootN n p x = some r → ∀ m, n ≤ m → rootN m p x = some r := by
  intro n
  induction n with
  | zero => intro x r h; exact absurd h Option.noConfusion
  | succ n ih =>
    intro x r h m hm
    obtain ⟨m', rfl⟩ : ∃ m', m = m' + 1 := ⟨m - 1, by omega⟩
    unfold rootN at h ⊢
    cases hx : alGet? p x with
    | none =>
      simp only [hx] at h
      exact Option.noConfusion h
    | some px =>
      simp only [hx] at h ⊢
      by_cases hpx : px = x
      · rw [if_pos hpx] at h ⊢
        exact h
      · rw [if_neg hpx] at h ⊢
        exact ih px r h m' (by omega)

theorem rootN_det (p : List (Coord × Coord)) (x r s : Coord) (n m : ℕ)
    (h1 : rootN n p x = some r) (h2 : rootN m p x = some s) : r = s := by
  have h1' := rootN_mono p n x r h1 (n + m) (by omega)
  have h2' := rootN_mono p m x s h2 (n + m) (by omega)
  rw [h1'] at h2'
  exact Option.some.inj h2'

theorem isRootOf_det (p : List (Coord × Coord)) (x r s : Coord)
    (h1 : IsRootOf p x r) (h2 : IsRootOf p x s) : r = s := by
  obtain ⟨n, hn⟩ := h1
  obtain ⟨m, hm⟩ := h2
  exact rootN_det p x r s n m hn hm

theorem rootN_isRoot (p : List (Coord × Coord)) :
    ∀ n x r, rootN n p x = some r → IsRoot p r := by
  intro n
  induction n with
  | zero => intro x r h; exact absurd h Option.noConfusion
  | succ n ih =>
    intro x r h
    unfold rootN at h
    cases hx : alGet? p x with
    | none =>
      simp only [hx] at h
      exact Option.noConfusion h
    | some px =>
      simp only [hx] at h
      by_cases hpx : px = x
      · rw [if_pos hpx] at h
        obtain rfl := Option.some.inj h
        rw [hpx] at hx
        exact hx
      · rw [if_neg hpx] at h
        exact ih px r h

theorem isRoot_rootN (p : List (Coord × Coord)) (r : Coord) (h : IsRoot p r) (n : ℕ) :
    rootN (n + 1) p r = some r := by
  have h' : alGet? p r = some r := h
  simp [rootN, h']

theorem isRootOf_of_isRoot (p : List (Coord × Coord)) (r : Coord) (h : IsRoot p r) :
    IsRootOf p r r := ⟨1, isRoot_rootN p r h 0⟩

theorem isRootOf_step (p : List (Coord × Coord)) (x px r : Coord)
    (hx : alGet? p x = some px) (hpx : px ≠ x) (h : IsRootOf p px r) : IsRootOf p x r := by
  obtain ⟨n, hn⟩ := h
  refine ⟨n + 1, ?_⟩
  unfold rootN
  simp only [hx, if_neg hpx]
  exact hn

/-- The rank map value of a coordinate (0 when absent). -/
def rkv (rk : List (Coord × ℕ)) (z : Coord) : ℕ := (alGet? rk z).getD 0

/-- The union-find well-formedness invariant: keys are duplicate-free,
parent pointers stay inside the key set, every key has a rank, and the
rank strictly increases along every non-trivial parent edge. -/
def UFInv (p : List (Coord × Coord)) (rk : List (Coord × ℕ)) : Prop :=
  (alKeys p).Nodup ∧
  (∀ e ∈ p, e.2 ∈ alKeys p) ∧
  (∀ k ∈ alKeys p, (alGet? rk k).isSome) ∧
  (∀ e ∈ p, e.2 ≠ e.1 → rkv rk e.1 < rkv rk e.2)

theorem alGet?_eq_some_of_mem {α β : Type} [DecidableEq α] (p : List (α × β))
    (hnd : (alKeys p).Nodup) (k : α) (v : β) (h : (k, v) ∈ p) : alGet? p k = some v := by
  induction p with
  | nil => exact absurd h (List.not_mem_nil _)
  | cons e t ih =>
    obtain ⟨k', w⟩ := e
    have hnd' : (alKeys t).Nodup := (List.nodup_cons.mp hnd).2
    have hknotin : k' ∉ alKeys t := (List.nodup_cons.mp hnd).1
    rcases List.mem_cons.mp h with heq | hmem
    · obtain ⟨rfl, rfl⟩ := Prod.mk.injEq .. ▸ heq
      simp [alGet?]
    · have hk : k ≠ k' := by
        rintro rfl
        exact hknotin (by simpa [alKeys] using List.mem_map_of_mem Prod.fst hmem)
      simp only [alGet?, if_neg hk]
      exact ih hnd' hmem

theorem mem_of_alGet?_eq_some {α β : Type} [DecidableEq α] (p : List (α × β))
    (k : α) (v : β) (h : alGet? p k = some v) : (k, v) ∈ p := by
  induction p with
  | nil => exact absurd h Option.noConfusion
  | cons e t ih =>
    obtain ⟨k', w⟩ := e
    by_cases hk : k = k'
    · subst hk
      simp only [alGet?, if_pos rfl] at h
      obtain rfl := Option.some.inj h
      exact List.mem_cons_self _ _
    · simp only [alGet?, if_neg hk] at h
      exact List.mem_cons_of_mem _ (ih h)

theorem mem_alKeys_of_get {α β : Type} [DecidableEq α] (p : List (α × β)) (k : α) (v : β)
    (h : alGet? p k = some v) : k ∈ alKeys p := by
  have : (alGet? p k).isSome := by rw [h]; rfl
  exact (alGet?_isSome_iff_mem_keys p k).mp this

theorem rank_lt_of_edge (p : List (Coord × Coord)) (rk : List (Coord × ℕ))
    (hinv : UFInv p rk) (x y : Coord) (hx : alGet? p x = some y) (hne : y ≠ x) :
    rkv rk x < rkv rk y :=
  hinv.2.2.2 (x, y) (mem_of_alGet?_eq_some p x y hx) hne

theorem rank_lt_of_rootN (p : List (Coord × Coord)) (rk : List (Coord × ℕ))
    (hinv : UFInv p rk) :
    ∀ n x r, rootN n p x = some r → x = r ∨ rkv rk x < rkv rk r := by
  intro n
  induction n with
  | zero => intro x r h; exact absurd h Option.noConfusion
  | succ n ih =>
    intro x r h
    unfold rootN at h
    cases hx : alGet? p x with
    | none =>
      simp only [hx] at h
      exact Option.noConfusion h
    | some px =>
      simp only [hx] at h
      by_cases hpx : px = x
      · rw [if_pos hpx] at h
        exact Or.inl (Option.some.inj h)
      · rw [if_neg hpx] at h
        have hstep := rank_lt_of_edge p rk hinv x px hx hpx
        rcases ih px r h with rfl | hlt
        · exact Or.inr hstep
        · exact Or.inr (lt_trans hstep hlt)

theorem isRoot_of_isRootOf_self (p : List (Coord × Coord)) (rk : List (Coord × ℕ))
    (hinv : UFInv p rk) (x : Coord) (h : IsRootOf p x x) : IsRoot p x := by
  obtain ⟨n, hn⟩ := h
  match n with
  | 0 => exact absurd hn Option.noConfusion
  | n + 1 =>
    unfold rootN at hn
    cases hx : alGet? p x with
    | none =>
      simp only [hx] at hn
      exact Option.noConfusion hn
    | some px =>
      simp only [hx] at hn
      by_cases hpx : px = x
      · rw [hpx] at hx
        exact hx
      · rw [if_neg hpx] at hn
        have h1 := rank_lt_of_edge p rk hinv x px hx hpx
        rcases rank_lt_of_rootN p rk hinv n px x hn with rfl | h2
        · exact absurd rfl hpx
        · omega

/-- The number of keys of strictly larger rank: the chain-length measure. -/
def hrank (p : List (Coord × Coord)) (rk : List (Coord × ℕ)) (x : Coord) : ℕ :=
  ((alKeys p).filter (fun k => decide (rkv rk x < rkv rk k))).length

theorem rootN_isSome_of_measure (p : List (Coord × Coord)) (rk : List (Coord × ℕ))
    (hinv : UFInv p rk) :
    ∀ n x, x ∈ alKeys p → hrank p rk x ≤ n → (rootN (n + 1) p x).isSome := by
  intro n
  induction n with
  | zero =>
    intro x hxk hm
    obtain ⟨y, hy⟩ := Option.isSome_iff_exists.mp ((alGet?_isSome_iff_mem_keys p x).mpr hxk)
    by_cases hyx : y = x
    · unfold rootN
      simp [hy, hyx]
    · exfalso
      have hlt := rank_lt_of_edge p rk hinv x y hy hyx
      have hyk : y ∈ alKeys p := hinv.2.1 (x, y) (mem_of_alGet?_eq_some p x y hy)
      have : y ∈ (alKeys p).filter (fun k => decide (rkv rk x < rkv rk k)) :=
        List.mem_filter.mpr ⟨hyk, by simpa using hlt⟩
      have h1 : 0 < hrank p rk x := List.length_pos.mpr (fun he => by simp [he] at this)
      omega
  | succ n ih =>
    intro x hxk hm
    obtain ⟨y, hy⟩ := Option.isSome_iff_exists.mp ((alGet?_isSome_iff_mem_keys p x).mpr hxk)
    by_cases hyx : y = x
    · unfold rootN
      simp [hy, hyx]
    · have hlt := rank_lt_of_edge p rk hinv x y hy hyx
      have hyk : y ∈ alKeys p := hinv.2.1 (x, y) (mem_of_alGet?_eq_some p x y hy)
      have hsub : List.Sublist ((alKeys p).filter (fun k => decide (rkv rk y < rkv rk k)))
          ((alKeys p).filter (fun k => decide (rkv rk x < rkv rk k))) := by
        refine List.monotone_filter_right _ (fun a ha => ?_)
        have h1 : rkv rk y < rkv rk a := of_decide_eq_true ha
        exact decide_eq_true (by omega)
      have hymem : y ∈ (alKeys p).filter (fun k => decide (rkv rk x < rkv rk k)) :=
        List.mem_filter.mpr ⟨hyk, by simpa using hlt⟩
      have hynot : y ∉ (alKeys p).filter (fun k => decide (rkv rk y < rkv rk k)) := by
        intro hc
        have := (List.mem_filter.mp hc).2
        simp at this
      have hstrict : hrank p rk y < hrank p rk x := by
        rcases lt_or_eq_of_le hsub.length_le with h | h
        · exact h
        · exact absurd (hsub.eq_of_length h ▸ hymem) hynot
      have := ih y hyk (by omega)
      obtain ⟨r, hr⟩ := Option.isSome_iff_exists.mp this
      unfold rootN
      simp [hy, hyx, hr]

theorem rootN_total (p : List (Coord × Coord)) (rk : List (Coord × ℕ))
    (hinv : UFInv p rk) (x : Coord) (hx : x ∈ alKeys p) :
    ∃ r, rootN (p.length + 1) p x = some r := by
  have hb : hrank p rk x ≤ p.length := by
    calc hrank p rk x ≤ (alKeys p).length := List.length_filter_le _ _
    _ = p.length := by simp [alKeys]
  exact Option.isSome_iff_exists.mp (rootN_isSome_of_measure p rk hinv p.length x hx hb)

theorem mem_alSet {α β : Type} [DecidableEq α] (d : List (α × β)) (k : α) (v : β) :
    ∀ e ∈ alSet d k v, e ∈ d ∨ e = (k, v) := by
  induction d with
  | nil =>
    intro e he
    right
    simpa [alSet] using he
  | cons hd t ih =>
    obtain ⟨k', w⟩ := hd
    intro e he
    by_cases hk : k = k'
    · simp only [alSet, if_pos hk] at he
      rcases List.mem_cons.mp he with h | h
      · right
        rw [h, hk]
      · left
        exact List.mem_cons_of_mem _ h
    · simp only [alSet, if_neg hk] at he
      rcases List.mem_cons.mp he with h | h
      · left
        rw [h]
        exact List.mem_cons_self _ _
      · rcases ih e h with h1 | h1
        · left
          exact List.mem_cons_of_mem _ h1
        · right
          exact h1

/-- Path compression: pointing an already-chased node directly at its
root changes no root assignment and keeps the invariant. -/
theorem compress_spec (p : List (Coord × Coord)) (rk : List (Coord × ℕ)) (x r : Coord)
    (hinv : UFInv p rk) (hx : x ∈ alKeys p) (hroot : IsRoot p r) (hxr : IsRootOf p x r) :
    alKeys (alSet p x r) = alKeys p ∧ UFInv (alSet p x r) rk ∧
      (∀ z s, IsRootOf (alSet p x r) z s ↔ IsRootOf p z s) := by
  have hkeys : alKeys (alSet p x r) = alKeys p := alKeys_alSet_of_mem p x r hx
  have hgetx : alGet? (alSet p x r) x = some r := alGet?_alSet_self p x r
  have hrk : r ∈ alKeys p := mem_alKeys_of_get p r r hroot
  have hrootq : IsRoot (alSet p x r) r ∨ r = x := by
    by_cases hrx : r = x
    · exact Or.inr hrx
    · refine Or.inl ?_
      show alGet? (alSet p x r) r = some r
      rw [alGet?_alSet_ne p x r r hrx]
      exact hroot
  have hinvq : UFInv (alSet p x r) rk := by
    refine ⟨hkeys ▸ hinv.1, ?_, hkeys ▸ hinv.2.2.1, ?_⟩
    · intro e he
      rcases mem_alSet p x r e he with h | h
      · exact hkeys ▸ hinv.2.1 e h
      · rw [h, hkeys]
        exact hrk
    · intro e he hne
      rcases mem_alSet p x r e he with h | h
      · exact hinv.2.2.2 e h hne
      · rw [h] at hne ⊢
        rcases rank_lt_of_rootN p rk hinv _ x r hxr.choose_spec with heq | hlt
        · exact absurd heq.symm hne
        · exact hlt
  refine ⟨hkeys, hinvq, fun z s => ⟨?_, ?_⟩⟩
  · rintro ⟨n, hn⟩
    induction n generalizing z with
    | zero => exact absurd hn Option.noConfusion
    | succ n ih =>
      unfold rootN at hn
      by_cases hzx : z = x
      · rw [hzx] at hn ⊢
        simp only [hgetx] at hn
        by_cases hrx : r = x
        · rw [if_pos hrx] at hn
          obtain rfl : s = x := (Option.some.inj hn).symm
          exact hrx ▸ hxr
        · rw [if_neg hrx] at hn
          have hq : IsRoot (alSet p x r) r := by
            show alGet? (alSet p x r) r = some r
            rw [alGet?_alSet_ne p x r r hrx]
            exact hroot
          have hs : s = r := by
            match n, hn with
            | 0, hn => exact absurd hn Option.noConfusion
            | m + 1, hn => exact Option.some.inj (hn.symm.trans (isRoot_rootN _ r hq m))
          rw [hs]
          exact hxr
      · rw [alGet?_alSet_ne p x z r hzx] at hn
        cases hz : alGet? p z with
        | none =>
          simp only [hz] at hn
          exact Option.noConfusion hn
        | some w =>
          simp only [hz] at hn
          by_cases hwz : w = z
          · rw [if_pos hwz] at hn
            have hsz : s = z := (Option.some.inj hn).symm
            rw [hwz] at hz
            rw [hsz]
            exact isRootOf_of_isRoot p z hz
          · rw [if_neg hwz] at hn
            exact isRootOf_step p z w s hz hwz (ih w hn)
  · rintro ⟨n, hn⟩
    induction n generalizing z with
    | zero => exact absurd hn Option.noConfusion
    | succ n ih =>
      unfold rootN at hn
      cases hz : alGet? p z with
      | none =>
        simp only [hz] at hn
        exact Option.noConfusion hn
      | some w =>
        simp only [hz] at hn
        by_cases hwz : w = z
        · rw [if_pos hwz] at hn
          have hsz : s = z := (Option.some.inj hn).symm
          rw [hwz] at hz
          rw [hsz]
          by_cases hzx : z = x
          · have hzz : IsRootOf p z z := isRootOf_of_isRoot p z hz
            have hrz : r = z := by
              have h1 : IsRootOf p x z := by
                rw [← hzx]
                exact hzz
              exact isRootOf_det p x r z hxr h1
            refine isRootOf_of_isRoot _ z ?_
            show alGet? (alSet p x r) z = some z
            rw [hzx, hgetx, hrz, hzx]
          · refine isRootOf_of_isRoot _ z ?_
            show alGet? (alSet p x r) z = some z
            rw [alGet?_alSet_ne p x z r hzx]
            exact hz
        · rw [if_neg hwz] at hn
          have hws := ih w hn
          by_cases hzx : z = x
          · have hchain : IsRootOf p z s := ⟨n + 1, by
              unfold rootN
              simp only [hz, if_neg hwz]
              exact hn⟩
            have hsr : s = r := by
              have h1 : IsRootOf p x s := by
                rw [← hzx]
                exact hchain
              exact isRootOf_det p x s r h1 hxr
            have hgz : alGet? (alSet p x r) z = some r := by
              rw [hzx]
              exact hgetx
            by_cases hrx : r = x
            · exfalso
              have hxx : IsRootOf p x x := hrx ▸ hxr
              have hrootp : IsRoot p x := isRoot_of_isRootOf_self p rk hinv x hxx
              rw [hzx, hrootp] at hz
              exact hwz (by rw [hzx]; exact (Option.some.inj hz).symm)
            · have hq : IsRoot (alSet p x r) r := by
                show alGet? (alSet p x r) r = some r
                rw [alGet?_alSet_ne p x r r hrx]
                exact hroot
              by_cases hrz : r = z
              · rw [hsr, hrz]
                rw [hrz] at hgz
                exact isRootOf_of_isRoot _ z hgz
              · rw [hsr]
                exact isRootOf_step _ z r r hgz hrz (isRootOf_of_isRoot _ r hq)
          · exact isRootOf_step _ z w s (by rw [alGet?_alSet_ne p x z r hzx]; exact hz) hwz hws

/-- `find` returns exactly the chain root of its argument and, thanks to
path compression being root-preserving, leaves every root assignment
(and the invariant, and the key set) unchanged. -/
theorem ufFind_spec (rk : List (Coord × ℕ)) :
    ∀ fuel p, UFInv p rk → ∀ x r, rootN fuel p x = some r →
      ∃ p', ufFind fuel p x = some (r, p') ∧ alKeys p' = alKeys p ∧ UFInv p' rk ∧
        (∀ z s, IsRootOf p' z s ↔ IsRootOf p z s) := by
  intro fuel
  induction fuel with
  | zero =>
    intro p _ x r h
    exact absurd h Option.noConfusion
  | succ fuel ih =>
    intro p hinv x r h
    unfold rootN at h
    cases hx : alGet? p x with
    | none =>
      simp only [hx] at h
      exact Option.noConfusion h
    | some px =>
      simp only [hx] at h
      by_cases hpx : px = x
      · rw [if_pos hpx] at h
        obtain rfl := Option.some.inj h
        refine ⟨p, ?_, rfl, hinv, fun z s => Iff.rfl⟩
        unfold ufFind
        simp only [hx, if_pos hpx]
      · rw [if_neg hpx] at h
        obtain ⟨p1, hfind, hkeys1, hinv1, hiff1⟩ := ih p hinv px r h
        have hxr : IsRootOf p x r := ⟨fuel + 1, by
          unfold rootN
          simp only [hx, if_neg hpx]
          exact h⟩
        have hxr1 : IsRootOf p1 x r := (hiff1 x r).mpr hxr
        have hroot : IsRoot p r := rootN_isRoot p fuel px r h
        have hroot1 : IsRoot p1 r :=
          isRoot_of_isRootOf_self p1 rk hinv1 r ((hiff1 r r).mpr (isRootOf_of_isRoot p r hroot))
        have hx1 : x ∈ alKeys p1 := by
          rw [hkeys1]
          exact mem_alKeys_of_get p x px hx
        obtain ⟨hk2, hinv2, hiff2⟩ := compress_spec p1 rk x r hinv1 hx1 hroot1 hxr1
        refine ⟨alSet p1 x r, ?_, hk2.trans hkeys1, hinv2,
          fun z s => (hiff2 z s).trans (hiff1 z s)⟩
        unfold ufFind
        simp only [hx, if_neg hpx, hfind]

theorem sameRoot_symm (p : List (Coord × Coord)) (a b : Coord) (h : sameRoot p a b) :
    sameRoot p b a := by
  obtain ⟨r, h1, h2⟩ := h
  exact ⟨r, h2, h1⟩

theorem sameRoot_trans (p : List (Coord × Coord)) (a b c : Coord)
    (h1 : sameRoot p a b) (h2 : sameRoot p b c) : sameRoot p a c := by
  obtain ⟨r, ha, hb⟩ := h1
  obtain ⟨r', hb', hc⟩ := h2
  exact ⟨r, ha, isRootOf_det p b r' r hb' hb ▸ hc⟩

theorem sameRoot_refl_of_mem (p : List (Coord × Coord)) (rk : List (Coord × ℕ))
    (hinv : UFInv p rk) (a : Coord) (ha : a ∈ alKeys p) : sameRoot p a a := by
  obtain ⟨r, hr⟩ := rootN_total p rk hinv a ha
  exact ⟨r, ⟨_, hr⟩, ⟨_, hr⟩⟩

theorem sameRoot_iff_root (p : List (Coord × Coord)) (a x rx : Coord)
    (hx : IsRootOf p x rx) : sameRoot p a x ↔ IsRootOf p a rx := by
  constructor
  · rintro ⟨r, ha, hx'⟩
    rw [← isRootOf_det p x r rx hx' hx]
    exact ha
  · intro ha
    exact ⟨rx, ha, hx⟩

theorem sameRoot_congr (p q : List (Coord × Coord))
    (hiff : ∀ z s, IsRootOf q z s ↔ IsRootOf p z s) (a b : Coord) :
    sameRoot q a b ↔ sameRoot p a b := by
  constructor <;> rintro ⟨r, h1, h2⟩
  · exact ⟨r, (hiff a r).mp h1, (hiff b r).mp h2⟩
  · exact ⟨r, (hiff a r).mpr h1, (hiff b r).mpr h2⟩

/-- Linking the root `rb` under the root `ra` reroots exactly the class
of `rb`, and keeps the invariant whenever the rank map `rk` makes the
new edge ascend. -/
theorem link_spec (p : List (Coord × Coord)) (rk : List (Coord × ℕ)) (ra rb : Coord)
    (hnd : (alKeys p).Nodup) (hcl : ∀ e ∈ p, e.2 ∈ alKeys p)
    (hra : IsRoot p ra) (hrb : IsRoot p rb) (hne : ra ≠ rb)
    (hrkso : ∀ k ∈ alKeys p, (alGet? rk k).isSome)
    (hmono : ∀ e ∈ p, e.2 ≠ e.1 → rkv rk e.1 < rkv rk e.2)
    (hlink : rkv rk rb < rkv rk ra) :
    alKeys (alSet p rb ra) = alKeys p ∧ UFInv (alSet p rb ra) rk ∧
      (∀ z s, IsRootOf (alSet p rb ra) z s ↔
        ∃ t, IsRootOf p z t ∧ s = if t = rb then ra else t) := by
  have hrbk : rb ∈ alKeys p := mem_alKeys_of_get p rb rb hrb
  have hrak : ra ∈ alKeys p := mem_alKeys_of_get p ra ra hra
  have hkeys : alKeys (alSet p rb ra) = alKeys p := alKeys_alSet_of_mem p rb ra hrbk
  have hgetb : alGet? (alSet p rb ra) rb = some ra := alGet?_alSet_self p rb ra
  have hgeta : alGet? (alSet p rb ra) ra = some ra := by
    rw [alGet?_alSet_ne p rb ra ra hne]
    exact hra
  have hinvq : UFInv (alSet p rb ra) rk := by
    refine ⟨hkeys ▸ hnd, ?_, hkeys ▸ hrkso, ?_⟩
    · intro e he
      rcases mem_alSet p rb ra e he with h | h
      · exact hkeys ▸ hcl e h
      · rw [h, hkeys]
        exact hrak
    · intro e he hne'
      rcases mem_alSet p rb ra e he with h | h
      · exact hmono e h hne'
      · rw [h]
        exact hlink
  refine ⟨hkeys, hinvq, fun z s => ⟨?_, ?_⟩⟩
  · rintro ⟨n, hn⟩
    induction n generalizing z with
    | zero => exact absurd hn Option.noConfusion
    | succ n ih =>
      unfold rootN at hn
      by_cases hzb : z = rb
      · rw [hzb] at hn ⊢
        simp only [hgetb] at hn
        rw [if_neg (fun h => hne (h.trans rfl))] at hn
        have hs : s = ra := by
          match n, hn with
          | 0, hn => exact absurd hn Option.noConfusion
          | m + 1, hn =>
            exact Option.some.inj (hn.symm.trans (isRoot_rootN _ ra hgeta m))
        exact ⟨rb, isRootOf_of_isRoot p rb hrb, by rw [hs, if_pos rfl]⟩
      · rw [alGet?_alSet_ne p rb z ra hzb] at hn
        cases hz : alGet? p z with
        | none =>
          simp only [hz] at hn
          exact Option.noConfusion hn
        | some w =>
          simp only [hz] at hn
          by_cases hwz : w = z
          · rw [if_pos hwz] at hn
            have hsz : s = z := (Option.some.inj hn).symm
            rw [hwz] at hz
            exact ⟨z, isRootOf_of_isRoot p z hz, by rw [hsz, if_neg hzb]⟩
          · rw [if_neg hwz] at hn
            obtain ⟨t, ht, hs⟩ := ih w hn
            exact ⟨t, isRootOf_step p z w t hz hwz ht, hs⟩
  · rintro ⟨t, ⟨n, hn⟩, hs⟩
    induction n generalizing z with
    | zero => exact absurd hn Option.noConfusion
    | succ n ih =>
      unfold rootN at hn
      cases hz : alGet? p z with
      | none =>
        simp only [hz] at hn
        exact Option.noConfusion hn
      | some w =>
        simp only [hz] at hn
        by_cases hwz : w = z
        · rw [if_pos hwz] at hn
          have htz : t = z := (Option.some.inj hn).symm
          rw [hwz] at hz
          by_cases hzb : z = rb
          · rw [hs, htz, hzb, if_pos rfl]
            exact isRootOf_step _ rb ra ra hgetb hne (isRootOf_of_isRoot _ ra hgeta)
          · rw [hs, htz, if_neg hzb]
            refine isRootOf_of_isRoot _ z ?_
            show alGet? (alSet p rb ra) z = some z
            rw [alGet?_alSet_ne p rb z ra hzb]
            exact hz
        · rw [if_neg hwz] at hn
          have hzb : z ≠ rb := by
            intro hzb
            rw [hzb, hrb] at hz
            exact hwz ((Option.some.inj hz).symm ▸ hzb.symm ▸ rfl)
          exact isRootOf_step _ z w s
            (by rw [alGet?_alSet_ne p rb z ra hzb]; exact hz) hwz (ih w hn)

theorem link_sameRoot (p q : List (Coord × Coord)) (ra rb : Coord) (hne : ra ≠ rb)
    (hiff : ∀ z s, IsRootOf q z s ↔ ∃ t, IsRootOf p z t ∧ s = if t = rb then ra else t) :
    ∀ a b, sameRoot q a b ↔
      (sameRoot p a b ∨ (IsRootOf p a ra ∧ IsRootOf p b rb) ∨
        (IsRootOf p a rb ∧ IsRootOf p b ra)) := by
  intro a b
  constructor
  · rintro ⟨s, h1, h2⟩
    obtain ⟨t1, ht1, e1⟩ := (hiff a s).mp h1
    obtain ⟨t2, ht2, e2⟩ := (hiff b s).mp h2
    by_cases hb1 : t1 = rb <;> by_cases hb2 : t2 = rb
    · rw [hb1] at ht1
      rw [hb2] at ht2
      exact Or.inl ⟨rb, ht1, ht2⟩
    · rw [e1, if_pos hb1] at e2
      rw [if_neg hb2] at e2
      rw [hb1] at ht1
      rw [← e2] at ht2
      exact Or.inr (Or.inr ⟨ht1, ht2⟩)
    · rw [e2, if_pos hb2] at e1
      rw [if_neg hb1] at e1
      rw [hb2] at ht2
      rw [← e1] at ht1
      exact Or.inr (Or.inl ⟨ht1, ht2⟩)
    · rw [e1, if_neg hb1] at e2
      rw [if_neg hb2] at e2
      rw [← e2] at ht2
      exact Or.inl ⟨t1, ht1, ht2⟩
  · rintro (⟨r, h1, h2⟩ | ⟨h1, h2⟩ | ⟨h1, h2⟩)
    · exact ⟨if r = rb then ra else r, (hiff a _).mpr ⟨r, h1, rfl⟩, (hiff b _).mpr ⟨r, h2, rfl⟩⟩
    · refine ⟨ra, (hiff a ra).mpr ⟨ra, h1, by rw [if_neg hne]⟩,
        (hiff b ra).mpr ⟨rb, h2, by rw [if_pos rfl]⟩⟩
    · refine ⟨ra, (hiff a ra).mpr ⟨rb, h1, by rw [if_pos rfl]⟩,
        (hiff b ra).mpr ⟨ra, h2, by rw [if_neg hne]⟩⟩

/-- `union` succeeds on two known keys, keeps the key set and the
invariant, and merges exactly the classes of `x` and `y`. -/
theorem ufUnion_spec (p : List (Coord × Coord)) (rk : List (Coord × ℕ)) (x y : Coord)
    (hinv : UFInv p rk) (hx : x ∈ alKeys p) (hy : y ∈ alKeys p) :
    ∃ p' rk', ufUnion p rk x y = some (p', rk') ∧ alKeys p' = alKeys p ∧ UFInv p' rk' ∧
      (∀ a b, sameRoot p' a b ↔
        (sameRoot p a b ∨ (sameRoot p a x ∧ sameRoot p y b) ∨
          (sameRoot p a y ∧ sameRoot p x b))) := by
  obtain ⟨rx, hrx⟩ := rootN_total p rk hinv x hx
  obtain ⟨p1, hf1, hk1, hinv1, hiff1⟩ := ufFind_spec rk (p.length + 1) p hinv x rx hrx
  have hy1 : y ∈ alKeys p1 := hk1 ▸ hy
  obtain ⟨ry, hry⟩ := rootN_total p1 rk hinv1 y hy1
  obtain ⟨p2, hf2, hk2, hinv2, hiff2⟩ := ufFind_spec rk (p1.length + 1) p1 hinv1 y ry hry
  have hiff12 : ∀ z s, IsRootOf p2 z s ↔ IsRootOf p z s :=
    fun z s => (hiff2 z s).trans (hiff1 z s)
  have hxrx : IsRootOf p x rx := ⟨_, hrx⟩
  have hyry : IsRootOf p y ry := (hiff1 y ry).mp ⟨_, hry⟩
  have hk12 : alKeys p2 = alKeys p := hk2.trans hk1
  have hsame2 : ∀ a b, sameRoot p2 a b ↔ sameRoot p a b := sameRoot_congr p p2 hiff12
  have hrootxp : IsRoot p rx := rootN_isRoot p _ x rx hrx
  have hrootyp : IsRoot p ry :=
    isRoot_of_isRootOf_self p rk hinv ry
      ((hiff1 ry ry).mp (isRootOf_of_isRoot p1 ry (rootN_isRoot p1 _ y ry hry)))
  have hrx2 : IsRoot p2 rx :=
    isRoot_of_isRootOf_self p2 rk hinv2 rx ((hiff12 rx rx).mpr (isRootOf_of_isRoot p rx hrootxp))
  have hry2 : IsRoot p2 ry :=
    isRoot_of_isRootOf_self p2 rk hinv2 ry ((hiff12 ry ry).mpr (isRootOf_of_isRoot p ry hrootyp))
  by_cases hrxy : rx = ry
  · refine ⟨p2, rk, ?_, hk12, hinv2, ?_⟩
    · unfold ufUnion
      simp only [hf1, hf2]
      rw [if_pos hrxy]
    · intro a b
      rw [hsame2]
      constructor
      · exact Or.inl
      · rintro (h | ⟨h1, h2⟩ | ⟨h1, h2⟩)
        · exact h
        · have hxy : sameRoot p x y := ⟨rx, hxrx, by rw [hrxy]; exact hyry⟩
          exact sameRoot_trans p a x b h1 (sameRoot_trans p x y b hxy h2)
        · have hyx : sameRoot p y x := ⟨rx, (by rw [hrxy]; exact hyry), hxrx⟩
          exact sameRoot_trans p a y b h1 (sameRoot_trans p y x b hyx h2)
  · have hrxk : rx ∈ alKeys p := mem_alKeys_of_get p rx rx hrootxp
    have hryk : ry ∈ alKeys p := mem_alKeys_of_get p ry ry hrootyp
    obtain ⟨rkX, hrkX⟩ := Option.isSome_iff_exists.mp (hinv.2.2.1 rx hrxk)
    obtain ⟨rkY, hrkY⟩ := Option.isSome_iff_exists.mp (hinv.2.2.1 ry hryk)
    have hrkvx : rkv rk rx = rkX := by simp [rkv, hrkX]
    have hrkvy : rkv rk ry = rkY := by simp [rkv, hrkY]
    have hconv : ∀ q : List (Coord × Coord),
        (∀ a b, sameRoot q a b ↔
          (sameRoot p a b ∨ (IsRootOf p a rx ∧ IsRootOf p b ry) ∨
            (IsRootOf p a ry ∧ IsRootOf p b rx))) →
        ∀ a b, sameRoot q a b ↔
          (sameRoot p a b ∨ (sameRoot p a x ∧ sameRoot p y b) ∨
            (sameRoot p a y ∧ sameRoot p x b)) := by
      intro q hq a b
      rw [hq a b]
      constructor
      · rintro (h | ⟨h1, h2⟩ | ⟨h1, h2⟩)
        · exact Or.inl h
        · exact Or.inr (Or.inl ⟨(sameRoot_iff_root p a x rx hxrx).mpr h1,
            sameRoot_symm p b y ((sameRoot_iff_root p b y ry hyry).mpr h2)⟩)
        · exact Or.inr (Or.inr ⟨(sameRoot_iff_root p a y ry hyry).mpr h1,
            sameRoot_symm p b x ((sameRoot_iff_root p b x rx hxrx).mpr h2)⟩)
      · rintro (h | ⟨h1, h2⟩ | ⟨h1, h2⟩)
        · exact Or.inl h
        · exact Or.inr (Or.inl ⟨(sameRoot_iff_root p a x rx hxrx).mp h1,
            (sameRoot_iff_root p b y ry hyry).mp (sameRoot_symm p y b h2)⟩)
        · exact Or.inr (Or.inr ⟨(sameRoot_iff_root p a y ry hyry).mp h1,
            (sameRoot_iff_root p b x rx hxrx).mp (sameRoot_symm p x b h2)⟩)
    by_cases h1 : rkY < rkX
    · obtain ⟨hk3, hinv3, hiff3⟩ := link_spec p2 rk rx ry hinv2.1 hinv2.2.1 hrx2 hry2 hrxy
        hinv2.2.2.1 hinv2.2.2.2 (by rw [hrkvx, hrkvy]; exact h1)
      have hiffc : ∀ z s, IsRootOf (alSet p2 ry rx) z s ↔
          ∃ t, IsRootOf p z t ∧ s = if t = ry then rx else t := by
        intro z s
        rw [hiff3 z s]
        constructor
        · rintro ⟨t, ht, hs⟩
          exact ⟨t, (hiff12 z t).mp ht, hs⟩
        · rintro ⟨t, ht, hs⟩
          exact ⟨t, (hiff12 z t).mpr ht, hs⟩
      refine ⟨alSet p2 ry rx, rk, ?_, hk3.trans hk12, hinv3,
        hconv _ (link_sameRoot p (alSet p2 ry rx) rx ry hrxy hiffc)⟩
      unfold ufUnion
      simp only [hf1, hf2]
      rw [if_neg hrxy]
      simp only [hrkX, hrkY]
      rw [if_pos h1]
    · by_cases h2 : rkX < rkY
      · obtain ⟨hk3, hinv3, hiff3⟩ := link_spec p2 rk ry rx hinv2.1 hinv2.2.1 hry2 hrx2
          (fun h => hrxy h.symm) hinv2.2.2.1 hinv2.2.2.2 (by rw [hrkvx, hrkvy]; exact h2)
        have hiffc : ∀ z s, IsRootOf (alSet p2 rx ry) z s ↔
            ∃ t, IsRootOf p z t ∧ s = if t = rx then ry else t := by
          intro z s
          rw [hiff3 z s]
          constructor
          · rintro ⟨t, ht, hs⟩
            exact ⟨t, (hiff12 z t).mp ht, hs⟩
          · rintro ⟨t, ht, hs⟩
            exact ⟨t, (hiff12 z t).mpr ht, hs⟩
        have hsw := link_sameRoot p (alSet p2 rx ry) ry rx (fun h => hrxy h.symm) hiffc
        refine ⟨alSet p2 rx ry, rk, ?_, hk3.trans hk12, hinv3, hconv _ (fun a b => ?_)⟩
        · unfold ufUnion
          simp only [hf1, hf2]
          rw [if_neg hrxy]
          simp only [hrkX, hrkY]
          rw [if_neg h1, if_pos h2]
        · rw [hsw a b]
          constructor
          · rintro (h | ⟨ha, hb⟩ | ⟨ha, hb⟩)
            · exact Or.inl h
            · exact Or.inr (Or.inr ⟨ha, hb⟩)
            · exact Or.inr (Or.inl ⟨ha, hb⟩)
          · rintro (h | ⟨ha, hb⟩ | ⟨ha, hb⟩)
            · exact Or.inl h
            · exact Or.inr (Or.inr ⟨ha, hb⟩)
            · exact Or.inr (Or.inl ⟨ha, hb⟩)
      · have heq : rkX = rkY := by omega
        have hrkso' : ∀ k ∈ alKeys p2, (alGet? (alSet rk rx (rkX + 1)) k).isSome := by
          intro k hk
          by_cases hkrx : k = rx
          · rw [hkrx, alGet?_alSet_self]
            rfl
          · rw [alGet?_alSet_ne rk rx k (rkX + 1) hkrx]
            exact hinv2.2.2.1 k hk
        have hrkv' : ∀ z, z ≠ rx → rkv (alSet rk rx (rkX + 1)) z = rkv rk z := by
          intro z hz
          unfold rkv
          rw [alGet?_alSet_ne rk rx z (rkX + 1) hz]
        have hrkvrx' : rkv (alSet rk rx (rkX + 1)) rx = rkX + 1 := by
          unfold rkv
          rw [alGet?_alSet_self]
          rfl
        have hmono' : ∀ e ∈ p2, e.2 ≠ e.1 → rkv (alSet rk rx (rkX + 1)) e.1 <
            rkv (alSet rk rx (rkX + 1)) e.2 := by
          intro e he hne'
          have hold := hinv2.2.2.2 e he hne'
          have he1 : e.1 ≠ rx := by
            intro h
            have hg : alGet? p2 e.1 = some e.2 := alGet?_eq_some_of_mem p2 hinv2.1 e.1 e.2 he
            rw [h] at hg
            rw [hrx2] at hg
            exact hne' (by rw [h]; exact Option.some.inj hg.symm)
          rw [hrkv' e.1 he1]
          by_cases he2 : e.2 = rx
          · rw [he2, hrkvrx']
            rw [he2, hrkvx] at hold
            omega
          · rw [hrkv' e.2 he2]
            exact hold
        obtain ⟨hk3, hinv3, hiff3⟩ := link_spec p2 (alSet rk rx (rkX + 1)) rx ry hinv2.1
          hinv2.2.1 hrx2 hry2 hrxy hrkso' hmono'
          (by rw [hrkv' ry (fun h => hrxy h.symm), hrkvrx', hrkvy]; omega)
        have hiffc : ∀ z s, IsRootOf (alSet p2 ry rx) z s ↔
            ∃ t, IsRootOf p z t ∧ s = if t = ry then rx else t := by
          intro z s
          rw [hiff3 z s]
          constructor
          · rintro ⟨t, ht, hs⟩
            exact ⟨t, (hiff12 z t).mp ht, hs⟩
          · rintro ⟨t, ht, hs⟩
            exact ⟨t, (hiff12 z t).mpr ht, hs⟩
        refine ⟨alSet p2 ry rx, alSet rk rx (rkX + 1), ?_, hk3.trans hk12, hinv3,
          hconv _ (link_sameRoot p (alSet p2 ry rx) rx ry hrxy hiffc)⟩
        unfold ufUnion
        simp only [hf1, hf2]
        rw [if_neg hrxy]
        simp only [hrkX, hrkY]
        rw [if_neg h1, if_neg h2]

/-- Two coordinates co-occur when some close-group sublist contains
both; the reflexive-transitive closure is the relation the grouper is
meant to quotient by. -/
def cooccur (css : List (List Coord)) (a b : Coord) : Prop :=
  ∃ L ∈ css, a ∈ L ∧ b ∈ L

def transCoOccur (css : List (List Coord)) : Coord → Coord → Prop :=
  Relation.ReflTransGen (cooccur css)

theorem isRootOf_mem_keys (p : List (Coord × Coord)) (z s : Coord) (h : IsRootOf p z s) :
    z ∈ alKeys p := by
  obtain ⟨n, hn⟩ := h
  match n with
  | 0 => exact absurd hn Option.noConfusion
  | n + 1 =>
    unfold rootN at hn
    cases hz : alGet? p z with
    | none =>
      simp only [hz] at hn
      exact Option.noConfusion hn
    | some w => exact mem_alKeys_of_get p z w hz

theorem isRootOf_root_unique (p : List (Coord × Coord)) (r s : Coord)
    (hr : IsRoot p r) (h : IsRootOf p r s) : s = r :=
  isRootOf_det p r s r h (isRootOf_of_isRoot p r hr)

theorem registerCoords_cons (st : List (Coord × Coord) × List (Coord × ℕ)) (c : Coord)
    (L : List Coord) :
    registerCoords st (c :: L) =
      registerCoords (if (alGet? st.1 c).isSome then st else (alSet st.1 c c, alSet st.2 c 0))
        L := rfl

theorem register_step_chains (p : List (Coord × Coord)) (rk : List (Coord × ℕ)) (c : Coord)
    (hinv : UFInv p rk) (habs : c ∉ alKeys p) :
    ∀ n z, z ∈ alKeys p → rootN n (alSet p c c) z = rootN n p z := by
  intro n
  induction n with
  | zero => intro z _; rfl
  | succ n ih =>
    intro z hz
    have hzc : z ≠ c := fun h => habs (h ▸ hz)
    unfold rootN
    rw [alGet?_alSet_ne p c z c hzc]
    cases hw : alGet? p z with
    | none => rfl
    | some w =>
      by_cases hwz : w = z
      · simp only [if_pos hwz]
      · simp only [if_neg hwz]
        exact ih w (hinv.2.1 (z, w) (mem_of_alGet?_eq_some p z w hw))

theorem register_step_spec (p : List (Coord × Coord)) (rk : List (Coord × ℕ)) (c : Coord)
    (hinv : UFInv p rk) (habs : c ∉ alKeys p) :
    UFInv (alSet p c c) (alSet rk c 0) ∧
      (∀ k, k ∈ alKeys (alSet p c c) ↔ (k ∈ alKeys p ∨ k = c)) ∧
      (∀ z s, IsRootOf p z s → IsRootOf (alSet p c c) z s) ∧
      (∀ a b, sameRoot (alSet p c c) a b → sameRoot p a b ∨ a = b) := by
  have hkeys : alKeys (alSet p c c) = alKeys p ++ [c] := alKeys_alSet_of_not_mem p c c habs
  have hgetc : alGet? (alSet p c c) c = some c := alGet?_alSet_self p c c
  have hrootc : ∀ s, IsRootOf (alSet p c c) c s → s = c :=
    fun s h => isRootOf_root_unique _ c s hgetc h
  have hfwd : ∀ z s, IsRootOf p z s → IsRootOf (alSet p c c) z s := by
    rintro z s ⟨n, hn⟩
    exact ⟨n, (register_step_chains p rk c hinv habs n z
      (isRootOf_mem_keys p z s ⟨n, hn⟩)).trans hn⟩
  have hkiff : ∀ k, k ∈ alKeys (alSet p c c) ↔ (k ∈ alKeys p ∨ k = c) := by
    intro k
    rw [hkeys]
    simp
  refine ⟨⟨?_, ?_, ?_, ?_⟩, hkiff, hfwd, ?_⟩
  · rw [hkeys]
    simp [List.nodup_append, hinv.1, habs]
  · intro e he
    rcases mem_alSet p c c e he with h | h
    · rw [hkeys]
      exact List.mem_append_left _ (hinv.2.1 e h)
    · rw [h, hkeys]
      exact List.mem_append_right _ (List.mem_singleton.mpr rfl)
  · intro k hk
    rcases (hkiff k).mp hk with h | h
    · have hkc : k ≠ c := fun he => habs (he ▸ h)
      rw [alGet?_alSet_ne rk c k 0 hkc]
      exact hinv.2.2.1 k h
    · rw [h, alGet?_alSet_self]
      rfl
  · intro e he hne
    rcases mem_alSet p c c e he with h | h
    · have h1 : e.1 ∈ alKeys p := List.mem_map_of_mem Prod.fst h
      have h2 : e.2 ∈ alKeys p := hinv.2.1 e h
      have h1c : e.1 ≠ c := fun hx => habs (hx ▸ h1)
      have h2c : e.2 ≠ c := fun hx => habs (hx ▸ h2)
      have := hinv.2.2.2 e h hne
      unfold rkv
      rw [alGet?_alSet_ne rk c e.1 0 h1c, alGet?_alSet_ne rk c e.2 0 h2c]
      exact this
    · rw [h] at hne
      exact absurd rfl hne
  · rintro a b ⟨r, ha, hb⟩
    have hmem : ∀ z s, IsRootOf (alSet p c c) z s → z ∈ alKeys p ∨ z = c := by
      intro z s h
      exact (hkiff z).mp (isRootOf_mem_keys _ z s h)
    rcases hmem a r ha with hak | hac
    · rcases hmem b r hb with hbk | hbc
      · obtain ⟨n, hn⟩ := ha
        obtain ⟨m, hm⟩ := hb
        refine Or.inl ⟨r, ⟨n, ?_⟩, ⟨m, ?_⟩⟩
        · exact (register_step_chains p rk c hinv habs n a hak).symm.trans hn
        · exact (register_step_chains p rk c hinv habs m b hbk).symm.trans hm
      · have hrc : r = c := hrootc r (hbc ▸ hb)
        obtain ⟨n, hn⟩ := ha
        have hn' : rootN n p a = some r :=
          (register_step_chains p rk c hinv habs n a hak).symm.trans hn
        have : r ∈ alKeys p :=
          mem_alKeys_of_get p r r (rootN_isRoot p n a r hn')
        exact absurd (hrc ▸ this) habs
    · have hrc : r = c := hrootc r (hac ▸ ha)
      rcases hmem b r hb with hbk | hbc
      · obtain ⟨m, hm⟩ := hb
        have hm' : rootN m p b = some r :=
          (register_step_chains p rk c hinv habs m b hbk).symm.trans hm
        have : r ∈ alKeys p :=
          mem_alKeys_of_get p r r (rootN_isRoot p m b r hm')
        exact absurd (hrc ▸ this) habs
      · exact Or.inr (hac.trans hbc.symm)

theorem registerCoords_spec :
    ∀ (L : List Coord) (p : List (Coord × Coord)) (rk : List (Coord × ℕ)), UFInv p rk →
      UFInv (registerCoords (p, rk) L).1 (registerCoords (p, rk) L).2 ∧
      (∀ k, k ∈ alKeys (registerCoords (p, rk) L).1 ↔ (k ∈ alKeys p ∨ k ∈ L)) ∧
      (∀ z s, IsRootOf p z s → IsRootOf (registerCoords (p, rk) L).1 z s) ∧
      (∀ a b, sameRoot (registerCoords (p, rk) L).1 a b → sameRoot p a b ∨ a = b) := by
  intro L
  induction L with
  | nil =>
    intro p rk hinv
    exact ⟨hinv, fun k => by simp [registerCoords], fun z s h => h, fun a b h => Or.inl h⟩
  | cons c L ih =>
    intro p rk hinv
    rw [registerCoords_cons]
    by_cases hc : (alGet? p c).isSome
    · rw [if_pos hc]
      obtain ⟨h1, h2, h3, h4⟩ := ih p rk hinv
      refine ⟨h1, fun k => ?_, h3, h4⟩
      rw [h2 k]
      constructor
      · rintro (h | h)
        · exact Or.inl h
        · exact Or.inr (List.mem_cons_of_mem _ h)
      · rintro (h | h)
        · exact Or.inl h
        · rcases List.mem_cons.mp h with rfl | h
          · exact Or.inl ((alGet?_isSome_iff_mem_keys p k).mp hc)
          · exact Or.inr h
    · rw [if_neg hc]
      have habs : c ∉ alKeys p := fun h => hc ((alGet?_isSome_iff_mem_keys p c).mpr h)
      obtain ⟨hinv1, hk1, hf1, hs1⟩ := register_step_spec p rk c hinv habs
      obtain ⟨h1, h2, h3, h4⟩ := ih (alSet p c c) (alSet rk c 0) hinv1
      refine ⟨h1, fun k => ?_, fun z s h => h3 z s (hf1 z s h), fun a b h => ?_⟩
      · rw [h2 k]
        constructor
        · rintro (h | h)
          · rcases (hk1 k).mp h with h' | h'
            · exact Or.inl h'
            · exact Or.inr (h' ▸ List.mem_cons_self c L)
          · exact Or.inr (List.mem_cons_of_mem _ h)
        · rintro (h | h)
          · exact Or.inl ((hk1 k).mpr (Or.inl h))
          · rcases List.mem_cons.mp h with rfl | h'
            · exact Or.inl ((hk1 k).mpr (Or.inr rfl))
            · exact Or.inr h'
      · rcases h4 a b h with h' | h'
        · exact hs1 a b h'
        · exact Or.inr h'

theorem unionAdjacent_cons2 (st : List (Coord × Coord) × List (Coord × ℕ)) (x y : Coord)
    (t : List Coord) :
    unionAdjacent st (x :: y :: t) =
      (ufUnion st.1 st.2 x y).bind (fun st' => unionAdjacent st' (y :: t)) := by
  unfold unionAdjacent
  simp only [List.zip_cons_cons, List.tail_cons, List.foldlM_cons]
  rfl

theorem unionAdjacent_one (st : List (Coord × Coord) × List (Coord × ℕ)) (x : Coord) :
    unionAdjacent st [x] = some st := rfl

theorem unionAdjacent_nil (st : List (Coord × Coord) × List (Coord × ℕ)) :
    unionAdjacent st [] = some st := rfl

/-- Unioning each sequential pair of a registered sublist `L` succeeds,
keeps the keys and the invariant, only merges (never splits) classes,
adds no identification beyond the transitive target relation `R`, and
puts all of `L` into one class. -/
theorem unionAdjacent_spec (R : Coord → Coord → Prop)
    (htrans : ∀ a b c, R a b → R b c → R a c) :
    ∀ (L : List Coord) (p : List (Coord × Coord)) (rk : List (Coord × ℕ)), UFInv p rk →
      (∀ c ∈ L, c ∈ alKeys p) → (∀ u ∈ L, ∀ v ∈ L, R u v) →
      (∀ a b, sameRoot p a b → R a b) →
      ∃ p' rk', unionAdjacent (p, rk) L = some (p', rk') ∧
        alKeys p' = alKeys p ∧ UFInv p' rk' ∧
        (∀ a b, sameRoot p a b → sameRoot p' a b) ∧
        (∀ a b, sameRoot p' a b → R a b) ∧
        (∀ u ∈ L, ∀ v ∈ L, sameRoot p' u v) := by
  intro L
  induction L with
  | nil =>
    intro p rk hinv _ _ hsnd
    exact ⟨p, rk, unionAdjacent_nil _, rfl, hinv, fun a b h => h, hsnd, by simp⟩
  | cons x L ih =>
    intro p rk hinv hmem hpairs hsnd
    cases L with
    | nil =>
      refine ⟨p, rk, unionAdjacent_one _ x, rfl, hinv, fun a b h => h, hsnd, ?_⟩
      intro u hu v hv
      rw [List.mem_singleton.mp hu, List.mem_singleton.mp hv]
      exact sameRoot_refl_of_mem p rk hinv x (hmem x (List.mem_singleton.mpr rfl))
    | cons y t =>
      have hxk : x ∈ alKeys p := hmem x (List.mem_cons_self _ _)
      have hyk : y ∈ alKeys p := hmem y (List.mem_cons_of_mem _ (List.mem_cons_self _ _))
      obtain ⟨p1, rk1, hu, hk1, hinv1, hjoin⟩ := ufUnion_spec p rk x y hinv hxk hyk
      have hsnd1 : ∀ a b, sameRoot p1 a b → R a b := by
        intro a b h
        rcases (hjoin a b).mp h with h' | ⟨h1, h2⟩ | ⟨h1, h2⟩
        · exact hsnd a b h'
        · have hxy : R x y := hpairs x (List.mem_cons_self _ _) y
            (List.mem_cons_of_mem _ (List.mem_cons_self _ _))
          exact htrans a x b (hsnd a x h1) (htrans x y b hxy (hsnd y b h2))
        · have hyx : R y x := hpairs y (List.mem_cons_of_mem _ (List.mem_cons_self _ _)) x
            (List.mem_cons_self _ _)
          exact htrans a y b (hsnd a y h1) (htrans y x b hyx (hsnd x b h2))
      have hfwd1 : ∀ a b, sameRoot p a b → sameRoot p1 a b :=
        fun a b h => (hjoin a b).mpr (Or.inl h)
      obtain ⟨p', rk', hrest, hk', hinv', hfwd2, hsnd2, hcompl2⟩ := ih p1 rk1 hinv1
        (fun c hc => hk1 ▸ hmem c (List.mem_cons_of_mem _ hc))
        (fun u hu v hv => hpairs u (List.mem_cons_of_mem _ hu) v (List.mem_cons_of_mem _ hv))
        hsnd1
      refine ⟨p', rk', ?_, hk'.trans hk1, hinv', fun a b h => hfwd2 a b (hfwd1 a b h),
        hsnd2, ?_⟩
      · rw [unionAdjacent_cons2 (p, rk) x y t]
        simp only [hu, Option.bind_some]
        exact hrest
      · have hxy1 : sameRoot p1 x y := (hjoin x y).mpr (Or.inr (Or.inl
          ⟨sameRoot_refl_of_mem p rk hinv x hxk, sameRoot_refl_of_mem p rk hinv y hyk⟩))
        have hxy' : sameRoot p' x y := hfwd2 x y hxy1
        intro u hu' v hv'
        rcases List.mem_cons.mp hu' with hux | hu'
        · rcases List.mem_cons.mp hv' with hvx | hv'
          · rw [hux, hvx]
            exact hfwd2 x x (hfwd1 x x (sameRoot_refl_of_mem p rk hinv x hxk))
          · rw [hux]
            exact sameRoot_trans p' x y v hxy' (hcompl2 y (List.mem_cons_self _ _) v hv')
        · rcases List.mem_cons.mp hv' with hvx | hv'
          · rw [hvx]
            exact sameRoot_symm p' x u
              (sameRoot_trans p' x y u hxy' (hcompl2 y (List.mem_cons_self _ _) u hu'))
          · exact hcompl2 u hu' v hv'

theorem transCoOccur_trans (css : List (List Coord)) (a b c : Coord)
    (h1 : transCoOccur css a b) (h2 : transCoOccur css b c) : transCoOccur css a c :=
  Relation.ReflTransGen.trans h1 h2

theorem cooccur_pair (css : List (List Coord)) (L : List Coord) (hL : L ∈ css)
    (u v : Coord) (hu : u ∈ L) (hv : v ∈ L) : transCoOccur css u v :=
  Relation.ReflTransGen.single ⟨L, hL, hu, hv⟩

theorem sameRoot_nil_false (a b : Coord) (h : sameRoot [] a b) : False := by
  obtain ⟨r, ⟨n, hn⟩, _⟩ := h
  match n with
  | 0 => exact Option.noConfusion hn
  | n + 1 =>
    unfold rootN at hn
    exact Option.noConfusion hn

theorem ufBuild_fold_spec (css : List (List Coord)) :
    ∀ (suf : List (List Coord)), (∀ L ∈ suf, L ∈ css) →
      ∀ (p : List (Coord × Coord)) (rk : List (Coord × ℕ)), UFInv p rk →
      (∀ a b, sameRoot p a b → transCoOccur css a b) →
      ∃ p' rk',
        suf.foldlM (fun st L => unionAdjacent (registerCoords st L) L) (p, rk) =
          some (p', rk') ∧
        (∀ c, c ∈ alKeys p' ↔ (c ∈ alKeys p ∨ ∃ L ∈ suf, c ∈ L)) ∧
        UFInv p' rk' ∧
        (∀ a b, sameRoot p a b → sameRoot p' a b) ∧
        (∀ a b, sameRoot p' a b → transCoOccur css a b) ∧
        (∀ L ∈ suf, ∀ u ∈ L, ∀ v ∈ L, sameRoot p' u v) := by
  intro suf
  induction suf with
  | nil =>
    intro _ p rk hinv hsnd
    exact ⟨p, rk, rfl, fun c => by simp, hinv, fun a b h => h, hsnd, by simp⟩
  | cons L rest ih =>
    intro hsub p rk hinv hsnd
    have hL : L ∈ css := hsub L (List.mem_cons_self _ _)
    obtain ⟨hinv1, hk1, hf1, hs1⟩ := registerCoords_spec L p rk hinv
    have hfwd1 : ∀ a b, sameRoot p a b → sameRoot (registerCoords (p, rk) L).1 a b := by
      rintro a b ⟨r, ha, hb⟩
      exact ⟨r, hf1 a r ha, hf1 b r hb⟩
    have hsnd1 : ∀ a b, sameRoot (registerCoords (p, rk) L).1 a b →
        transCoOccur css a b := by
      intro a b h
      rcases hs1 a b h with h' | rfl
      · exact hsnd a b h'
      · exact Relation.ReflTransGen.refl
    obtain ⟨p2, rk2, hua, hk2, hinv2, hfwd2, hsnd2, hcompl2⟩ :=
      unionAdjacent_spec (transCoOccur css) (transCoOccur_trans css) L
        (registerCoords (p, rk) L).1 (registerCoords (p, rk) L).2 hinv1
        (fun c hc => (hk1 c).mpr (Or.inr hc))
        (fun u hu v hv => cooccur_pair css L hL u v hu hv)
        hsnd1
    obtain ⟨p', rk', hrest, hk', hinv', hfwd3, hsnd3, hcompl3⟩ := ih
      (fun L' hL' => hsub L' (List.mem_cons_of_mem _ hL')) p2 rk2 hinv2 hsnd2
    have hua' : unionAdjacent (registerCoords (p, rk) L) L = some (p2, rk2) := hua
    refine ⟨p', rk', ?_, ?_, hinv', ?_, hsnd3, ?_⟩
    · rw [List.foldlM_cons, hua']
      exact hrest
    · intro c
      rw [hk' c, hk2, hk1 c]
      constructor
      · rintro ((h | h) | ⟨L', hL', hc⟩)
        · exact Or.inl h
        · exact Or.inr ⟨L, List.mem_cons_self _ _, h⟩
        · exact Or.inr ⟨L', List.mem_cons_of_mem _ hL', hc⟩
      · rintro (h | ⟨L', hL', hc⟩)
        · exact Or.inl (Or.inl h)
        · rcases List.mem_cons.mp hL' with heq | hL'
          · exact Or.inl (Or.inr (heq ▸ hc))
          · exact Or.inr ⟨L', hL', hc⟩
    · exact fun a b h => hfwd3 a b (hfwd2 a b (hfwd1 a b h))
    · intro L' hL' u hu v hv
      rcases List.mem_cons.mp hL' with h | h
      · exact hfwd3 u v (hcompl2 u (h ▸ hu) v (h ▸ hv))
      · exact hcompl3 L' h u hu v hv

/-- Phase 1 of `group`: after registering and chaining every sublist,
the union-find identifies two coordinates exactly up to transitive
co-occurrence (soundness as stated; completeness per sublist). -/
theorem ufBuild_spec (css : List (List Coord)) :
    ∃ p rk, ufBuild css = some (p, rk) ∧ UFInv p rk ∧
      (∀ c, c ∈ alKeys p ↔ ∃ L ∈ css, c ∈ L) ∧
      (∀ a b, sameRoot p a b → transCoOccur css a b) ∧
      (∀ L ∈ css, ∀ u ∈ L, ∀ v ∈ L, sameRoot p u v) := by
  have hinv0 : UFInv ([] : List (Coord × Coord)) ([] : List (Coord × ℕ)) := by
    refine ⟨List.nodup_nil, ?_, ?_, ?_⟩ <;> intro e he <;> simp [alKeys] at he
  obtain ⟨p, rk, hfold, hkeys, hinv, _, hsnd, hcompl⟩ :=
    ufBuild_fold_spec css css (fun L hL => hL) [] [] hinv0
      (fun a b h => absurd h (fun h => sameRoot_nil_false a b h))
  refine ⟨p, rk, hfold, hinv, fun c => ?_, hsnd, hcompl⟩
  rw [hkeys c]
  simp [alKeys]

theorem mem_alSet_of_mem_ne {α β : Type} [DecidableEq α] (d : List (α × β)) (k : α) (v : β)
    (e : α × β) (he : e ∈ d) (hne : e.1 ≠ k) : e ∈ alSet d k v := by
  induction d with
  | nil => exact absurd he (List.not_mem_nil _)
  | cons hd t ih =>
    obtain ⟨k', w⟩ := hd
    by_cases hk : k = k'
    · simp only [alSet, if_pos hk]
      rcases List.mem_cons.mp he with h | h
      · exfalso
        apply hne
        rw [h, hk]
      · exact List.mem_cons_of_mem _ h
    · simp only [alSet, if_neg hk]
      rcases List.mem_cons.mp he with h | h
      · rw [h]
        exact List.mem_cons_self _ _
      · exact List.mem_cons_of_mem _ (ih h)

theorem alKeys_alSet_nodup {α β : Type} [DecidableEq α] (d : List (α × β)) (k : α) (v : β)
    (h : (alKeys d).Nodup) : (alKeys (alSet d k v)).Nodup := by
  by_cases hk : k ∈ alKeys d
  · rw [alKeys_alSet_of_mem d k v hk]
    exact h
  · rw [alKeys_alSet_of_not_mem d k v hk]
    simp [List.nodup_append, h, hk]

/-- Phase 2 of `group`: folding the bucket construction over any
remaining sublists succeeds, and the resulting buckets have
duplicate-free keys, contain only coordinates rooted at their key, are
nonempty, and jointly cover every old bucket member and every member of
the processed sublists. -/
theorem bucketsBuild_fold_spec (pstar : List (Coord × Coord)) (rk : List (Coord × ℕ))
    (css : List (List Coord))
    (hcompl : ∀ L ∈ css, ∀ u ∈ L, ∀ v ∈ L, sameRoot pstar u v)
    (hkeysall : ∀ c, (∃ L ∈ css, c ∈ L) → c ∈ alKeys pstar) :
    ∀ (suf : List (List Coord)), (∀ L ∈ suf, L ∈ css) →
    ∀ (q : List (Coord × Coord)) (G : List (Coord × List Coord)),
      UFInv q rk → (∀ z s, IsRootOf q z s ↔ IsRootOf pstar z s) →
      alKeys q = alKeys pstar → (alKeys G).Nodup →
      (∀ e ∈ G, ∀ c ∈ e.2, IsRootOf pstar c e.1) →
      (∀ e ∈ G, e.2 ≠ []) →
      (∀ L ∈ suf, L ≠ []) →
      ∃ q' G',
        suf.foldlM (fun st L =>
          match L with
          | [] => none
          | c :: _ =>
            match ufFind (st.1.length + 1) st.1 c with
            | none => none
            | some (root, p') =>
              some (p', alSet st.2 root (extendU ((alGet? st.2 root).getD []) L)))
          (q, G) = some (q', G') ∧
        (alKeys G').Nodup ∧
        (∀ e ∈ G', ∀ c ∈ e.2, IsRootOf pstar c e.1) ∧
        (∀ e ∈ G', e.2 ≠ []) ∧
        (∀ c, ((∃ e ∈ G, c ∈ e.2) ∨ ∃ L ∈ suf, c ∈ L) → ∃ e ∈ G', c ∈ e.2) := by
  intro suf
  induction suf with
  | nil =>
    intro _ q G hinvq hiffq hkq hndG hrootG hneG _
    refine ⟨q, G, rfl, hndG, hrootG, hneG, fun c hc => ?_⟩
    rcases hc with h | ⟨L, hL, _⟩
    · exact h
    · exact absurd hL (List.not_mem_nil _)
  | cons L rest ih =>
    intro hsub q G hinvq hiffq hkq hndG hrootG hneG hnonempty
    have hLcss : L ∈ css := hsub L (List.mem_cons_self _ _)
    obtain ⟨c, t, rfl⟩ : ∃ c t, L = c :: t := by
      cases L with
      | nil => exact absurd rfl (hnonempty [] (List.mem_cons_self _ _))
      | cons c t => exact ⟨c, t, rfl⟩
    have hck : c ∈ alKeys q := by
      rw [hkq]
      exact hkeysall c ⟨c :: t, hLcss, List.mem_cons_self _ _⟩
    obtain ⟨root, hroot⟩ := rootN_total q rk hinvq c hck
    obtain ⟨q1, hfind, hk1, hinv1, hiff1⟩ := ufFind_spec rk (q.length + 1) q hinvq c root hroot
    have hiff1' : ∀ z s, IsRootOf q1 z s ↔ IsRootOf pstar z s :=
      fun z s => (hiff1 z s).trans (hiffq z s)
    have hcroot : IsRootOf pstar c root := (hiffq c root).mp ⟨_, hroot⟩
    have hLroot : ∀ u ∈ c :: t, IsRootOf pstar u root := by
      intro u hu
      obtain ⟨r, hur, hcr⟩ := hcompl (c :: t) hLcss u hu c (List.mem_cons_self _ _)
      rw [← isRootOf_det pstar c r root hcr hcroot]
      exact hur
    set old : List Coord := (alGet? G root).getD [] with hold
    have holdroot : ∀ u ∈ old, IsRootOf pstar u root := by
      intro u hu
      cases hg : alGet? G root with
      | none =>
        rw [hold, hg] at hu
        exact absurd hu (List.not_mem_nil _)
      | some bkt =>
        have he : (root, bkt) ∈ G := mem_of_alGet?_eq_some G root bkt hg
        rw [hold, hg] at hu
        exact hrootG (root, bkt) he u hu
    set G1 : List (Coord × List Coord) := alSet G root (extendU old (c :: t)) with hG1
    have hndG1 : (alKeys G1).Nodup := alKeys_alSet_nodup G root _ hndG
    have hrootG1 : ∀ e ∈ G1, ∀ u ∈ e.2, IsRootOf pstar u e.1 := by
      intro e he u hu
      rcases mem_alSet G root _ e he with h | h
      · exact hrootG e h u hu
      · rw [h] at hu ⊢
        rcases extendU_sub old (c :: t) u hu with h' | h'
        · exact holdroot u h'
        · exact hLroot u h'
    have hneG1 : ∀ e ∈ G1, e.2 ≠ [] := by
      intro e he
      rcases mem_alSet G root _ e he with h | h
      · exact hneG e h
      · have h2 : e.2 = extendU old (c :: t) := by rw [h]
        rw [h2]
        exact List.ne_nil_of_mem (extendU_sub_right old (c :: t) c (List.mem_cons_self _ _))
    obtain ⟨q', G', hfold, hnd', hroot', hne', hcov'⟩ := ih
      (fun L' hL' => hsub L' (List.mem_cons_of_mem _ hL')) q1 G1 hinv1 hiff1'
      (hk1.trans hkq) hndG1 hrootG1 hneG1
      (fun L' hL' => hnonempty L' (List.mem_cons_of_mem _ hL'))
    refine ⟨q', G', ?_, hnd', hroot', hne', ?_⟩
    · rw [List.foldlM_cons]
      simp only [hfind]
      exact hfold
    · intro u hu
      have hstep : ((∃ e ∈ G, u ∈ e.2) ∨ u ∈ c :: t) → ∃ e ∈ G1, u ∈ e.2 := by
        rintro (⟨e, he, hue⟩ | huL)
        · by_cases hek : e.1 = root
          · have hge : alGet? G e.1 = some e.2 := alGet?_eq_some_of_mem G hndG e.1 e.2 he
            rw [hek] at hge
            refine ⟨(root, extendU old (c :: t)), ?_, ?_⟩
            · rw [hG1]
              exact mem_of_alGet?_eq_some _ root _ (alGet?_alSet_self G root _)
            · have : old = e.2 := by
                rw [hold, hge]
                rfl
              rw [this]
              exact extendU_sub_left e.2 (c :: t) u hue
          · exact ⟨e, mem_alSet_of_mem_ne G root _ e he hek, hue⟩
        · refine ⟨(root, extendU old (c :: t)), ?_, extendU_sub_right old (c :: t) u huL⟩
          rw [hG1]
          exact mem_of_alGet?_eq_some _ root _ (alGet?_alSet_self G root _)
      rcases hu with h | ⟨L', hL', huL'⟩
      · exact hcov' u (Or.inl (hstep (Or.inl h)))
      · rcases List.mem_cons.mp hL' with heq | hL'
        · exact hcov' u (Or.inl (hstep (Or.inr (heq ▸ huL'))))
        · exact hcov' u (Or.inr ⟨L', hL', huL'⟩)

theorem entry_eq_of_key_eq {α β : Type} [DecidableEq α] (d : List (α × β))
    (hnd : (alKeys d).Nodup) (e e' : α × β) (he : e ∈ d) (he' : e' ∈ d)
    (hk : e.1 = e'.1) : e = e' := by
  have h1 : alGet? d e.1 = some e.2 := alGet?_eq_some_of_mem d hnd e.1 e.2 he
  have h2 : alGet? d e'.1 = some e'.2 := alGet?_eq_some_of_mem d hnd e'.1 e'.2 he'
  rw [hk] at h1
  rw [h1] at h2
  exact Prod.ext hk (Option.some.inj h2)

theorem alKeys_mono_alSet {α β : Type} [DecidableEq α] (d : List (α × β)) (k k' : α) (v : β)
    (h : k' ∈ alKeys d) : k' ∈ alKeys (alSet d k v) := by
  by_cases hk : k ∈ alKeys d
  · rw [alKeys_alSet_of_mem d k v hk]
    exact h
  · rw [alKeys_alSet_of_not_mem d k v hk]
    exact List.mem_append_left _ h

theorem alKeys_self_alSet {α β : Type} [DecidableEq α] (d : List (α × β)) (k : α) (v : β) :
    k ∈ alKeys (alSet d k v) :=
  (alGet?_isSome_iff_mem_keys _ k).mp (by rw [alGet?_alSet_self]; rfl)

/-- The `id_map` fold of `IDassign` in generic form. -/
theorem foldl_alSet_generic {α β γ : Type} [DecidableEq α] (f : γ → α) (g : γ → β) :
    ∀ (l : List γ) (acc : List (α × β)),
      (∀ k, k ∈ alKeys acc → k ∈ alKeys (l.foldl (fun d x => alSet d (f x) (g x)) acc)) ∧
      (∀ x ∈ l, f x ∈ alKeys (l.foldl (fun d x => alSet d (f x) (g x)) acc)) ∧
      ((alKeys acc).Nodup → (alKeys (l.foldl (fun d x => alSet d (f x) (g x)) acc)).Nodup) ∧
      (∀ e, e ∈ l.foldl (fun d x => alSet d (f x) (g x)) acc →
        e.1 ∈ alKeys acc ∨ ∃ x ∈ l, e.1 = f x) := by
  intro l
  induction l with
  | nil =>
    intro acc
    exact ⟨fun k h => h, by simp, fun h => h, fun e he => Or.inl (List.mem_map_of_mem _ he)⟩
  | cons x l ih =>
    intro acc
    obtain ⟨hmono, hpres, hnod, hprov⟩ := ih (alSet acc (f x) (g x))
    simp only [List.foldl_cons]
    refine ⟨?_, ?_, ?_, ?_⟩
    · intro k hk
      exact hmono k (alKeys_mono_alSet acc (f x) k (g x) hk)
    · intro y hy
      rcases List.mem_cons.mp hy with rfl | hy
      · exact hmono (f y) (alKeys_self_alSet acc (f y) (g y))
      · exact hpres y hy
    · intro h
      exact hnod (alKeys_alSet_nodup acc (f x) (g x) h)
    · intro e he
      rcases hprov e he with h | ⟨y, hy, hey⟩
      · by_cases hek : e.1 = f x
        · exact Or.inr ⟨x, List.mem_cons_self _ _, hek⟩
        · left
          have : (alGet? (alSet acc (f x) (g x)) e.1).isSome :=
            (alGet?_isSome_iff_mem_keys _ e.1).mpr h
          rw [alGet?_alSet_ne acc (f x) e.1 (g x) hek] at this
          exact (alGet?_isSome_iff_mem_keys _ e.1).mp this
      · exact Or.inr ⟨y, List.mem_cons_of_mem _ hy, hey⟩

/-- The inner write loop of `IDassign`'s `pid` fold. -/
theorem writeAll_get_not_mem (i : ℤ) :
    ∀ (g : List Coord) (acc : List (Coord × ℤ)) (c : Coord), c ∉ g →
      alGet? (g.foldl (fun d x => alSet d x i) acc) c = alGet? acc c := by
  intro g
  induction g with
  | nil => intro acc c _; rfl
  | cons x g ih =>
    intro acc c hc
    have hcx : c ≠ x := fun h => hc (h ▸ List.mem_cons_self _ _)
    simp only [List.foldl_cons]
    rw [ih (alSet acc x i) c (fun h => hc (List.mem_cons_of_mem _ h))]
    exact alGet?_alSet_ne acc x c i hcx

theorem writeAll_get_mem (i : ℤ) :
    ∀ (g : List Coord) (acc : List (Coord × ℤ)) (c : Coord), c ∈ g →
      alGet? (g.foldl (fun d x => alSet d x i) acc) c = some i := by
  intro g
  induction g with
  | nil => intro acc c hc; exact absurd hc (List.not_mem_nil _)
  | cons x g ih =>
    intro acc c hc
    simp only [List.foldl_cons]
    by_cases hcg : c ∈ g
    · exact ih (alSet acc x i) c hcg
    · have hcx : c = x := by
        rcases List.mem_cons.mp hc with h | h
        · exact h
        · exact absurd h hcg
      rw [writeAll_get_not_mem i g (alSet acc x i) c hcg, hcx]
      exact alGet?_alSet_self acc x i

theorem pidFold_untouched :
    ∀ (entries : List (List Coord × ℤ)) (acc : List (Coord × ℤ)) (c : Coord),
      (∀ e ∈ entries, c ∉ e.1) →
      alGet? (entries.foldl (fun d e => e.1.foldl (fun d x => alSet d x e.2) d) acc) c =
        alGet? acc c := by
  intro entries
  induction entries with
  | nil => intro acc c _; rfl
  | cons e entries ih =>
    intro acc c hc
    simp only [List.foldl_cons]
    rw [ih _ c (fun e' he' => hc e' (List.mem_cons_of_mem _ he'))]
    exact writeAll_get_not_mem e.2 e.1 acc c (hc e (List.mem_cons_self _ _))

theorem pidFold_get (entries : List (List Coord × ℤ))
    (hdisj : ∀ e ∈ entries, ∀ e' ∈ entries, ∀ c, c ∈ e.1 → c ∈ e'.1 → e = e') :
    ∀ (acc : List (Coord × ℤ)) (e : List Coord × ℤ), e ∈ entries → ∀ c ∈ e.1,
      alGet? (entries.foldl (fun d e => e.1.foldl (fun d x => alSet d x e.2) d) acc) c =
        some e.2 := by
  induction entries with
  | nil => intro acc e he; exact absurd he (List.not_mem_nil _)
  | cons e0 entries ih =>
    intro acc e he c hc
    simp only [List.foldl_cons]
    by_cases hrest : ∃ e' ∈ entries, c ∈ e'.1
    · obtain ⟨e', he', hce'⟩ := hrest
      have hee' : e = e' := hdisj e he e' (List.mem_cons_of_mem _ he') c hc hce'
      rw [hee']
      exact ih (fun a ha b hb => hdisj a (List.mem_cons_of_mem _ ha) b
        (List.mem_cons_of_mem _ hb)) _ e' he' c hce'
    · push_neg at hrest
      have hee0 : e = e0 := by
        rcases List.mem_cons.mp he with h | h
        · exact h
        · exact absurd hc (hrest e h)
      rw [pidFold_untouched entries _ c hrest, hee0]
      exact writeAll_get_mem e0.2 e0.1 acc c (hee0 ▸ hc)

theorem resultFold_not_mem (φ : Coord → ℤ) :
    ∀ (l : List Coord) (acc : List (Coord × ℤ)) (c : Coord), c ∉ l →
      alGet? (l.foldl (fun d x => alSet d x (φ x)) acc) c = alGet? acc c := by
  intro l
  induction l with
  | nil => intro acc c _; rfl
  | cons x l ih =>
    intro acc c hc
    have hcx : c ≠ x := fun h => hc (h ▸ List.mem_cons_self _ _)
    simp only [List.foldl_cons]
    rw [ih (alSet acc x (φ x)) c (fun h => hc (List.mem_cons_of_mem _ h))]
    exact alGet?_alSet_ne acc x c (φ x) hcx

/-- The `result_dict` fold of `IDassign`: each position maps to a value
determined by the position alone, so the final lookup is that value. -/
theorem resultFold_get (φ : Coord → ℤ) :
    ∀ (l : List Coord) (acc : List (Coord × ℤ)),
      (∀ k v, alGet? acc k = some v → v = φ k) →
      (∀ k v, alGet? (l.foldl (fun d c => alSet d c (φ c)) acc) k = some v → v = φ k) ∧
      (∀ c ∈ l, (alGet? (l.foldl (fun d c => alSet d c (φ c)) acc) c).isSome) := by
  intro l
  induction l with
  | nil =>
    intro acc hacc
    exact ⟨hacc, by simp⟩
  | cons x l ih =>
    intro acc hacc
    have hacc1 : ∀ k v, alGet? (alSet acc x (φ x)) k = some v → v = φ k := by
      intro k v hkv
      by_cases hkx : k = x
      · rw [hkx, alGet?_alSet_self] at hkv
        rw [hkx]
        exact (Option.some.inj hkv).symm
      · rw [alGet?_alSet_ne acc x k (φ x) hkx] at hkv
        exact hacc k v hkv
    obtain ⟨hval, hdef⟩ := ih (alSet acc x (φ x)) hacc1
    simp only [List.foldl_cons]
    refine ⟨hval, ?_⟩
    intro c hc
    rcases List.mem_cons.mp hc with heq | hc
    · by_cases hcl : c ∈ l
      · exact hdef c hcl
      · rw [resultFold_not_mem φ l (alSet acc x (φ x)) c hcl, heq, alGet?_alSet_self]
        rfl
    · exact hdef c hc

theorem transCoOccur_sameRoot (pstar : List (Coord × Coord)) (rk : List (Coord × ℕ))
    (css : List (List Coord)) (hinv : UFInv pstar rk)
    (hkeysall : ∀ c, (∃ L ∈ css, c ∈ L) → c ∈ alKeys pstar)
    (hcompl : ∀ L ∈ css, ∀ x ∈ L, ∀ y ∈ L, sameRoot pstar x y)
    (a b : Coord) (h : transCoOccur css a b) (hb : ∃ L ∈ css, b ∈ L) :
    sameRoot pstar a b := by
  unfold transCoOccur at h
  induction h using Relation.ReflTransGen.head_induction_on with
  | refl => exact sameRoot_refl_of_mem pstar rk hinv b (hkeysall b hb)
  | head hab _ ih =>
    obtain ⟨L, hL, hx, hy⟩ := hab
    exact sameRoot_trans _ _ _ _ (hcompl L hL _ hx _ hy) ih

theorem close_detect_flat_nonempty (sbf : List (List Coord)) :
    ∀ L ∈ (close_detect sbf).1, L ≠ [] := by
  intro L hL
  unfold close_detect at hL
  simp only at hL
  obtain ⟨l, hl, hLl⟩ := List.mem_flatten.mp hL
  obtain ⟨S, _, rfl⟩ := List.mem_map.mp hl
  have hf := (List.mem_filter.mp hLl).2
  intro hnil
  rw [hnil] at hf
  simp at hf

theorem zip_range_mem {α : Type} (l : List α) (x : α) (hx : x ∈ l) :
    ∃ i, (x, i) ∈ l.zip (List.range l.length) := by
  obtain ⟨i, hi, hget⟩ := List.mem_iff_getElem.mp hx
  refine ⟨i, ?_⟩
  have hlen : (l.zip (List.range l.length)).length = l.length := by simp
  refine List.mem_iff_getElem.mpr ⟨i, by omega, ?_⟩
  rw [List.getElem_zip]
  rw [List.getElem_range]
  rw [hget]

/-- The common-gid core of the `groupID` closure law: coordinates of
`positions` related by transitive co-occurrence receive equal values in
the `IDassign` result dictionary. -/
theorem gid_eq_of_transCoOccur (css : List (List Coord)) (positions : List Coord)
    (hne : ∀ L ∈ css, L ≠ []) :
    ∃ groups, group css = some groups ∧
      ∀ a b, a ∈ positions → b ∈ positions → transCoOccur css a b →
        alGet? (IDassign groups positions) a = alGet? (IDassign groups positions) b := by
  obtain ⟨pstar, rk, hbuild, hinv, hkeys, _, hcompl⟩ := ufBuild_spec css
  obtain ⟨q', G', hbk, hndG, hrootG, hneG, hcov⟩ :=
    bucketsBuild_fold_spec pstar rk css hcompl (fun c hc => (hkeys c).mpr hc) css
      (fun _ hL => hL) pstar [] hinv (fun _ _ => Iff.rfl) rfl List.nodup_nil
      (by simp) (by simp) hne
  have hbk' : bucketsBuild pstar css = some (q', G') := hbk
  have hgroup : group css = some (G'.map (fun e => e.2)) := by
    unfold group
    rw [hbuild]
    show (bucketsBuild pstar css).bind (fun bk => some (bk.2.map (fun e => e.2))) = _
    rw [hbk']
    rfl
  refine ⟨G'.map (fun e => e.2), hgroup, ?_⟩
  intro a b ha hb htc
  by_cases hab : a = b
  · rw [hab]
  · have hamem : ∃ L ∈ css, a ∈ L := by
      rcases Relation.ReflTransGen.cases_head htc with heq | ⟨w, hcw, _⟩
      · exact absurd heq hab
      · obtain ⟨L, hL, haL, _⟩ := hcw
        exact ⟨L, hL, haL⟩
    have hbmem : ∃ L ∈ css, b ∈ L := by
      rcases Relation.ReflTransGen.cases_tail htc with heq | ⟨w, _, hwb⟩
      · exact absurd heq.symm hab
      · obtain ⟨L, hL, _, hbL⟩ := hwb
        exact ⟨L, hL, hbL⟩
    obtain ⟨ea, hea, haea⟩ := hcov a (Or.inr hamem)
    obtain ⟨eb, heb, hbeb⟩ := hcov b (Or.inr hbmem)
    have hsr : sameRoot pstar a b :=
      transCoOccur_sameRoot pstar rk css hinv (fun c hc => (hkeys c).mpr hc) hcompl a b htc hbmem
    have hra : IsRootOf pstar a ea.1 := hrootG ea hea a haea
    have hrb : IsRootOf pstar b eb.1 := hrootG eb heb b hbeb
    obtain ⟨r, hr1, hr2⟩ := hsr
    have hkeq : ea.1 = eb.1 := by
      rw [← isRootOf_det pstar a r ea.1 hr1 hra, ← isRootOf_det pstar b r eb.1 hr2 hrb]
    have heq : ea = eb := entry_eq_of_key_eq G' hndG ea eb hea heb hkeq
    have hgmem : ea.2 ∈ G'.map (fun e => e.2) := List.mem_map_of_mem _ hea
    have hbg : b ∈ ea.2 := heq.symm ▸ hbeb
    have huniq : ∀ c g₁ g₂, g₁ ∈ G'.map (fun e => e.2) → g₂ ∈ G'.map (fun e => e.2) →
        c ∈ g₁ → c ∈ g₂ → g₁ = g₂ := by
      intro c g₁ g₂ h₁ h₂ hc₁ hc₂
      obtain ⟨e₁, he₁, rfl⟩ := List.mem_map.mp h₁
      obtain ⟨e₂, he₂, rfl⟩ := List.mem_map.mp h₂
      have k₁ : IsRootOf pstar c e₁.1 := hrootG e₁ he₁ c hc₁
      have k₂ : IsRootOf pstar c e₂.1 := hrootG e₂ he₂ c hc₂
      rw [entry_eq_of_key_eq G' hndG e₁ e₂ he₁ he₂ (isRootOf_det pstar c e₁.1 e₂.1 k₁ k₂)]
    set groups := G'.map (fun e => e.2) with hgroups
    set idMap := (groups.zip (List.range groups.length)).foldl
      (fun acc gi => alSet acc (sortC gi.1) ((gi.2 : ℕ) : ℤ)) [] with hidMap
    set pid := idMap.foldl (fun acc e => e.1.foldl (fun acc c => alSet acc c e.2) acc) []
      with hpid
    have hIDdef : IDassign groups positions =
        positions.foldl (fun acc c => alSet acc c ((alGet? pid c).getD (-1))) [] := rfl
    obtain ⟨hval, hdef⟩ := resultFold_get (fun c => (alGet? pid c).getD (-1)) positions []
      (fun k v h => Option.noConfusion h)
    have hrd : ∀ c ∈ positions, alGet? (IDassign groups positions) c =
        some ((alGet? pid c).getD (-1)) := by
      intro c hc
      rw [hIDdef]
      obtain ⟨w, hw⟩ := Option.isSome_iff_exists.mp (hdef c hc)
      rw [hw, hval c w hw]
    rw [hrd a ha, hrd b hb]
    obtain ⟨hmono, hpres, hnodup, hprov⟩ :=
      foldl_alSet_generic (fun gi : List Coord × ℕ => sortC gi.1) (fun gi => ((gi.2 : ℕ) : ℤ))
        (groups.zip (List.range groups.length)) []
    obtain ⟨i, hgi⟩ := zip_range_mem groups ea.2 hgmem
    have hkeyp : sortC ea.2 ∈ alKeys idMap := hpres (ea.2, i) hgi
    obtain ⟨j, hj⟩ := Option.isSome_iff_exists.mp ((alGet?_isSome_iff_mem_keys _ _).mpr hkeyp)
    have hE : ((sortC ea.2, j) : List Coord × ℤ) ∈ idMap := mem_of_alGet?_eq_some idMap _ j hj
    have hdisj : ∀ E, E ∈ idMap → ∀ E', E' ∈ idMap → ∀ c, c ∈ E.1 → c ∈ E'.1 → E = E' := by
      intro E hEm E' hEm' c hcE hcE'
      rcases hprov E hEm with h | ⟨gi₁, hgi₁, hE₁⟩
      · simp [alKeys] at h
      rcases hprov E' hEm' with h | ⟨gi₂, hgi₂, hE₂⟩
      · simp [alKeys] at h
      have hg₁ : gi₁.1 ∈ groups := by
        obtain ⟨x, y⟩ := gi₁
        exact (List.of_mem_zip hgi₁).1
      have hg₂ : gi₂.1 ∈ groups := by
        obtain ⟨x, y⟩ := gi₂
        exact (List.of_mem_zip hgi₂).1
      have hc₁ : c ∈ gi₁.1 := (sortC_mem gi₁.1 c).mp (hE₁ ▸ hcE)
      have hc₂ : c ∈ gi₂.1 := (sortC_mem gi₂.1 c).mp (hE₂ ▸ hcE')
      have : gi₁.1 = gi₂.1 := huniq c gi₁.1 gi₂.1 hg₁ hg₂ hc₁ hc₂
      exact entry_eq_of_key_eq idMap (hnodup List.nodup_nil) E E' hEm hEm'
        (by rw [hE₁, hE₂, this])
    have hain : a ∈ (sortC ea.2, j).1 := (sortC_mem ea.2 a).mpr haea
    have hbin : b ∈ (sortC ea.2, j).1 := (sortC_mem ea.2 b).mpr hbg
    have hpa : alGet? pid a = some j := pidFold_get idMap hdisj [] (sortC ea.2, j) hE a hain
    have hpb : alGet? pid b = some j := pidFold_get idMap hdisj [] (sortC ea.2, j) hE b hbin
    rw [hpa, hpb]

/-- **C1.** For every run of the pipeline (any per-frame detection lists
fed through `close_detect` and then `group_and_id`), any two detected
coordinates that appear together in the same per-frame close-group are
assigned the same cross-frame group ID by `groupID`; conversely, two
detected coordinates with different group IDs never co-occur, directly
or transitively, in any per-frame close-group. -/
theorem groupID_closure (sbf : List (List Coord)) (positions : List Coord) (u v : Coord)
    (hu : u ∈ positions) (hv : v ∈ positions) :
    ∃ gs gid nd, group_and_id (close_detect sbf).1 positions = some (gs, gid, nd) ∧
      (cooccur (close_detect sbf).1 u v → alGet? gid u = alGet? gid v) ∧
      (alGet? gid u ≠ alGet? gid v → ¬ transCoOccur (close_detect sbf).1 u v) := by
  obtain ⟨groups, hgroup, hmain⟩ :=
    gid_eq_of_transCoOccur (close_detect sbf).1 positions (close_detect_flat_nonempty sbf)
  refine ⟨groups, IDassign groups positions, get_num_detections positions, ?_, ?_, ?_⟩
  · unfold group_and_id
    rw [hgroup]
    rfl
  · intro hco
    exact hmain u v hu hv (Relation.ReflTransGen.single hco)
  · intro hneq htc
    exact hneq (hmain u v hu hv htc)

theorem groupID_closure_witness :
    ((0, 0) : Coord) ∈ ([(0, 0), (0, 8)] : List Coord) ∧
    ((0, 8) : Coord) ∈ ([(0, 0), (0, 8)] : List Coord) ∧
    (∃ gs gid nd,
      group_and_id (close_detect ([[(0, 0), (0, 4)], [(0, 4), (0, 8)]] :
            List (List Coord))).1 ([(0, 0), (0, 8)] : List Coord) = some (gs, gid, nd) ∧
      (cooccur (close_detect ([[(0, 0), (0, 4)], [(0, 4), (0, 8)]] :
            List (List Coord))).1 (0, 0) (0, 8) →
        alGet? gid (0, 0) = alGet? gid (0, 8)) ∧
      (alGet? gid (0, 0) ≠ alGet? gid (0, 8) →
        ¬ transCoOccur (close_detect ([[(0, 0), (0, 4)], [(0, 4), (0, 8)]] :
            List (List Coord))).1 (0, 0) (0, 8))) :=
  ⟨by decide, by decide,
    groupID_closure ([[(0, 0), (0, 4)], [(0, 4), (0, 8)]] : List (List Coord))
      ([(0, 0), (0, 8)] : List Coord) (0, 0) (0, 8) (by decide) (by decide)⟩

end SourceDetect
